import Mathlib

/-!
YaneuraOu mini: bit primitives, occupancy indexing, sliding attacks and the transposition table.

A shallow embedding of `src/shogi.h`, `src/bitboard.h` and `src/tt.cpp`. Machine words are
natural numbers, reduced modulo `2 ^ 64` where the C++ arithmetic can wrap.
-/

namespace YaneuraOu

/-! ## Definitions -/

/-- Two's-complement negation of a 64-bit word, the bit pattern of `-(int64_t)x`; for the word
`2 ^ 63` the negation wraps to `2 ^ 63` itself. -/
def neg64 (x : Nat) : Nat := (2 ^ 64 - x % 2 ^ 64) % 2 ^ 64

/-- The loop of `pext` (shogi.h): `for (bb = 1; mask; bb += bb) { if (val & mask & -mask) res |= bb; mask &= mask - 1; }`.
The first argument bounds the number of iterations; the loop leaves as soon as `mask` is zero. -/
def pextLoop : Nat → Nat → Nat → Nat → Nat → Nat
  | 0, _, _, _, res => res
  | fuel + 1, val, mask, bb, res =>
    if mask = 0 then res
    else
      pextLoop fuel val (mask &&& (mask - 1)) ((bb + bb) % 2 ^ 64)
        (if val &&& mask &&& neg64 mask ≠ 0 then res ||| bb else res)

/-- Software `pext` of shogi.h on 64-bit words. Each iteration clears one bit of `mask`,
so 64 iterations always reach `mask = 0`. -/
def pext (val mask : Nat) : Nat := pextLoop 64 val mask 1 0

/-- Positions of the set bits of a 64-bit word, in ascending order. -/
def setBits (m : Nat) : List Nat := (List.range 64).filter (fun j => m.testBit j)

/-- Packing of the bits of `val` at the listed positions, one output bit per position. -/
def packList (val : Nat) : List Nat → Nat → Nat → Nat
  | [], _, res => res
  | k :: S, bb, res =>
    packList val S ((bb + bb) % 2 ^ 64) (if val.testBit k then res ||| bb else res)

/-- Bit of `val` at the `i`-th listed position, `false` past the end of the list. -/
def bitAt (val : Nat) (S : List Nat) (i : Nat) : Bool :=
  match S[i]? with
  | some k => val.testBit k
  | none => false

/-- Number of set bits of a 64-bit word. -/
def popcount (m : Nat) : Nat := (setBits m).length

/-- The function `PEXT64` of the non-AVX2 build (shogi.h). -/
def PEXT64 (a b : Nat) : Nat := pext a b

/-- Deposit of the low bits of `n` at the listed positions (inverse of the packing). -/
def depositList : List Nat → Nat → Nat
  | [], _ => 0
  | k :: S, n => (if n % 2 = 1 then 2 ^ k else 0) ||| depositList S (n / 2)

/-- The 64-bit words `v` with `v & ~mask = 0`. -/
def maskSubsets (mask : Nat) : Set Nat :=
  {v | v < 2 ^ 64 ∧ v &&& (mask ^^^ (2 ^ 64 - 1)) = 0}

/-- Reinterpretation of the low 32 bits of a word as `int32_t`. -/
def toInt32 (x : Nat) : Int :=
  if x % 2 ^ 32 < 2 ^ 31 then ((x % 2 ^ 32 : Nat) : Int) else ((x % 2 ^ 32 : Nat) : Int) - 2 ^ 32

/-- Software `POPCNT64` of shogi.h (the build without SSE4.2), on a 64-bit word. -/
def POPCNT64 (a : Nat) : Int :=
  let a := ((a &&& 0x5555555555555555) + (a >>> 1 &&& 0x5555555555555555)) % 2 ^ 64
  let a := ((a &&& 0x3333333333333333) + (a >>> 2 &&& 0x3333333333333333)) % 2 ^ 64
  let a := ((a &&& 0x0f0f0f0f0f0f0f0f) + (a >>> 4 &&& 0x0f0f0f0f0f0f0f0f)) % 2 ^ 64
  let a := ((a &&& 0x00ff00ff00ff00ff) + (a >>> 8 &&& 0x00ff00ff00ff00ff)) % 2 ^ 64
  let a := ((a &&& 0x0000ffff0000ffff) + (a >>> 16 &&& 0x0000ffff0000ffff)) % 2 ^ 64
  toInt32 a + toInt32 (a >>> 32)

/-- Sum of the low `n` bits of `a`. -/
def bitSum : Nat → Nat → Nat
  | 0, _ => 0
  | n + 1, a => a % 2 + bitSum n (a / 2)

/-- The word whose `n` fields of width `w` hold the bit counts of the `w`-bit blocks of `a`. -/
def fieldCount (w : Nat) : Nat → Nat → Nat
  | 0, _ => 0
  | n + 1, a => bitSum w (a % 2 ^ w) + 2 ^ w * fieldCount w n (a / 2 ^ w)

/-- The mask with `n` fields of width `2 * w`, each with its low `w` bits set. -/
def swarMask (w : Nat) : Nat → Nat
  | 0 => 0
  | n + 1 => (2 ^ w - 1) + 2 ^ (2 * w) * swarMask w n

/-- Pairwise sums of adjacent `w`-bit fields, as `n` fields of width `2 * w`. -/
def pairSums (w : Nat) : Nat → Nat → Nat
  | 0, _ => 0
  | n + 1, a => (a % 2 ^ w + a / 2 ^ w % 2 ^ w) + 2 ^ (2 * w) * pairSums w n (a / 2 ^ (2 * w))

/-- The constant `ONE_PLY` of `enum Depth` (shogi.h). -/
def ONE_PLY : Int := 2

/-- Modelled from the spec: the declaration of `TTEntry` (tt.h) is not part of the source; the
fields are those tt.cpp reads (`key16`, `depth8`, `genBound8`) and the move and value of the
spec's Entry. `key16` and `genBound8` are unsigned, `depth8` is signed. -/
structure TTEntry where
  key16 : Nat
  move16 : Nat
  value16 : Int
  depth8 : Int
  genBound8 : Nat
deriving DecidableEq

/-- Modelled from the spec: `TTEntry::set_generation` (tt.h) is not part of the source; it
refreshes the generation bits of the generation+bound byte and keeps the two low bound bits. -/
def TTEntry.set_generation (e : TTEntry) (g : Nat) : TTEntry :=
  { e with genBound8 := (e.genBound8 &&& 0x3) ||| g }

/-- Modelled from the spec: the declaration of `TranspositionTable` (tt.h) is not part of the
source. `table c i` is `table[c].entry[i]`, `ClusterSize` the number of entries of a cluster,
`clusterCount` the number of clusters, `generation8` the 8-bit generation counter. -/
structure TranspositionTable where
  ClusterSize : Nat
  clusterCount : Nat
  table : Nat → Nat → TTEntry
  generation8 : Nat

/-- Result of `probe`: the flag `found` and the returned pointer `&table[cluster].entry[entry]`,
with the table after the call. -/
structure ProbeResult where
  found : Bool
  cluster : Nat
  entry : Nat
  tt : TranspositionTable

/-- First loop of `probe` (tt.cpp), from index `i` with `n` entries left: stops at the first entry
that is empty (`found = false`) or whose `key16` matches (`found = true`). -/
def probeScan (tte : Nat → TTEntry) (key16 : Nat) : Nat → Nat → Option (Bool × Nat)
  | 0, _ => none
  | n + 1, i =>
    if (tte i).key16 = 0 then some (false, i)
    else if (tte i).key16 = key16 then some (true, i)
    else probeScan tte key16 n (i + 1)

/-- The value the replacement loop of `probe` compares:
`depth8 - ((259 + generation8 - genBound8) & 0xFC) * 2 * ONE_PLY`.
Both bytes are unsigned 8-bit, so `259 + generation8 - genBound8` is positive. -/
def replaceScore (generation8 : Nat) (e : TTEntry) : Int :=
  e.depth8 - (((259 + generation8 - e.genBound8) &&& 0xFC : Nat) : Int) * 2 * ONE_PLY

/-- Second loop of `probe` (tt.cpp), from index `i` with `n` entries left; `r` is the index of
`replace`. -/
def replaceLoop (generation8 : Nat) (tte : Nat → TTEntry) : Nat → Nat → Nat → Nat
  | 0, _, r => r
  | n + 1, i, r =>
    replaceLoop generation8 tte n (i + 1)
      (if replaceScore generation8 (tte r) > replaceScore generation8 (tte i) then i else r)

/-- Index of the cluster addressed by `key`: `(size_t)key & (clusterCount - 1)`, 64-bit. -/
def TranspositionTable.clusterIndex (tt : TranspositionTable) (key : Nat) : Nat :=
  key % 2 ^ 64 &&& (tt.clusterCount + 2 ^ 64 - 1) % 2 ^ 64

/-- The 16-bit fragment `key >> 48` of a 64-bit key. -/
def key16Of (key : Nat) : Nat := ((key % 2 ^ 64) >>> 48) % 2 ^ 16

/-- The function `TranspositionTable::probe` of tt.cpp. -/
def TranspositionTable.probe (tt : TranspositionTable) (key : Nat) : ProbeResult :=
  let c := tt.clusterIndex key
  let tte := tt.table c
  match probeScan tte (key16Of key) tt.ClusterSize 0 with
  | some (true, i) =>
    { found := true, cluster := c, entry := i,
      tt := { tt with table := fun c1 i1 =>
        if c1 = c ∧ i1 = i then (tte i).set_generation tt.generation8 else tt.table c1 i1 } }
  | some (false, i) => { found := false, cluster := c, entry := i, tt := tt }
  | none =>
    { found := false, cluster := c,
      entry := replaceLoop tt.generation8 tte (tt.ClusterSize - 1) 1 0, tt := tt }

/-- An entry with the given fragment, depth and generation+bound byte. -/
def mkEntry (key16 : Nat) (depth8 : Int) (genBound8 : Nat) : TTEntry :=
  { key16 := key16, move16 := 0, value16 := 0, depth8 := depth8, genBound8 := genBound8 }

/-- A table of one cluster of three entries, as left zero-filled by `resize`. -/
def zeroTable : TranspositionTable :=
  { ClusterSize := 3, clusterCount := 1, table := fun _ _ => mkEntry 0 0 0, generation8 := 0 }

/-- A full cluster without a matching fragment: the situation in which `probe` must evict. -/
def fullNoMatch (tt : TranspositionTable) (key : Nat) : Prop :=
  ∀ j, j < tt.ClusterSize →
    (tt.table (tt.clusterIndex key) j).key16 ≠ 0 ∧
    (tt.table (tt.clusterIndex key) j).key16 ≠ key16Of key

/-- Wraparound-safe age of a generation+bound byte `b` at generation `g`: the difference modulo
256 of the generations, the two bound bits of `b` masked out. -/
def wrapAge (g b : Nat) : Nat := (g + 256 - (b &&& 0xFC)) % 256

instance (tt : TranspositionTable) (key : Nat) : Decidable (fullNoMatch tt key) := by
  unfold fullNoMatch; infer_instance

/-- A full cluster at generation 8: depths 0, 10, 20 and generations 8, 4, 8. -/
def evictTable : TranspositionTable :=
  { ClusterSize := 3, clusterCount := 1, generation8 := 8,
    table := fun _ i => if i = 0 then mkEntry 1 0 8 else if i = 1 then mkEntry 2 10 4
      else mkEntry 3 20 8 }

/-- A cluster whose first entry is empty and whose second entry holds fragment 7. -/
def holeTable : TranspositionTable :=
  { ClusterSize := 3, clusterCount := 1, generation8 := 0,
    table := fun _ i => if i = 1 then mkEntry 7 0 0 else mkEntry 0 0 0 }

/-- A full cluster just after the generation counter wrapped to 0: equal depths, generations
252, 0 and 248 (with bound bits 1, 2, 3). -/
def wrapTable : TranspositionTable :=
  { ClusterSize := 3, clusterCount := 1, generation8 := 0,
    table := fun _ i => if i = 0 then mkEntry 1 5 253 else if i = 1 then mkEntry 2 5 2
      else mkEntry 3 5 251 }

/-- A cluster with fragments 5, 7, 9. -/
def hitTable : TranspositionTable :=
  { ClusterSize := 3, clusterCount := 1, generation8 := 4,
    table := fun _ i => if i = 0 then mkEntry 5 0 0 else if i = 1 then mkEntry 7 3 1
      else mkEntry 9 0 0 }

/-- A cluster with fragment 5 followed by two empty entries. -/
def tailTable : TranspositionTable :=
  { ClusterSize := 3, clusterCount := 1, generation8 := 4,
    table := fun _ i => if i = 0 then mkEntry 5 0 0 else mkEntry 0 0 0 }

/-- A full cluster whose second and third entries tie for the minimal score. -/
def tieTable : TranspositionTable :=
  { ClusterSize := 3, clusterCount := 1, generation8 := 8,
    table := fun _ i => if i = 0 then mkEntry 1 20 8 else if i = 1 then mkEntry 2 4 12
      else mkEntry 3 4 14 }

/-- The struct `Bitboard` of bitboard.h: the two 64-bit words `p[0]` and `p[1]`. -/
structure Bitboard where
  p0 : Nat
  p1 : Nat
deriving DecidableEq

/-- Both words of a Bitboard are 64-bit values. -/
def Bitboard.is64 (b : Bitboard) : Prop := b.p0 < 2 ^ 64 ∧ b.p1 < 2 ^ 64

/-- The method `Bitboard::merge`: `p[0] | p[1]`. -/
def Bitboard.merge (b : Bitboard) : Nat := b.p0 ||| b.p1

/-- The method `Bitboard::cross_over`: whether `p[0] & p[1]` is non-zero. -/
def Bitboard.cross_over (b : Bitboard) : Bool := decide (b.p0 &&& b.p1 ≠ 0)

/-- The operator `&` on Bitboards, word by word. -/
def Bitboard.and (a b : Bitboard) : Bitboard := ⟨a.p0 &&& b.p0, a.p1 &&& b.p1⟩

/-- The method `Bitboard::pop_count`: `(int)(POPCNT64(p[0]) + POPCNT64(p[1]))`. -/
def Bitboard.pop_count (b : Bitboard) : Int := POPCNT64 b.p0 + POPCNT64 b.p1

/-- The function `occupiedToIndex` of bitboard.h: `PEXT64(occupied.merge(), mask.merge())`. -/
def occupiedToIndex (occupied mask : Bitboard) : Nat := PEXT64 occupied.merge mask.merge

/-- Conversion of an integer to `uint64_t`. -/
def toU64 (x : Int) : Nat := (x % 2 ^ 64).toNat

/-- The sliding-attack tables declared `extern` in bitboard.h; their contents are filled in
elsewhere and are taken as parameters. `RookEffect i` is `RookEffect[i]`, and so on. -/
structure EffectTables where
  BishopEffect : Nat → Bitboard
  BishopEffectMask : Nat → Bitboard
  BishopEffectIndex : Nat → Int
  RookEffect : Nat → Bitboard
  RookEffectMask : Nat → Bitboard
  RookEffectIndex : Nat → Int
  LanceEffect : Nat → Nat → Nat → Bitboard

/-- The function `bishopEffect` of bitboard.h. The `int` table index is added to the `uint64_t`
result of `occupiedToIndex` in 64-bit unsigned arithmetic. -/
def bishopEffect (T : EffectTables) (sq : Nat) (occupied : Bitboard) : Bitboard :=
  let block := occupied.and (T.BishopEffectMask sq)
  T.BishopEffect (toU64 (T.BishopEffectIndex sq + occupiedToIndex block (T.BishopEffectMask sq)))

/-- The function `rookEffect` of bitboard.h. -/
def rookEffect (T : EffectTables) (sq : Nat) (occupied : Bitboard) : Bitboard :=
  let block := occupied.and (T.RookEffectMask sq)
  T.RookEffect (toU64 (T.RookEffectIndex sq + occupiedToIndex block (T.RookEffectMask sq)))

/-- The constant `ZERO_BB` of bitboard.h. -/
def ZERO_BB : Bitboard := ⟨0, 0⟩

/-- The operator `|` on Bitboards, word by word. -/
def Bitboard.or (a b : Bitboard) : Bitboard := ⟨a.p0 ||| b.p0, a.p1 ||| b.p1⟩

/-- Modelled from the spec: the table `SquareBB` is filled in bitboard.cpp, which is not part of
the source. The layout is the one of the spec's BoardMask (and of `Bitboard::pop`): squares
0..62 are the bits of `p[0]`, squares 63..80 the bits 0..17 of `p[1]`. -/
def SquareBB (sq : Nat) : Bitboard :=
  if sq < 63 then ⟨2 ^ sq, 0⟩ else ⟨0, 2 ^ (sq - 63)⟩

/-- Whether square `sq` is in the Bitboard (the test `b & sq` of bitboard.h). -/
def Bitboard.test (b : Bitboard) (sq : Nat) : Bool :=
  if sq < 63 then b.p0.testBit sq else b.p1.testBit (sq - 63)

/-- The Bitboard of a list of squares. -/
def bbOfSquares (l : List Nat) : Bitboard :=
  l.foldr (fun sq b => (SquareBB sq).or b) ZERO_BB

/-- The board squares met when leaving `sq` in direction `(df, dr)` (file step, rank step),
nearest first, up to the board edge. Square `sq` has file `sq / 9` and rank `sq % 9`. -/
def rayLine (sq : Nat) (df dr : Int) : List Nat :=
  (List.range 8).filterMap (fun k =>
    if 0 ≤ (sq / 9 : Nat) + ((k : Int) + 1) * df ∧ (sq / 9 : Nat) + ((k : Int) + 1) * df < 9 ∧
        0 ≤ (sq % 9 : Nat) + ((k : Int) + 1) * dr ∧ (sq % 9 : Nat) + ((k : Int) + 1) * dr < 9 then
      some (9 * ((sq / 9 : Nat) + ((k : Int) + 1) * df) + ((sq % 9 : Nat) + ((k : Int) + 1) * dr)).toNat
    else none)

/-- The prefix of a ray up to and including the first square satisfying `p`. -/
def upToFirst (p : Nat → Bool) : List Nat → List Nat
  | [] => []
  | x :: xs => x :: (if p x then [] else upToFirst p xs)

/-- The four directions of the rook and of the bishop. -/
def rookDirs : List (Int × Int) := [(0, -1), (0, 1), (-1, 0), (1, 0)]

def bishopDirs : List (Int × Int) := [(-1, -1), (-1, 1), (1, -1), (1, 1)]

/-- Modelled from the spec: naive ray-casting (spec 4.1). From `sq`, each ray of the piece class
runs outward until an occupied square (inclusive) or the board edge; the destinations are
accumulated into one Bitboard. -/
def rayCastAttack (dirs : List (Int × Int)) (sq : Nat) (occ : Bitboard) : Bitboard :=
  bbOfSquares (dirs.flatMap (fun d => upToFirst occ.test (rayLine sq d.1 d.2)))

/-- Modelled from the spec: the squares of the occupancy mask (spec 3), the squares on the rays
from `sq` without the edge square at which each ray stops regardless. -/
def maskSquares (dirs : List (Int × Int)) (sq : Nat) : List Nat :=
  dirs.flatMap (fun d => (rayLine sq d.1 d.2).dropLast)

/-- Modelled from the spec: the occupancy mask of `sq` as a Bitboard. -/
def effectMask (dirs : List (Int × Int)) (sq : Nat) : Bitboard :=
  bbOfSquares (maskSquares dirs sq)

/-- Modelled from the spec: `index(origin)`, the start of the contiguous sub-range of the flat
table owned by a square; the sub-range of `sq` has `2 ^ popcount(mask)` entries. -/
def effectIndex (dirs : List (Int × Int)) : Nat → Nat
  | 0 => 0
  | sq + 1 => effectIndex dirs sq + 2 ^ (effectMask dirs sq).pop_count.toNat

/-- Modelled from the spec: the stores of the table build (spec 4.1). For each origin square and
each subset of its occupancy mask, the ray-cast attack set is stored at the dense index of the
subset, `index(origin) + extract(subset, mask)`. -/
def effectStores (dirs : List (Int × Int)) : List (Nat × Bitboard) :=
  (List.range 81).flatMap (fun sq =>
    (maskSquares dirs sq).sublists.map (fun l =>
      (effectIndex dirs sq + occupiedToIndex (bbOfSquares l) (effectMask dirs sq),
        rayCastAttack dirs sq (bbOfSquares l))))

/-- A table after a sequence of stores `table[i] = v`, in order. -/
def storeAll (stores : List (Nat × Bitboard)) (init : Nat → Bitboard) : Nat → Bitboard :=
  stores.foldl (fun t w => Function.update t w.1 w.2) init

/-- The function `Bitboard::part`: `static_cast<int>(SQ_79 < sq)`, with `SQ_79 = 62`. -/
def Bitboard.part (sq : Nat) : Nat := if 62 < sq then 1 else 0

/-- The word `p[i]` of a Bitboard. -/
def Bitboard.p (b : Bitboard) (i : Nat) : Nat := if i = 0 then b.p0 else b.p1

/-- The table `Slide` of bitboard.h. -/
def Slide (sq : Nat) : Nat :=
  [1, 1, 1, 1, 1, 1, 1, 1, 1,
   10, 10, 10, 10, 10, 10, 10, 10, 10,
   19, 19, 19, 19, 19, 19, 19, 19, 19,
   28, 28, 28, 28, 28, 28, 28, 28, 28,
   37, 37, 37, 37, 37, 37, 37, 37, 37,
   46, 46, 46, 46, 46, 46, 46, 46, 46,
   55, 55, 55, 55, 55, 55, 55, 55, 55,
   1, 1, 1, 1, 1, 1, 1, 1, 1,
   10, 10, 10, 10, 10, 10, 10, 10, 10,
   0].getD sq 0

/-- The index of `lanceEffect` and `rookEffectFile`:
`(occupied.p[Bitboard::part(sq)] >> Slide[sq]) & 127`. -/
def lanceIndex (sq : Nat) (occupied : Bitboard) : Nat :=
  (occupied.p (Bitboard.part sq) >>> Slide sq) &&& 127

/-- The function `lanceEffect` of bitboard.h; colour `c` is 0 for BLACK and 1 for WHITE. -/
def lanceEffect (T : EffectTables) (c sq : Nat) (occupied : Bitboard) : Bitboard :=
  T.LanceEffect c sq (lanceIndex sq occupied)

/-- The direction of the lance of colour `c`: BLACK (0) moves towards rank 1, WHITE towards
rank 9. -/
def lanceDirs (c : Nat) : List (Int × Int) := if c = 0 then [(0, -1)] else [(0, 1)]

/-- The seven squares of the file of `sq` between its two edge squares. -/
def fileInnerSquares (sq : Nat) : List Nat :=
  (List.range 7).map (fun j => 9 * (sq / 9) + j + 1)

/-- Modelled from the spec: the stores that build `LanceEffect[c][sq]` (spec 4.1), the table of
the straight-line-restricted class. Its occupancy mask is taken to be the seven inner squares of
the file, the squares the index of `lanceEffect` reads; for each subset the ray-cast attack set
is stored at the index of the subset. -/
def lanceStores (c sq : Nat) : List (Nat × Bitboard) :=
  (fileInnerSquares sq).sublists.map (fun l =>
    (lanceIndex sq (bbOfSquares l), rayCastAttack (lanceDirs c) sq (bbOfSquares l)))

/-- Modelled from the spec: the tables as left by the one-time build (`Bitboards::init`, in
bitboard.cpp, which is not part of the source): masks, sub-range starts and the flat tables
filled by the stores above, starting from zero-initialised memory. -/
def builtTables : EffectTables :=
  { BishopEffect := storeAll (effectStores bishopDirs) (fun _ => ZERO_BB)
    BishopEffectMask := effectMask bishopDirs
    BishopEffectIndex := fun sq => (effectIndex bishopDirs sq : Int)
    RookEffect := storeAll (effectStores rookDirs) (fun _ => ZERO_BB)
    RookEffectMask := effectMask rookDirs
    RookEffectIndex := fun sq => (effectIndex rookDirs sq : Int)
    LanceEffect := fun c sq => storeAll (lanceStores c sq) (fun _ => ZERO_BB) }

/-- Tables whose every entry depends only on its index, for evaluating the lookups. -/
def probeTables : EffectTables :=
  { BishopEffect := fun i => ⟨i, 0⟩
    BishopEffectMask := fun _ => ⟨0x1400, 0⟩
    BishopEffectIndex := fun _ => 7
    RookEffect := fun i => ⟨i, 1⟩
    RookEffectMask := fun _ => ⟨0x7F00, 0xFE⟩
    RookEffectIndex := fun _ => 100
    LanceEffect := fun _ _ i => ⟨i, 2⟩ }

/-- Modelled from the spec: `TTEntry::generation` (tt.h) is not part of the source; the stored
generation is the generation+bound byte with the two low bound bits masked out. -/
def TTEntry.generation (e : TTEntry) : Nat := e.genBound8 &&& 0xFC

/-- Modelled from the spec: the store of an entry (`TTEntry::save`, tt.h) is not part of the
source. Storing for key `key` in the slot `table[c].entry[i]` writes the fragment `key >> 48`,
the move, the value, the depth and the generation+bound byte. -/
def TranspositionTable.store (tt : TranspositionTable) (c i key : Nat) (depth : Int) (move : Nat)
    (value : Int) (genBound : Nat) : TranspositionTable :=
  { tt with table := fun c1 i1 =>
      if c1 = c ∧ i1 = i then
        { key16 := key16Of key, move16 := move, value16 := value, depth8 := depth,
          genBound8 := genBound }
      else tt.table c1 i1 }

/-- Inner loop of `hashfull` (tt.cpp) over the entries of one cluster, from index `j` with `n`
entries left; `cnt` is the running count. -/
def hashfullInner (generation8 : Nat) (tte : Nat → TTEntry) : Nat → Nat → Int → Int
  | 0, _, cnt => cnt
  | n + 1, j, cnt =>
    hashfullInner generation8 tte n (j + 1)
      (if (tte j).generation = generation8 then cnt + 1 else cnt)

/-- Outer loop of `hashfull` (tt.cpp) over the clusters, from index `i` with `n` clusters left. -/
def hashfullOuter (tt : TranspositionTable) : Nat → Nat → Int → Int
  | 0, _, cnt => cnt
  | n + 1, i, cnt =>
    hashfullOuter tt n (i + 1) (hashfullInner tt.generation8 (tt.table i) tt.ClusterSize 0 cnt)

/-- The function `TranspositionTable::hashfull` of tt.cpp. -/
def TranspositionTable.hashfull (tt : TranspositionTable) : Int :=
  hashfullOuter tt (1000 / tt.ClusterSize) 0 0

/-- The number of entries of the first `1000 / ClusterSize` clusters whose stored generation is
the current generation. -/
def sampledCurrentCount (tt : TranspositionTable) : Nat :=
  ((Finset.range (1000 / tt.ClusterSize) ×ˢ Finset.range tt.ClusterSize).filter
    (fun p => (tt.table p.1 p.2).generation = tt.generation8)).card

/-- Position of the highest set bit of `b`, by halving at most `fuel` times. -/
def msbAux : Nat → Nat → Nat
  | 0, _ => 0
  | fuel + 1, b => if b / 2 = 0 then 0 else msbAux fuel (b / 2) + 1

/-- The function `msb` of shogi.h (`_BitScanReverse64`): position of the highest set bit of a
non-zero 64-bit word. -/
def msb (b : Nat) : Nat := msbAux 64 b

/-- The cluster count computed by `TranspositionTable::resize` (tt.cpp):
`size_t(1) << msb((mbSize * 1024 * 1024) / sizeof(Cluster))`, in 64-bit `size_t` arithmetic;
`sizeofCluster` is `sizeof(Cluster)`, whose declaration (tt.h) is not part of the source. -/
def newClusterCount (mbSize sizeofCluster : Nat) : Nat :=
  (1 <<< msb ((mbSize * 1024 * 1024) % 2 ^ 64 / sizeofCluster)) % 2 ^ 64

/-- The constant `ALL_BB` of bitboard.h: all 81 squares, bit 63 of `p[0]` clear. -/
def ALL_BB : Bitboard := ⟨0x7FFFFFFFFFFFFFFF, 0x3FFFF⟩

/-- The operator `^` on Bitboards, word by word. -/
def Bitboard.xor (a b : Bitboard) : Bitboard := ⟨a.p0 ^^^ b.p0, a.p1 ^^^ b.p1⟩

/-- The operator `~` on Bitboards: exclusive or with `ALL_BB`. -/
def Bitboard.not (a : Bitboard) : Bitboard := a.xor ALL_BB

/-- The file constants `FILE1_BB` .. `FILE9_BB` of bitboard.h. -/
def FILE1_BB : Bitboard := ⟨(0x1ff <<< (9 * 0)) % 2 ^ 64, 0⟩

def FILE2_BB : Bitboard := ⟨(0x1ff <<< (9 * 1)) % 2 ^ 64, 0⟩

def FILE3_BB : Bitboard := ⟨(0x1ff <<< (9 * 2)) % 2 ^ 64, 0⟩

def FILE4_BB : Bitboard := ⟨(0x1ff <<< (9 * 3)) % 2 ^ 64, 0⟩

def FILE5_BB : Bitboard := ⟨(0x1ff <<< (9 * 4)) % 2 ^ 64, 0⟩

def FILE6_BB : Bitboard := ⟨(0x1ff <<< (9 * 5)) % 2 ^ 64, 0⟩

def FILE7_BB : Bitboard := ⟨(0x1ff <<< (9 * 6)) % 2 ^ 64, 0⟩

def FILE8_BB : Bitboard := ⟨0, 0x1ff <<< (9 * 0)⟩

def FILE9_BB : Bitboard := ⟨0, 0x1ff <<< (9 * 1)⟩

/-- The rank constant `RANKn_BB` of bitboard.h for `n = k + 1`:
`Bitboard(UINT64_C(0x40201008040201) << k, 0x201 << k)`. -/
def rankBB (k : Nat) : Bitboard := ⟨(0x40201008040201 <<< k) % 2 ^ 64, 0x201 <<< k⟩

def RANK1_BB : Bitboard := rankBB 0

def RANK2_BB : Bitboard := rankBB 1

def RANK3_BB : Bitboard := rankBB 2

def RANK4_BB : Bitboard := rankBB 3

def RANK5_BB : Bitboard := rankBB 4

def RANK6_BB : Bitboard := rankBB 5

def RANK7_BB : Bitboard := rankBB 6

def RANK8_BB : Bitboard := rankBB 7

def RANK9_BB : Bitboard := rankBB 8

/-- The array `FILE_BB[FILE_NB]` of bitboard.h. -/
def FILE_BB (f : Nat) : Bitboard :=
  [FILE1_BB, FILE2_BB, FILE3_BB, FILE4_BB, FILE5_BB, FILE6_BB, FILE7_BB, FILE8_BB,
    FILE9_BB].getD f ZERO_BB

/-- The array `RANK_BB[RANK_NB]` of bitboard.h. -/
def RANK_BB (r : Nat) : Bitboard :=
  [RANK1_BB, RANK2_BB, RANK3_BB, RANK4_BB, RANK5_BB, RANK6_BB, RANK7_BB, RANK8_BB,
    RANK9_BB].getD r ZERO_BB

/-- A well-formed Bitboard: bit 63 of `p[0]` is clear and `p[1]` lies in its low 18 bits. -/
def Bitboard.wellFormed (b : Bitboard) : Prop := b.p0 < 2 ^ 63 ∧ b.p1 < 2 ^ 18

instance (b : Bitboard) : Decidable b.wellFormed := by
  unfold Bitboard.wellFormed; infer_instance

/-- The piece constants of `enum Piece` (shogi.h). -/
def NO_PIECE : Nat := 0

def PAWN : Nat := 1

def LANCE : Nat := 2

def KNIGHT : Nat := 3

def SILVER : Nat := 4

def BISHOP : Nat := 5

def ROOK : Nat := 6

def GOLD : Nat := 7

/-- The function `make_piece` of shogi.h: `pt + (c << 4)`. -/
def make_piece (pt c : Nat) : Nat := pt + (c <<< 4)

/-- The move constants of `enum Move` (shogi.h). -/
def MOVE_NONE : Nat := 0

def MOVE_DROP : Nat := 1 <<< 14

def MOVE_PROMOTE : Nat := 1 <<< 15

/-- Conversion of an integer to `uint16_t`, the underlying type of `Move`. -/
def toU16 (x : Int) : Nat := (x % 2 ^ 16).toNat

/-- The function `make_move` of shogi.h: `(Move)(to + (from << 7))`. -/
def make_move (src dst : Int) : Nat := toU16 (dst + src * 128)

/-- The function `make_move_drop` of shogi.h: `(Move)(to + (pt << 7) + MOVE_DROP)`. -/
def make_move_drop (pt : Nat) (dst : Int) : Nat := toU16 (dst + (pt : Int) * 128 + MOVE_DROP)

/-- The functions `move_from`, `move_to`, `is_drop`, `move_dropped_piece` of shogi.h. -/
def move_from (m : Nat) : Nat := (m >>> 7) &&& 0x7f

def move_to (m : Nat) : Nat := m &&& 0x7f

def is_drop (m : Nat) : Bool := decide (m &&& MOVE_DROP ≠ 0)

def move_dropped_piece (m : Nat) : Nat := move_from m

/-- The constants `HAND_KIND_*` of `enum HandKind` (shogi.h): `1 << (piece - 1)`. -/
def HAND_KIND_PAWN : Nat := 1 <<< (PAWN - 1)

def HAND_KIND_LANCE : Nat := 1 <<< (LANCE - 1)

def HAND_KIND_KNIGHT : Nat := 1 <<< (KNIGHT - 1)

def HAND_KIND_SILVER : Nat := 1 <<< (SILVER - 1)

def HAND_KIND_BISHOP : Nat := 1 <<< (BISHOP - 1)

def HAND_KIND_ROOK : Nat := 1 <<< (ROOK - 1)

def HAND_KIND_GOLD : Nat := 1 <<< (GOLD - 1)

/-- The table `PIECE_BITS` of shogi.h. -/
def PIECE_BITS (pr : Nat) : Nat := [0, 0, 8, 12, 16, 20, 24, 28].getD pr 0

/-- The table `PIECE_BIT_MASK` of shogi.h. -/
def PIECE_BIT_MASK (pr : Nat) : Nat := [0, 31, 7, 7, 7, 3, 3, 7].getD pr 0

/-- The table `PIECE_BIT_MASK2` of shogi.h: `PIECE_BIT_MASK[pr] << PIECE_BITS[pr]`. -/
def PIECE_BIT_MASK2 (pr : Nat) : Nat :=
  if pr = 0 then 0 else PIECE_BIT_MASK pr <<< PIECE_BITS pr

/-- The constant `HAND_BIT_MASK` of shogi.h. -/
def HAND_BIT_MASK : Nat :=
  PIECE_BIT_MASK2 PAWN ||| PIECE_BIT_MASK2 LANCE ||| PIECE_BIT_MASK2 KNIGHT |||
    PIECE_BIT_MASK2 SILVER ||| PIECE_BIT_MASK2 BISHOP ||| PIECE_BIT_MASK2 ROOK |||
    PIECE_BIT_MASK2 GOLD

/-- The constant `HAND_BORROW_MASK` of shogi.h, `(HAND_BIT_MASK << 1) & ~HAND_BIT_MASK`, as the
32-bit pattern handed to `PEXT32`. -/
def HAND_BORROW_MASK : Nat :=
  ((HAND_BIT_MASK <<< 1) &&& (HAND_BIT_MASK ^^^ 0xFFFFFFFF)) % 2 ^ 32

/-- The function `hand_count` of shogi.h. -/
def hand_count (hand pr : Nat) : Nat := (hand >>> PIECE_BITS pr) &&& PIECE_BIT_MASK pr

/-- The function `PEXT32` of the non-AVX2 build (shogi.h): `(uint32_t)pext(a, b)`. -/
def PEXT32 (a b : Nat) : Nat := pext a b % 2 ^ 32

/-- The function `toHandKind` of shogi.h: `PEXT32(h + HAND_BIT_MASK, HAND_BORROW_MASK)`. -/
def toHandKind (h : Nat) : Nat := PEXT32 ((h + HAND_BIT_MASK) % 2 ^ 32) HAND_BORROW_MASK

/-- Position of the lowest set bit of `b`, by halving at most `fuel` times. -/
def lsbAux : Nat → Nat → Nat
  | 0, _ => 0
  | fuel + 1, b => if b % 2 = 1 then 0 else lsbAux fuel (b / 2) + 1

/-- The bit scan of `lsb` and `pop_lsb` (shogi.h, `_BitScanForward64`): position of the lowest
set bit of a non-zero word. -/
def lsb (b : Nat) : Nat := lsbAux 64 b

/-- The table `DirectToDelta_` of mate1ply.cpp:
`{ DELTA_SW, DELTA_S, DELTA_SE, DELTA_W, DELTA_E, DELTA_NW, DELTA_N, DELTA_NE }` with
`DELTA_N = +1`, `DELTA_E = -9`, `DELTA_S = -1`, `DELTA_W = +9`. -/
def DirectToDelta (d : Nat) : Int := [8, -1, -10, 9, -9, 10, 1, -8].getD d 0

/-- The struct `ByteBoard` of mate1ply.cpp: the byte array `e`, indexed from 0. -/
structure ByteBoard where
  e : Int → Nat

/-- The method `ByteBoard::count`: `e[sq + array_offset]` with `array_offset = 16`. -/
def ByteBoard.count (b : ByteBoard) (sq : Int) : Nat := b.e (sq + 16)

/-- The method `ByteBoard::directions`: `(Directions)e[sq + array_offset]`. -/
def ByteBoard.directions (b : ByteBoard) (sq : Int) : Nat := b.e (sq + 16)

/-- The tables and live maps `mate1ply_impl` reads (globals of mate1ply.cpp and bitboard.h).
`mate1ply_drop_tbl info c k` is byte `k` of `mate1ply_drop_tbl[info][c]`: byte 0 is `hand_kind`
and byte `k` is `directions[k]` (a union). `StepEffectsBB sq c pt` is
`StepEffectsBB[sq][c][pt]`. -/
structure MateEnv where
  mate1ply_drop_tbl : Nat → Nat → Nat → Nat
  cutoff_directions : Nat → Nat → Nat
  effect : Nat → ByteBoard
  long_effect : Nat → ByteBoard
  StepEffectsBB : Nat → Nat → Nat → Bitboard

/-- Modelled from the spec: the class `Position` (position.h) is not part of the source; these
are the members `mate1ply` reads (side to move, hands, king squares, pinned pieces, occupied
squares) and the piece standing on each square. -/
structure Position where
  sideToMove : Nat
  hand : Nat → Nat
  kingSquare : Nat → Int
  pinned : Bitboard
  pieces : Bitboard
  board : Nat → Nat

/-- The function `knightEffect` of bitboard.h:
`StepEffectsBB[sq][color][PIECE_TYPE_BITBOARD_KNIGHT]`. -/
def knightEffect (env : MateEnv) (color : Nat) (sq : Int) : Bitboard :=
  env.StepEffectsBB sq.toNat color 2

/-- The conversion `operator bool` of Bitboard: some bit is set. -/
def Bitboard.toBool (b : Bitboard) : Bool := decide (b.p0 ≠ 0 ∨ b.p1 ≠ 0)

/-- The method `Bitboard::pop`: the lowest square of the Bitboard and the Bitboard without it. -/
def Bitboard.pop (b : Bitboard) : Nat × Bitboard :=
  if b.p0 ≠ 0 then (lsb b.p0, ⟨b.p0 &&& (b.p0 - 1), b.p1⟩)
  else (lsb b.p1 + 63, ⟨b.p0, b.p1 &&& (b.p1 - 1)⟩)

/-- Inner loop of `CHECK_PIECE` (mate1ply.cpp) over the bits of `cut_off`; `true` means
`goto Next`, the direction is rejected. -/
def cutOffLoop (effectUs : ByteBoard) (dst : Int) : Nat → Nat → Bool
  | 0, _ => false
  | fuel + 1, cut_off =>
    if cut_off = 0 then false
    else if effectUs.count (dst + DirectToDelta (lsb cut_off)) ≤ 1 then true
    else cutOffLoop effectUs dst fuel (cut_off &&& (cut_off - 1))

/-- Outer loop of `CHECK_PIECE` (mate1ply.cpp) over the bits of `directions` for the piece `pc`;
the move returned is `make_move_drop(GOLD, to)`, as written in the macro. -/
def dropLoop (env : MateEnv) (us : Nat) (themKing : Int) (pc : Nat) : Nat → Nat → Option Nat
  | 0, _ => none
  | fuel + 1, directions =>
    if directions = 0 then none
    else
      let dst := themKing + DirectToDelta (lsb directions)
      if cutOffLoop (env.effect us) dst 32
          (env.cutoff_directions pc (lsb directions) &&& (env.long_effect us).directions dst)
      then dropLoop env us themKing pc fuel (directions &&& (directions - 1))
      else some (make_move_drop GOLD dst)

/-- The macro `CHECK_PIECE(DROP_PIECE)` of mate1ply.cpp. -/
def checkPiece (env : MateEnv) (us : Nat) (themKing : Int) (mi : Nat → Nat) (hk : Nat)
    (dropPiece handKind : Nat) : Option Nat :=
  if hk &&& handKind ≠ 0 then dropLoop env us themKing (make_piece dropPiece us) 32 (mi dropPiece)
  else none

/-- The loop over `froms` in the knight part of `mate1ply_impl`. -/
def fromsLoop (pinned : Bitboard) (dst : Int) : Nat → Bitboard → Option Nat
  | 0, _ => none
  | fuel + 1, froms =>
    if froms.toBool then
      if (pinned.and (SquareBB froms.pop.1)).toBool then fromsLoop pinned dst fuel froms.pop.2
      else some (make_move froms.pop.1 dst)
    else none

/-- The loop over `drop_target` in the knight part of `mate1ply_impl`. -/
def knightLoop (env : MateEnv) (pos : Position) (them ourHand : Nat) : Nat → Bitboard → Option Nat
  | 0, _ => none
  | fuel + 1, drop_target =>
    if drop_target.toBool then
      if (env.effect them).count drop_target.pop.1 = 0 then
        if ourHand &&& HAND_KIND_KNIGHT ≠ 0 then some (make_move_drop KNIGHT drop_target.pop.1)
        else
          match fromsLoop pos.pinned drop_target.pop.1 128
              (knightEffect env them drop_target.pop.1) with
          | some m => some m
          | none => knightLoop env pos them ourHand fuel drop_target.pop.2
      else knightLoop env pos them ourHand fuel drop_target.pop.2
    else none

/-- The drop part of `mate1ply_impl` (mate1ply.cpp), up to the label `MOVE_MATE`: `none` when
control reaches the label. -/
def mate1plyDrops (env : MateEnv) (pos : Position) (us : Nat) : Option Nat :=
  let info := 0
  let mi := env.mate1ply_drop_tbl info us
  let ourHand := toHandKind (pos.hand us)
  let hk := (ourHand &&& ((HAND_KIND_PAWN ||| HAND_KIND_KNIGHT) ^^^ 0xFFFFFFFF)) &&& mi 0
  if hk = 0 then none
  else
    let themKing := pos.kingSquare (us ^^^ 1)
    (checkPiece env us themKing mi hk GOLD HAND_KIND_GOLD).orElse fun _ =>
    (checkPiece env us themKing mi hk SILVER HAND_KIND_SILVER).orElse fun _ =>
    (if hk &&& HAND_KIND_ROOK ≠ 0 then checkPiece env us themKing mi hk ROOK HAND_KIND_ROOK
      else checkPiece env us themKing mi hk LANCE HAND_KIND_LANCE).orElse fun _ =>
    checkPiece env us themKing mi hk BISHOP HAND_KIND_BISHOP

/-- The function `Position::mate1ply_impl<Us>` of mate1ply.cpp. The locals `them` and
`themKing` are initialised after the test `if (!hk) goto MOVE_MATE;`, so when `hk` is 0 the jump
skips their initialisation; the knight part, entered when `mi.hand_kind & HAND_KIND_KNIGHT` is
not 0, reads both. The result is `none` for the executions in which the knight part would read
them uninitialised (the source does not determine a result there), and `some` of the returned
move otherwise. -/
def mate1ply_impl (env : MateEnv) (pos : Position) (us : Nat) : Option Nat :=
  match mate1plyDrops env pos us with
  | some m => some m
  | none =>
    let mi := env.mate1ply_drop_tbl 0 us
    let ourHand := toHandKind (pos.hand us)
    let hk := (ourHand &&& ((HAND_KIND_PAWN ||| HAND_KIND_KNIGHT) ^^^ 0xFFFFFFFF)) &&& mi 0
    if mi 0 &&& HAND_KIND_KNIGHT ≠ 0 then
      if hk = 0 then none
      else
        let them := us ^^^ 1
        let themKing := pos.kingSquare them
        match knightLoop env pos them ourHand 128
            ((knightEffect env them themKing).and pos.pieces.not) with
        | some m => some m
        | none => some MOVE_NONE
    else some MOVE_NONE

/-- The function `Position::mate1ply` of mate1ply.cpp:
`sideToMove == BLACK ? mate1ply_impl<BLACK>() : mate1ply_impl<WHITE>()`. -/
def mate1ply (env : MateEnv) (pos : Position) : Option Nat :=
  if pos.sideToMove = 0 then mate1ply_impl env pos 0 else mate1ply_impl env pos 1

/-- The bits of `cutoff_directions[pc][d] & long_effect[Us].directions(to)` for the target
square `to = themKing + DirectToDelta(d)`. -/
def cutOffOf (env : MateEnv) (us : Nat) (themKing : Int) (pc d : Nat) : Nat :=
  env.cutoff_directions pc d &&& (env.long_effect us).directions (themKing + DirectToDelta d)

/-- A candidate direction `d` is rejected when some direction `c` of its cut-off bits leads to a
square `to + DirectToDelta(c)` that the mover attacks at most once. -/
def directionRejected (env : MateEnv) (us : Nat) (themKing : Int) (pc d : Nat) : Bool :=
  (setBits (cutOffOf env us themKing pc d)).any fun c =>
    decide ((env.effect us).count (themKing + DirectToDelta d + DirectToDelta c) ≤ 1)

/-- A ByteBoard with the listed bytes at the listed squares and 0 elsewhere. -/
def byteBoardOf (l : List (Int × Nat)) : ByteBoard :=
  ⟨fun i => ((l.find? fun p => decide (p.1 + 16 = i)).map Prod.snd).getD 0⟩

/-- The square one step `(df, dr)` away from `sq`, when it is on the board. -/
def stepTo (sq : Nat) (df dr : Int) : List Nat :=
  if 0 ≤ (sq / 9 : Nat) + df ∧ (sq / 9 : Nat) + df < 9 ∧
      0 ≤ (sq % 9 : Nat) + dr ∧ (sq % 9 : Nat) + dr < 9 then
    [(9 * ((sq / 9 : Nat) + df) + ((sq % 9 : Nat) + dr)).toNat]
  else []

/-- Modelled from the spec: the knight entries of `StepEffectsBB` (filled in bitboard.cpp, which
is not part of the source): the one-step destinations of a knight of colour `c` on `sq`, one
file to either side and two ranks forward (towards rank 1 for BLACK). -/
def knightStepBB (c sq : Nat) : Bitboard :=
  bbOfSquares (stepTo sq (-1) (if c = 0 then -2 else 2) ++ stepTo sq 1 (if c = 0 then -2 else 2))

/-- Step tables holding the knight destinations; the other entries are not read by `mate1ply`. -/
def knightOnlySteps (sq c pt : Nat) : Bitboard := if pt = 2 then knightStepBB c sq else ZERO_BB

/-- BLACK to move with a gold in hand; the WHITE king stands on square 40 (file 5, rank 5),
the BLACK king on 44, and a BLACK pawn on 42 attacks square 41, just below the WHITE king. -/
def goldPos : Position :=
  { sideToMove := 0
    hand := fun c => if c = 0 then 1 <<< 28 else 0
    kingSquare := fun c => if c = 0 then 44 else 40
    pinned := ZERO_BB
    pieces := bbOfSquares [40, 42, 44]
    board := fun sq => if sq = 40 then 24 else if sq = 44 then 8 else if sq = 42 then 1 else 0 }

/-- The tables as the source leaves them: nothing fills `mate1ply_drop_tbl` and
`cutoff_directions`, so they hold zeros; BLACK attacks square 41 once, WHITE attacks no square
around its king, there is no long attack. -/
def goldEnv : MateEnv :=
  { mate1ply_drop_tbl := fun _ _ _ => 0
    cutoff_directions := fun _ _ => 0
    effect := fun c => if c = 0 then byteBoardOf [(41, 1)] else byteBoardOf []
    long_effect := fun _ => byteBoardOf []
    StepEffectsBB := knightOnlySteps }

/-- As `goldEnv`, with a drop table whose every row except row 0 says that a gold dropped just
below the king (direction 6) mates. -/
def patternEnv : MateEnv :=
  { goldEnv with
    mate1ply_drop_tbl := fun info _ k =>
      if info = 0 then 0 else if k = 0 then HAND_KIND_GOLD else if k = GOLD then 64 else 0 }

/-- BLACK to move with one silver and no other piece in hand; kings on 40 (WHITE) and 44. -/
def silverPos : Position :=
  { goldPos with hand := fun c => if c = 0 then 1 <<< 16 else 0 }

/-- Tables whose row 0 says that a silver dropped just below the king (direction 6) mates. -/
def silverEnv : MateEnv :=
  { goldEnv with
    mate1ply_drop_tbl := fun _ _ k =>
      if k = 0 then HAND_KIND_SILVER else if k = SILVER then 64 else 0 }

/-- BLACK to move with an empty hand; the WHITE king stands on square 36 (file 5, rank 1), the
BLACK king on 44, and no other piece is on the board. -/
def knightPos : Position :=
  { sideToMove := 0
    hand := fun _ => 0
    kingSquare := fun c => if c = 0 then 44 else 36
    pinned := ZERO_BB
    pieces := bbOfSquares [36, 44]
    board := fun sq => if sq = 36 then 24 else if sq = 44 then 8 else 0 }

/-- Tables whose row 0 has the knight bit of `hand_kind` set; no square is attacked. -/
def knightEnv : MateEnv :=
  { mate1ply_drop_tbl := fun _ _ k => if k = 0 then HAND_KIND_KNIGHT else 0
    cutoff_directions := fun _ _ => 0
    effect := fun _ => byteBoardOf []
    long_effect := fun _ => byteBoardOf []
    StepEffectsBB := knightOnlySteps }

/-- Tables and maps for the drop loop: a gold may be dropped above (direction 1) or below
(direction 6) the king on 40; the drop above cuts the long attack running down through 39, and
the square 40 behind it is attacked only once, so that direction is rejected. -/
def cutEnv : MateEnv :=
  { mate1ply_drop_tbl := fun _ _ k => if k = 0 then HAND_KIND_GOLD else if k = GOLD then 66 else 0
    cutoff_directions := fun pc d => if pc = GOLD ∧ d = 1 then 64 else 0
    effect := fun c => if c = 0 then byteBoardOf [(39, 2), (40, 1), (41, 1)] else byteBoardOf []
    long_effect := fun c => if c = 0 then byteBoardOf [(39, 64)] else byteBoardOf []
    StepEffectsBB := knightOnlySteps }

/-- Tables whose row 0 alone says that a gold dropped just below the king mates; no square is
attacked by either side. -/
def rowZeroEnv : MateEnv :=
  { goldEnv with
    effect := fun _ => byteBoardOf []
    mate1ply_drop_tbl := fun info _ k =>
      if info = 0 then (if k = 0 then HAND_KIND_GOLD else if k = GOLD then 64 else 0) else 0 }

/-- The operators `<<=` and `<<` of Bitboard (bitboard.h): `_mm_slli_epi64(m, shift)`, each of the
two 64-bit words is shifted left on its own and the bits leaving a word are lost. -/
def Bitboard.shiftLeft (b : Bitboard) (shift : Nat) : Bitboard :=
  ⟨(b.p0 <<< shift) % 2 ^ 64, (b.p1 <<< shift) % 2 ^ 64⟩

/-- The operators `>>=` and `>>` of Bitboard (bitboard.h): `_mm_srli_epi64(m, shift)`, each of
the two 64-bit words is shifted right on its own. -/
def Bitboard.shiftRight (b : Bitboard) (shift : Nat) : Bitboard :=
  ⟨b.p0 >>> shift, b.p1 >>> shift⟩

/-- The function `is_promote` of shogi.h: `(m & MOVE_PROMOTE) != 0`. -/
def is_promote (m : Nat) : Bool := decide (m &&& MOVE_PROMOTE ≠ 0)

/-- The function `make_move_promote` of shogi.h: `(Move)(to + (from << 7) + MOVE_PROMOTE)`. -/
def make_move_promote (src dst : Int) : Nat := toU16 (dst + src * 128 + MOVE_PROMOTE)

/-- The 32-bit pattern of an `int32_t` value. -/
def toU32 (x : Int) : Nat := (x % 2 ^ 32).toNat

/-- The function `hand_is_equal_or_superior` of shogi.h: `((h1 - h2) & HAND_BORROW_MASK) == 0`,
the difference taken in 32-bit arithmetic. -/
def hand_is_equal_or_superior (h1 h2 : Nat) : Bool :=
  decide (toU32 ((h1 : Int) - (h2 : Int)) &&& HAND_BORROW_MASK = 0)

/-- A hand whose bits all lie inside the count fields of `HAND_BIT_MASK`: every count fits its
field and the bits between the fields are 0. -/
def handFits (h : Nat) : Prop := h &&& HAND_BIT_MASK = h

instance (h : Nat) : Decidable (handFits h) := by
  unfold handFits; infer_instance

/-- The constant `SQ_NB` of `enum Square` (shogi.h). -/
def SQ_NB : Int := 81

/-- The function `toFile` of shogi.h: `(File)(c - '1')`. A character is represented by its
code. -/
def toFile (c : Char) : Int := (c.toNat : Int) - (('1').toNat : Int)

/-- The function `toRank` of shogi.h: `(Rank)(c - 'a')`. -/
def toRank (c : Char) : Int := (c.toNat : Int) - (('a').toNat : Int)

/-- The function `is_ok(File)` of shogi.h: `FILE_ZERO <= f && f < FILE_NB`. -/
def is_ok_File (f : Int) : Bool := decide (0 ≤ f ∧ f < 9)

/-- The function `is_ok(Rank)` of shogi.h: `RANK_ZERO <= r && r < RANK_NB`. -/
def is_ok_Rank (r : Int) : Bool := decide (0 ≤ r ∧ r < 9)

/-- The function `is_ok(Square)` of shogi.h: `SQ_ZERO <= sq && sq <= SQ_NB`; the value `SQ_NB`
is accepted. -/
def is_ok_Square (sq : Int) : Bool := decide (0 ≤ sq ∧ sq ≤ SQ_NB)

/-- The function `usi_to_sq` of usi.cpp: the square `file | rank = file * 9 + rank` of a file
and a rank character, `SQ_NB` when one of them is out of range. -/
def usi_to_sq (f r : Char) : Int :=
  let file := toFile f
  let rank := toRank r
  if is_ok_File file && is_ok_Rank rank then file * 9 + rank else SQ_NB

/-- The string `PieceToCharBW` of shogi.h. -/
def PieceToCharBW : List Char := " PLNSBRGK        plnsbrgk".toList

/-- The loop `for (int i = 1; i <= 7; ++i) if (PieceToCharBW[i] == str[0]) ...` of `uci_to_move`,
from index `i` with `n` indices left: the first piece whose letter is `c`, if any. -/
def dropPieceLoop (c : Char) : Nat → Nat → Option Nat
  | 0, _ => none
  | n + 1, i => if PieceToCharBW.getD i ' ' = c then some i else dropPieceLoop c n (i + 1)

/-- The function `uci_to_move` of usi.cpp, on the characters of the string. -/
def uci_to_move (str : List Char) : Nat :=
  if str.length ≤ 3 then MOVE_NONE
  else
    let dst := usi_to_sq (str.getD 2 ' ') (str.getD 3 ' ')
    if !is_ok_Square dst then MOVE_NONE
    else
      let promote := decide (str.length = 5) && decide (str.getD 4 ' ' = '+')
      let drop := decide (str.getD 1 ' ' = '*')
      if !drop then
        let src := usi_to_sq (str.getD 0 ' ') (str.getD 1 ' ')
        if is_ok_Square src then
          (if promote then make_move_promote src dst else make_move src dst)
        else MOVE_NONE
      else
        match dropPieceLoop (str.getD 0 ' ') 7 1 with
        | some i => make_move_drop i dst
        | none => MOVE_NONE

/-- The function `move_from_usi` of usi.cpp: the legality test is commented out and the move of
`uci_to_move` is returned as it is. -/
def move_from_usi (_pos : Position) (str : List Char) : Nat := uci_to_move str

/-- Whether the two characters name a board square: a file character `1`..`9` followed by a rank
character `a`..`i`. -/
def namesSquare (f r : Char) : Bool :=
  decide (('1').toNat ≤ f.toNat ∧ f.toNat ≤ ('9').toNat ∧
    ('a').toNat ≤ r.toNat ∧ r.toNat ≤ ('i').toNat)

/-- The table `SquareToFile` of shogi.h. -/
def SquareToFile : List Nat :=
  [0, 0, 0, 0, 0, 0, 0, 0, 0,
   1, 1, 1, 1, 1, 1, 1, 1, 1,
   2, 2, 2, 2, 2, 2, 2, 2, 2,
   3, 3, 3, 3, 3, 3, 3, 3, 3,
   4, 4, 4, 4, 4, 4, 4, 4, 4,
   5, 5, 5, 5, 5, 5, 5, 5, 5,
   6, 6, 6, 6, 6, 6, 6, 6, 6,
   7, 7, 7, 7, 7, 7, 7, 7, 7,
   8, 8, 8, 8, 8, 8, 8, 8, 8]

/-- The function `file_of` of shogi.h: `SquareToFile[sq]`. -/
def file_of (sq : Nat) : Nat := SquareToFile.getD sq 0

/-- The table `SquareToRank` of shogi.h. -/
def SquareToRank : List Nat :=
  [0, 1, 2, 3, 4, 5, 6, 7, 8,
   0, 1, 2, 3, 4, 5, 6, 7, 8,
   0, 1, 2, 3, 4, 5, 6, 7, 8,
   0, 1, 2, 3, 4, 5, 6, 7, 8,
   0, 1, 2, 3, 4, 5, 6, 7, 8,
   0, 1, 2, 3, 4, 5, 6, 7, 8,
   0, 1, 2, 3, 4, 5, 6, 7, 8,
   0, 1, 2, 3, 4, 5, 6, 7, 8,
   0, 1, 2, 3, 4, 5, 6, 7, 8]

/-- The function `rank_of` of shogi.h: `SquareToRank[sq]`. -/
def rank_of (sq : Nat) : Nat := SquareToRank.getD sq 0

/-- The colour constants of `enum Color` (shogi.h). -/
def BLACK : Nat := 0

def WHITE : Nat := 1

/-- The table `InFrontBB[COLOR_NB][RANK_NB]` of bitboard.h. -/
def InFrontBB (c n : Nat) : Bitboard :=
  ([[ZERO_BB, RANK1_BB, RANK1_BB.or RANK2_BB, (RANK1_BB.or RANK2_BB).or RANK3_BB,
      ((RANK1_BB.or RANK2_BB).or RANK3_BB).or RANK4_BB,
      (((RANK9_BB.or RANK8_BB).or RANK7_BB).or RANK6_BB).not,
      ((RANK9_BB.or RANK8_BB).or RANK7_BB).not, (RANK9_BB.or RANK8_BB).not, RANK9_BB.not],
    [RANK1_BB.not, (RANK1_BB.or RANK2_BB).not, ((RANK1_BB.or RANK2_BB).or RANK3_BB).not,
      (((RANK1_BB.or RANK2_BB).or RANK3_BB).or RANK4_BB).not,
      ((RANK9_BB.or RANK8_BB).or RANK7_BB).or RANK6_BB, (RANK9_BB.or RANK8_BB).or RANK7_BB,
      RANK9_BB.or RANK8_BB, RANK9_BB, ZERO_BB]].getD c []).getD n ZERO_BB

/-- The method `Bitboard::pop_c`: the lowest square of the Bitboard, which is left as it is. -/
def Bitboard.pop_c (b : Bitboard) : Nat :=
  if b.p0 ≠ 0 then lsb b.p0 else lsb b.p1 + 63

/-- Repeated `pop` while the Bitboard is not empty (`while (bb) { sq = bb.pop(); ... }`): the
squares in the order in which they are returned. -/
def popAll : Nat → Bitboard → List Nat
  | 0, _ => []
  | fuel + 1, b => if b.toBool then b.pop.1 :: popAll fuel b.pop.2 else []

/-- The function `rookEffectFile` of bitboard.h:
`LanceEffect[BLACK][sq][index] | LanceEffect[WHITE][sq][index]` with the index of `lanceEffect`. -/
def rookEffectFile (T : EffectTables) (sq : Nat) (occupied : Bitboard) : Bitboard :=
  (T.LanceEffect BLACK sq (lanceIndex sq occupied)).or
    (T.LanceEffect WHITE sq (lanceIndex sq occupied))

/-- The move constants `MOVE_NULL` and `MOVE_RESIGN` of `enum Move` (shogi.h). -/
def MOVE_NULL : Nat := (1 <<< 7) + 1

def MOVE_RESIGN : Nat := (2 <<< 7) + 2

/-- The function `is_ok(Move)` of shogi.h: `(m >> 7) != (m & 0x7f)`. -/
def is_ok_Move (m : Nat) : Bool := decide (m >>> 7 ≠ m &&& 0x7f)

/-- The rank constant `RANK_3` of `enum Rank` (shogi.h). -/
def RANK_3 : Int := 2

/-- The function `canPromote(Color, Rank)` of shogi.h:
`0x1c00007u & (1u << ((c << 4) + fromOrToRank))`, in 32-bit unsigned arithmetic. -/
def canPromote (c r : Nat) : Bool :=
  decide (0x1c00007 &&& ((1 <<< ((c <<< 4) + r)) % 2 ^ 32) ≠ 0)

/-- The function `canPromote(Color, Square)` of shogi.h: `canPromote(c, rank_of(fromOrTo))`. -/
def canPromote_Square (c sq : Nat) : Bool := canPromote c (rank_of sq)

/-- The index `(US == BLACK ? r + 1 : 7 - r)` with which `rank1_n_bb` reads `InFrontBB[US]`. -/
def rank1_n_index (US : Nat) (r : Int) : Int := if US = BLACK then r + 1 else 7 - r

/-- The function `rank1_n_bb` of bitboard.h: `InFrontBB[US][(US == BLACK ? r + 1 : 7 - r)]`;
`none` when the index is outside the `RANK_NB = 9` entries of `InFrontBB[US]`. -/
def rank1_n_bb (US : Nat) (r : Int) : Option Bitboard :=
  if 0 ≤ rank1_n_index US r ∧ rank1_n_index US r < 9 then
    some (InFrontBB US (rank1_n_index US r).toNat)
  else none

/-- The function `enemy_field` of bitboard.h: `rank1_n_bb(US, RANK_3)`. -/
def enemy_field (US : Nat) : Option Bitboard := rank1_n_bb US RANK_3

/-- The operator `<<` for `File` of shogi.h: the character `(char)('1' + f)`. -/
def ostream_File (f : Nat) : List Char := [Char.ofNat (('1').toNat + f)]

/-- The operator `<<` for `Rank` of shogi.h: the character `(char)('a' + r)`. -/
def ostream_Rank (r : Nat) : List Char := [Char.ofNat (('a').toNat + r)]

/-- The operator `<<` for `Square` of shogi.h: `os << file_of(sq) << rank_of(sq)`. -/
def ostream_Square (sq : Nat) : List Char := ostream_File (file_of sq) ++ ostream_Rank (rank_of sq)

/-- The function `usi_piece` of shogi.h: the two characters at `pc * 2` of the piece string. -/
def usi_piece (pc : Nat) : List Char :=
  ((". P L N S B R G K +P+L+N+S+B+R+G+.p l n s b r g k +p+l+n+s+b+r+g+k".toList).drop
    (pc * 2)).take 2

/-- The operator `<<` for `Piece` of shogi.cpp: `usi_piece(pc)`, cut to one character when the
second one is a blank. -/
def ostream_Piece (pc : Nat) : List Char :=
  if (usi_piece pc).getD 1 ' ' = ' ' then (usi_piece pc).take 1 else usi_piece pc

/-- The operator `<<` for `Move` of shogi.cpp: the characters written to the stream. -/
def ostream_Move (m : Nat) : List Char :=
  if !is_ok_Move m then
    (if m = MOVE_RESIGN then "resign".toList
      else if m = MOVE_NULL then "null".toList
      else if m = MOVE_NONE then "none".toList
      else [])
  else if is_drop m then
    ostream_Piece (move_from m) ++ ['*'] ++ ostream_Square (move_to m)
  else
    ostream_Square (move_from m) ++ ostream_Square (move_to m) ++
      (if is_promote m then ['+'] else [])

/-- The method `ByteBoard::around8` of mate1ply.cpp (the build without AVX2): one bit for each
of the eight array cells at the offsets -10, -9, -8, -1, 1, 8, 9, 10 from `sq` that holds a
non-zero byte. -/
def ByteBoard.around8 (b : ByteBoard) (sq : Int) : Nat :=
  let a8 := 0
  let a8 := if b.e (sq + 16 - 10) ≠ 0 then a8 ||| 1 else a8
  let a8 := if b.e (sq + 16 - 9) ≠ 0 then a8 ||| 2 else a8
  let a8 := if b.e (sq + 16 - 8) ≠ 0 then a8 ||| 4 else a8
  let a8 := if b.e (sq + 16 - 1) ≠ 0 then a8 ||| 8 else a8
  let a8 := if b.e (sq + 16 + 1) ≠ 0 then a8 ||| 16 else a8
  let a8 := if b.e (sq + 16 + 8) ≠ 0 then a8 ||| 32 else a8
  let a8 := if b.e (sq + 16 + 9) ≠ 0 then a8 ||| 64 else a8
  let a8 := if b.e (sq + 16 + 10) ≠ 0 then a8 ||| 128 else a8
  a8 % 256

/-- The method `ByteBoard::around8_larger_than_two` of mate1ply.cpp: as `around8`, with the test
`> 1` on each byte. -/
def ByteBoard.around8_larger_than_two (b : ByteBoard) (sq : Int) : Nat :=
  let a8 := 0
  let a8 := if b.e (sq + 16 - 10) > 1 then a8 ||| 1 else a8
  let a8 := if b.e (sq + 16 - 9) > 1 then a8 ||| 2 else a8
  let a8 := if b.e (sq + 16 - 8) > 1 then a8 ||| 4 else a8
  let a8 := if b.e (sq + 16 - 1) > 1 then a8 ||| 8 else a8
  let a8 := if b.e (sq + 16 + 1) > 1 then a8 ||| 16 else a8
  let a8 := if b.e (sq + 16 + 8) > 1 then a8 ||| 32 else a8
  let a8 := if b.e (sq + 16 + 9) > 1 then a8 ||| 64 else a8
  let a8 := if b.e (sq + 16 + 10) > 1 then a8 ||| 128 else a8
  a8 % 256

/-- The offsets of the eight cells read by `around8`, bit by bit, each with the file step and
the rank step it stands for (`sq = file * 9 + rank`). -/
def around8Steps : List (Int × Int × Int) :=
  [(-10, -1, -1), (-9, -1, 0), (-8, -1, 1), (-1, 0, -1), (1, 0, 1), (8, 1, -1), (9, 1, 0),
    (10, 1, 1)]

/-- Whether the position `(df, dr)` files and ranks away from square `sq` is on the board. -/
def onBoardStep (sq : Nat) (df dr : Int) : Bool :=
  decide (0 ≤ (file_of sq : Int) + df ∧ (file_of sq : Int) + df < 9 ∧
    0 ≤ (rank_of sq : Int) + dr ∧ (rank_of sq : Int) + dr < 9)

/-- Software `POPCNT32` of shogi.h (the build without SSE4.2), on a 32-bit word. -/
def POPCNT32 (a : Nat) : Int :=
  let a := ((a &&& 0x55555555) + (a >>> 1 &&& 0x55555555)) % 2 ^ 32
  let a := ((a &&& 0x33333333) + (a >>> 2 &&& 0x33333333)) % 2 ^ 32
  let a := ((a &&& 0x0f0f0f0f) + (a >>> 4 &&& 0x0f0f0f0f)) % 2 ^ 32
  let a := ((a &&& 0x00ff00ff) + (a >>> 8 &&& 0x00ff00ff)) % 2 ^ 32
  let a := ((a &&& 0x0000ffff) + (a >>> 16 &&& 0x0000ffff)) % 2 ^ 32
  toInt32 a

/-- As `knightPos`, with one knight in the hand of BLACK. -/
def knightHandPos : Position :=
  { knightPos with hand := fun c => if c = 0 then 1 <<< 12 else 0 }

/-- As `knightEnv`, with the gold bit and the knight bit of `hand_kind` set in row 0 and no
candidate direction for any piece: for a mover holding a gold `hk` is not 0, every drop loop ends
without a move and control falls through to `MOVE_MATE` with `them` and `themKing`
initialised. -/
def knightFallEnv : MateEnv :=
  { knightEnv with
    mate1ply_drop_tbl := fun _ _ k => if k = 0 then HAND_KIND_GOLD ||| HAND_KIND_KNIGHT else 0 }

/-- As `knightPos`, with one gold and no knight in the hand of BLACK. -/
def knightFallPos : Position :=
  { knightPos with hand := fun c => if c = 0 then 1 <<< 28 else 0 }

/-- BLACK to move with a gold in hand; the WHITE king stands on square 36 (file 5, rank 1), the
BLACK king on 44 (file 5, rank 9) and a BLACK pawn on 38 (file 5, rank 3) attacks square 37,
just below the WHITE king. A gold dropped on 37 is mate. -/
def headGoldPos : Position :=
  { sideToMove := 0
    hand := fun c => if c = 0 then 1 <<< 28 else 0
    kingSquare := fun c => if c = 0 then 44 else 36
    pinned := ZERO_BB
    pieces := bbOfSquares [36, 38, 44]
    board := fun sq => if sq = 36 then 24 else if sq = 44 then 8 else if sq = 38 then 1 else 0 }

/-- The tables as the source leaves them (nothing fills `mate1ply_drop_tbl` and
`cutoff_directions`) with the attack counts of `headGoldPos`: the BLACK pawn attacks 37, the
BLACK king the squares around 44; WHITE attacks no square around its king, there is no long
attack. -/
def headGoldEnv : MateEnv :=
  { mate1ply_drop_tbl := fun _ _ _ => 0
    cutoff_directions := fun _ _ => 0
    effect := fun c =>
      if c = 0 then byteBoardOf [(37, 1), (34, 1), (35, 1), (43, 1), (52, 1), (53, 1)]
      else byteBoardOf []
    long_effect := fun _ => byteBoardOf []
    StepEffectsBB := knightOnlySteps }

/-- The eight steps `(file, rank)` of a king. -/
def kingStepList : List (Int × Int) :=
  [(-1, -1), (-1, 0), (-1, 1), (0, -1), (0, 1), (1, -1), (1, 0), (1, 1)]

/-- The six steps `(file, rank)` of a BLACK gold, which moves towards rank 1. -/
def blackGoldStepList : List (Int × Int) :=
  [(-1, -1), (0, -1), (1, -1), (-1, 0), (1, 0), (0, 1)]

/-- The board squares one step of the list away from `sq`. -/
def stepSquares (steps : List (Int × Int)) (sq : Nat) : List Nat :=
  steps.flatMap fun d => stepTo sq d.1 d.2

/-- The zero-filled table `zeroTable` at the current generation `g`. -/
def zeroTableAt (g : Nat) : TranspositionTable :=
  { ClusterSize := 3, clusterCount := 1, table := fun _ _ => mkEntry 0 0 0, generation8 := g }

/-! ## Theorems -/

theorem exists_lowbit (m : Nat) (hm : m ≠ 0) : ∃ k q, m = 2 ^ (k + 1) * q + 2 ^ k := by
  induction m using Nat.strongRecOn with
  | _ m ih =>
    rcases Nat.even_or_odd m with he | ho
    · obtain ⟨r, hr⟩ := he
      have hr0 : r ≠ 0 := by omega
      have hlt : r < m := by omega
      obtain ⟨k, q, hkq⟩ := ih r hlt hr0
      refine ⟨k + 1, q, ?_⟩
      rw [hr]
      conv_lhs => rw [hkq]
      ring
    · obtain ⟨r, hr⟩ := ho
      exact ⟨0, r, by rw [hr]; ring⟩

theorem lowbit_and_pred (k q : Nat) :
    (2 ^ (k + 1) * q + 2 ^ k) &&& (2 ^ (k + 1) * q + 2 ^ k - 1) = 2 ^ (k + 1) * q := by
  have hk : 2 ^ k < 2 ^ (k + 1) := Nat.pow_lt_pow_right (by decide) (Nat.lt_succ_self k)
  have hpos : 0 < 2 ^ k := Nat.two_pow_pos k
  have h1 : 2 ^ (k + 1) * q + 2 ^ k - 1 = 2 ^ (k + 1) * q + (2 ^ k - 1) := by omega
  rw [h1]
  apply Nat.eq_of_testBit_eq
  intro i
  rw [Nat.testBit_and, Nat.testBit_mul_pow_two_add q hk, Nat.testBit_mul_pow_two_add q (by omega : 2 ^ k - 1 < 2 ^ (k + 1)),
    Nat.testBit_mul_pow_two]
  by_cases hi : i < k + 1
  · have : ¬ (k + 1 ≤ i) := by omega
    simp only [hi, if_true, Nat.testBit_two_pow, Nat.testBit_two_pow_sub_one, this, decide_False, Bool.false_and]
    by_cases hki : k = i
    · subst hki; simp
    · simp [hki]
  · have : k + 1 ≤ i := by omega
    simp [hi, this]

theorem lowbit_bounds (k q : Nat) (h : 2 ^ (k + 1) * q + 2 ^ k < 2 ^ 64) :
    k < 64 ∧ q < 2 ^ (63 - k) := by
  have hpos : 0 < 2 ^ k := Nat.two_pow_pos k
  have hk : k < 64 := by
    by_contra hc
    have : 2 ^ 64 ≤ 2 ^ k := Nat.pow_le_pow_right (by decide) (by omega)
    have : 0 ≤ 2 ^ (k + 1) * q := Nat.zero_le _
    omega
  refine ⟨hk, ?_⟩
  have hsplit : (2 : Nat) ^ 64 = 2 ^ (k + 1) * 2 ^ (63 - k) := by
    rw [← Nat.pow_add]; congr 1; omega
  by_contra hc
  have hle : 2 ^ (63 - k) ≤ q := by omega
  have : 2 ^ (k + 1) * 2 ^ (63 - k) ≤ 2 ^ (k + 1) * q := Nat.mul_le_mul_left _ hle
  omega

theorem lowbit_and_neg (k q : Nat) (h : 2 ^ (k + 1) * q + 2 ^ k < 2 ^ 64) :
    (2 ^ (k + 1) * q + 2 ^ k) &&& neg64 (2 ^ (k + 1) * q + 2 ^ k) = 2 ^ k := by
  obtain ⟨hk64, hq⟩ := lowbit_bounds k q h
  have hk : 2 ^ k < 2 ^ (k + 1) := Nat.pow_lt_pow_right (by decide) (Nat.lt_succ_self k)
  have hpos : 0 < 2 ^ k := Nat.two_pow_pos k
  have hsplit : (2 : Nat) ^ 64 = 2 ^ (k + 1) * 2 ^ (63 - k) := by
    rw [← Nat.pow_add]; congr 1; omega
  have hneg : neg64 (2 ^ (k + 1) * q + 2 ^ k)
      = 2 ^ (k + 1) * (2 ^ (63 - k) - (q + 1)) + 2 ^ k := by
    unfold neg64
    rw [Nat.mod_eq_of_lt h, Nat.mod_eq_of_lt (by omega)]
    rw [Nat.mul_sub, Nat.mul_add, ← hsplit, Nat.mul_one]
    have h2 : 2 ^ (k + 1) = 2 * 2 ^ k := by rw [Nat.pow_succ]; ring
    have h3 : 2 ^ (k + 1) * (q + 1) ≤ 2 ^ 64 := by
      rw [hsplit]; exact Nat.mul_le_mul_left _ (by omega)
    rw [Nat.mul_add, Nat.mul_one] at h3
    omega
  rw [hneg]
  apply Nat.eq_of_testBit_eq
  intro i
  rw [Nat.testBit_and, Nat.testBit_mul_pow_two_add q hk, Nat.testBit_mul_pow_two_add _ hk]
  by_cases hi : i < k + 1
  · simp [hi]
  · have hne : k ≠ i := by omega
    simp only [hi, if_false, Nat.testBit_two_pow_sub_succ hq, Nat.testBit_two_pow, hne, decide_False]
    cases Nat.testBit q (i - (k + 1)) <;> simp

theorem setBits_sorted (m : Nat) : (setBits m).Sorted (· < ·) :=
  (List.sorted_lt_range 64).filter _

theorem mem_setBits (m j : Nat) : j ∈ setBits m ↔ j < 64 ∧ m.testBit j = true := by
  simp [setBits]

theorem setBits_lowbit (k q : Nat) (h : 2 ^ (k + 1) * q + 2 ^ k < 2 ^ 64) :
    setBits (2 ^ (k + 1) * q + 2 ^ k) = k :: setBits (2 ^ (k + 1) * q) := by
  obtain ⟨hk64, -⟩ := lowbit_bounds k q h
  have hk : 2 ^ k < 2 ^ (k + 1) := Nat.pow_lt_pow_right (by decide) (Nat.lt_succ_self k)
  have hbit : ∀ j, (2 ^ (k + 1) * q + 2 ^ k).testBit j
      = (decide (j = k) || (2 ^ (k + 1) * q).testBit j) := by
    intro j
    rw [Nat.testBit_mul_pow_two_add q hk, Nat.testBit_mul_pow_two, Nat.testBit_two_pow]
    by_cases hj : j < k + 1
    · have : ¬ (k + 1 ≤ j) := by omega
      by_cases hjk : j = k
      · subst hjk; simp
      · have : ¬ (k = j) := fun e => hjk e.symm
        simp [hj, hjk, this]
    · have h1 : k + 1 ≤ j := by omega
      have h2 : j ≠ k := by omega
      simp [hj, h1, h2]
  have hlow : ∀ j, (2 ^ (k + 1) * q).testBit j = true → k < j := by
    intro j hj
    rw [Nat.testBit_mul_pow_two] at hj
    simp at hj
    omega
  have hsorted : (k :: setBits (2 ^ (k + 1) * q)).Sorted (· < ·) := by
    refine List.sorted_cons.2 ⟨?_, setBits_sorted _⟩
    intro j hj
    exact hlow j ((mem_setBits _ _).1 hj).2
  refine List.eq_of_perm_of_sorted ?_ (setBits_sorted _) hsorted
  refine (List.perm_ext_iff_of_nodup (setBits_sorted _).nodup hsorted.nodup).2 ?_
  intro j
  rw [List.mem_cons, mem_setBits, mem_setBits, hbit]
  constructor
  · rintro ⟨hj, hb⟩
    simp at hb
    rcases hb with hb | hb
    · exact Or.inl hb
    · exact Or.inr ⟨hj, hb⟩
  · rintro (hj | ⟨hj, hb⟩)
    · subst hj; exact ⟨hk64, by simp⟩
    · exact ⟨hj, by simp [hb]⟩

theorem and_two_pow_ne_zero (v k : Nat) : (v &&& 2 ^ k ≠ 0) ↔ v.testBit k = true := by
  constructor
  · intro h
    obtain ⟨i, hi⟩ := Nat.ne_zero_implies_bit_true h
    rw [Nat.testBit_and, Nat.testBit_two_pow] at hi
    simp at hi
    obtain ⟨h1, h2⟩ := hi
    subst h2; exact h1
  · intro h h0
    have : (v &&& 2 ^ k).testBit k = true := by
      rw [Nat.testBit_and, Nat.testBit_two_pow_self, h]; rfl
    rw [h0] at this
    simp at this

theorem setBits_zero : setBits 0 = [] := by
  simp [setBits]

theorem pextLoop_eq_packList (fuel val : Nat) :
    ∀ (mask bb res : Nat), mask < 2 ^ 64 → (setBits mask).length ≤ fuel →
      pextLoop fuel val mask bb res = packList val (setBits mask) bb res := by
  induction fuel with
  | zero =>
    intro mask bb res _ hf
    have : setBits mask = [] := List.eq_nil_of_length_eq_zero (by omega)
    rw [this]; rfl
  | succ n ih =>
    intro mask bb res hm hf
    unfold pextLoop
    by_cases h0 : mask = 0
    · subst h0; rw [setBits_zero]; simp [packList]
    · obtain ⟨k, q, hkq⟩ := exists_lowbit mask h0
      subst hkq
      rw [if_neg h0, lowbit_and_pred, Nat.and_assoc, lowbit_and_neg k q hm]
      rw [setBits_lowbit k q hm] at hf ⊢
      have hpos : 0 < 2 ^ k := Nat.two_pow_pos k
      rw [ih _ _ _ (by omega) (by simpa using hf)]
      simp only [packList, and_two_pow_ne_zero]

theorem packList_testBit (val : Nat) (S : List Nat) :
    ∀ (t res j : Nat), t + S.length ≤ 64 → res < 2 ^ t →
      (packList val S (2 ^ t % 2 ^ 64) res).testBit j
        = if j < t then res.testBit j else bitAt val S (j - t) := by
  induction S with
  | nil =>
    intro t res j _ hres
    simp only [packList, bitAt]
    by_cases hj : j < t
    · simp [hj]
    · have : res < 2 ^ j := lt_of_lt_of_le hres (Nat.pow_le_pow_right (by decide) (by omega))
      simp [hj, Nat.testBit_lt_two_pow this]
  | cons k S ih =>
    intro t res j ht hres
    have ht64 : t < 64 := by simp at ht; omega
    have hlt : 2 ^ t < 2 ^ 64 := Nat.pow_lt_pow_right (by decide) ht64
    have hdbl : (2 ^ t % 2 ^ 64 + 2 ^ t % 2 ^ 64) % 2 ^ 64 = 2 ^ (t + 1) % 2 ^ 64 := by
      rw [Nat.mod_eq_of_lt hlt, Nat.pow_succ]; congr 1; omega
    have hres' : (if val.testBit k then res ||| 2 ^ t else res) < 2 ^ (t + 1) := by
      have h1 : res < 2 ^ (t + 1) := lt_of_lt_of_le hres (Nat.pow_le_pow_right (by decide) (by omega))
      split
      · exact Nat.or_lt_two_pow h1 (Nat.pow_lt_pow_right (by decide) (Nat.lt_succ_self t))
      · exact h1
    simp only [packList]
    rw [hdbl]
    conv_lhs => rw [Nat.mod_eq_of_lt hlt]
    rw [ih (t + 1) _ j (by simp at ht ⊢; omega) hres']
    by_cases hj : j < t
    · have h1 : j < t + 1 := by omega
      have h2 : t ≠ j := by omega
      simp only [hj, h1, if_true]
      split <;> simp [Nat.testBit_or, Nat.testBit_two_pow, h2]
    · by_cases hjt : j = t
      · subst hjt
        have hb : res.testBit j = false := Nat.testBit_lt_two_pow hres
        simp only [Nat.lt_succ_self, if_true, lt_irrefl, if_false, Nat.sub_self, bitAt]
        by_cases hv : val.testBit k = true
        · simp [hv, Nat.testBit_or, Nat.testBit_two_pow_self]
        · simp [hv, hb]
      · have h1 : ¬ j < t + 1 := by omega
        have h2 : j - t = (j - (t + 1)) + 1 := by omega
        simp only [hj, h1, if_false, bitAt]
        rw [h2]; simp

theorem setBits_length_le (m : Nat) : (setBits m).length ≤ 64 := by
  have := List.length_filter_le (fun j => m.testBit j) (List.range 64)
  simpa [setBits] using this

theorem pextLoop_testBit (fuel val mask i : Nat) (hm : mask < 2 ^ 64) (hf : 64 ≤ fuel) :
    (pextLoop fuel val mask 1 0).testBit i = bitAt val (setBits mask) i := by
  have hl := setBits_length_le mask
  rw [pextLoop_eq_packList fuel val mask 1 0 hm (by omega)]
  have := packList_testBit val (setBits mask) 0 0 i (by omega) (by decide)
  simpa using this

theorem pext_testBit (val mask i : Nat) (hm : mask < 2 ^ 64) :
    (pext val mask).testBit i = bitAt val (setBits mask) i :=
  pextLoop_testBit 64 val mask i hm (le_refl _)

theorem bitAt_of_lt (val : Nat) (S : List Nat) (i : Nat) (h : i < S.length) :
    bitAt val S i = val.testBit (S[i]) := by
  simp [bitAt, List.getElem?_eq_getElem h]

theorem bitAt_of_le (val : Nat) (S : List Nat) (i : Nat) (h : S.length ≤ i) :
    bitAt val S i = false := by
  simp [bitAt, List.getElem?_eq_none h]

theorem testBit_of_mem_maskSubsets {mask v : Nat} (hv : v ∈ maskSubsets mask)
    (j : Nat) (hj : v.testBit j = true) : j ∈ setBits mask := by
  obtain ⟨hv64, hand⟩ := hv
  have hj64 : j < 64 := by
    by_contra hc
    have : v < 2 ^ j := lt_of_lt_of_le hv64 (Nat.pow_le_pow_right (by decide) (by omega))
    rw [Nat.testBit_lt_two_pow this] at hj
    exact Bool.false_ne_true hj
  have hb : (v &&& (mask ^^^ (2 ^ 64 - 1))).testBit j = false := by rw [hand]; simp
  rw [Nat.testBit_and, hj, Nat.testBit_xor, Nat.testBit_two_pow_sub_one] at hb
  rw [mem_setBits]
  refine ⟨hj64, ?_⟩
  cases hc : mask.testBit j
  · simp [hc, hj64] at hb
  · rfl

theorem depositList_mem (S : List Nat) : ∀ (n j : Nat), (depositList S n).testBit j = true → j ∈ S := by
  induction S with
  | nil => intro n j h; simp [depositList] at h
  | cons k S ih =>
    intro n j h
    simp only [depositList, Nat.testBit_or, Bool.or_eq_true] at h
    rcases h with h | h
    · split at h
      · rw [Nat.testBit_two_pow] at h
        simp at h
        simp [h]
      · simp at h
    · exact List.mem_cons_of_mem _ (ih _ _ h)

theorem depositList_bitAt (S : List Nat) :
    ∀ (n i : Nat), S.Nodup → i < S.length → bitAt (depositList S n) S i = n.testBit i := by
  induction S with
  | nil => intro n i _ h; simp at h
  | cons k S ih =>
    intro n i hnd hi
    rw [List.nodup_cons] at hnd
    cases i with
    | zero =>
      have hk : (depositList S (n / 2)).testBit k = false := by
        cases hc : (depositList S (n / 2)).testBit k
        · rfl
        · exact absurd (depositList_mem S _ _ hc) hnd.1
      simp only [bitAt, List.getElem?_cons_zero, depositList, Nat.testBit_or, hk, Bool.or_false]
      by_cases hn : n % 2 = 1
      · simp [hn, Nat.testBit_two_pow_self]
      · simp [hn]
    | succ i =>
      have hi' : i < S.length := by simpa using hi
      have := ih (n / 2) i hnd.2 hi'
      rw [bitAt_of_lt _ _ _ hi'] at this
      rw [bitAt_of_lt _ _ _ hi]
      simp only [List.getElem_cons_succ, depositList, Nat.testBit_or, this, Nat.testBit_succ]
      have hne : k ≠ S[i] := fun e => hnd.1 (e ▸ List.getElem_mem _)
      split
      · simp [Nat.testBit_two_pow, hne]
      · simp

theorem pext_lt (val mask : Nat) (hm : mask < 2 ^ 64) : pext val mask < 2 ^ popcount mask := by
  apply Nat.lt_pow_two_of_testBit
  intro i hi
  rw [pext_testBit val mask i hm]
  exact bitAt_of_le _ _ _ hi

theorem pext_injOn (mask : Nat) (hm : mask < 2 ^ 64) :
    Set.InjOn (fun v => pext v mask) (maskSubsets mask) := by
  intro v hv w hw hvw
  simp only at hvw
  apply Nat.eq_of_testBit_eq
  intro j
  by_cases hj : j ∈ setBits mask
  · obtain ⟨i, hi, hij⟩ := List.getElem_of_mem hj
    have h1 := pext_testBit v mask i hm
    have h2 := pext_testBit w mask i hm
    rw [bitAt_of_lt _ _ _ hi, hij] at h1 h2
    rw [← h1, ← h2, hvw]
  · have hvj : v.testBit j = false := by
      cases hc : v.testBit j
      · rfl
      · exact absurd (testBit_of_mem_maskSubsets hv j hc) hj
    have hwj : w.testBit j = false := by
      cases hc : w.testBit j
      · rfl
      · exact absurd (testBit_of_mem_maskSubsets hw j hc) hj
    rw [hvj, hwj]

theorem depositList_mem_maskSubsets (mask n : Nat) :
    depositList (setBits mask) n ∈ maskSubsets mask := by
  have hbits : ∀ j, (depositList (setBits mask) n).testBit j = true → j < 64 ∧ mask.testBit j = true :=
    fun j hj => (mem_setBits mask j).1 (depositList_mem _ _ _ hj)
  refine ⟨?_, ?_⟩
  · apply Nat.lt_pow_two_of_testBit
    intro i hi
    cases hc : (depositList (setBits mask) n).testBit i
    · rfl
    · have := (hbits i hc).1
      omega
  · apply Nat.eq_of_testBit_eq
    intro j
    rw [Nat.testBit_and, Nat.testBit_xor, Nat.testBit_two_pow_sub_one, Nat.zero_testBit]
    cases hc : (depositList (setBits mask) n).testBit j
    · simp
    · obtain ⟨h1, h2⟩ := hbits j hc
      simp [h1, h2]

theorem pext_depositList (mask n : Nat) (hm : mask < 2 ^ 64) (hn : n < 2 ^ popcount mask) :
    pext (depositList (setBits mask) n) mask = n := by
  apply Nat.eq_of_testBit_eq
  intro i
  rw [pext_testBit _ mask i hm]
  by_cases hi : i < (setBits mask).length
  · exact depositList_bitAt _ n i (setBits_sorted mask).nodup hi
  · have hle : (setBits mask).length ≤ i := by omega
    rw [bitAt_of_le _ _ _ hle]
    have : n < 2 ^ i := lt_of_lt_of_le hn (Nat.pow_le_pow_right (by decide) hle)
    exact (Nat.testBit_lt_two_pow this).symm

/-- C1. For 64-bit `mask`, software `pext` (and `PEXT64`, which is `pext`) terminates within its
64 iterations (more fuel does not change the result), bit `i` of the result is the bit of `val`
at the `i`-th lowest set bit of `mask` for `i < popcount mask`, and all higher result bits are 0. -/
theorem pext_packs_ascending (val mask : Nat) (hm : mask < 2 ^ 64) :
    (∀ fuel, 64 ≤ fuel → pextLoop fuel val mask 1 0 = pext val mask) ∧
    PEXT64 val mask = pext val mask ∧
    (∀ i (h : i < (setBits mask).length),
      (pext val mask).testBit i = val.testBit ((setBits mask)[i])) ∧
    (∀ i, popcount mask ≤ i → (pext val mask).testBit i = false) := by
  refine ⟨?_, rfl, ?_, ?_⟩
  · intro fuel hf
    apply Nat.eq_of_testBit_eq
    intro i
    rw [pextLoop_testBit fuel val mask i hm hf, pext_testBit val mask i hm]
  · intro i h
    rw [pext_testBit val mask i hm, bitAt_of_lt _ _ _ h]
  · intro i h
    rw [pext_testBit val mask i hm]
    exact bitAt_of_le _ _ _ h

theorem pext_packs_ascending_witness :
    0xF0 < 2 ^ 64 ∧ (pext 0xA5 0xF0).testBit 1 = (0xA5).testBit ((setBits 0xF0)[1]) ∧
      (pext 0xA5 0xF0).testBit 4 = false :=
  ⟨by decide, (pext_packs_ascending 0xA5 0xF0 (by decide)).2.2.1 1 (by decide),
    (pext_packs_ascending 0xA5 0xF0 (by decide)).2.2.2 4 (by decide)⟩

/-- C2. For 64-bit `mask`, `v ↦ pext v mask` is a bijection from the words `v` with
`v & ~mask = 0` onto the integers below `2 ^ popcount mask`. -/
theorem pext_bijOn_subsets (mask : Nat) (hm : mask < 2 ^ 64) :
    Set.BijOn (fun v => pext v mask) (maskSubsets mask) (Set.Iio (2 ^ popcount mask)) := by
  refine ⟨?_, pext_injOn mask hm, ?_⟩
  · intro v _
    exact pext_lt v mask hm
  · intro n hn
    exact ⟨depositList (setBits mask) n, depositList_mem_maskSubsets mask n,
      pext_depositList mask n hm hn⟩

theorem pext_bijOn_subsets_witness :
    0x8001 < 2 ^ 64 ∧
      Set.BijOn (fun v => pext v 0x8001) (maskSubsets 0x8001) (Set.Iio (2 ^ popcount 0x8001)) :=
  ⟨by decide, pext_bijOn_subsets 0x8001 (by decide)⟩

theorem and_split (k x y X Y : Nat) (hx : x < 2 ^ k) (hy : y < 2 ^ k) :
    (x + 2 ^ k * X) &&& (y + 2 ^ k * Y) = (x &&& y) + 2 ^ k * (X &&& Y) := by
  have hxy : x &&& y < 2 ^ k := Nat.and_lt_two_pow x hy
  rw [Nat.add_comm x, Nat.add_comm y, Nat.add_comm (x &&& y)]
  apply Nat.eq_of_testBit_eq
  intro i
  rw [Nat.testBit_and, Nat.testBit_mul_pow_two_add X hx, Nat.testBit_mul_pow_two_add Y hy,
    Nat.testBit_mul_pow_two_add _ hxy]
  by_cases hi : i < k <;> simp [hi]

theorem and_swarMask_succ (w n x : Nat) :
    x &&& swarMask w (n + 1) = x % 2 ^ w + 2 ^ (2 * w) * (x / 2 ^ (2 * w) &&& swarMask w n) := by
  have hpos : 0 < 2 ^ w := Nat.two_pow_pos w
  have hle : 2 ^ w ≤ 2 ^ (2 * w) := Nat.pow_le_pow_right (by decide) (by omega)
  have hx : x = x % 2 ^ (2 * w) + 2 ^ (2 * w) * (x / 2 ^ (2 * w)) := (Nat.mod_add_div _ _).symm
  conv_lhs => rw [hx]
  simp only [swarMask]
  rw [and_split (2 * w) _ _ _ _ (Nat.mod_lt _ (Nat.two_pow_pos _)) (by omega)]
  rw [Nat.and_pow_two_sub_one_eq_mod]
  congr 1
  rw [Nat.mod_mod_of_dvd]
  exact pow_dvd_pow 2 (by omega)

theorem swar_step (w : Nat) : ∀ (n a : Nat),
    (a &&& swarMask w n) + (a >>> w &&& swarMask w n) = pairSums w n a := by
  intro n
  induction n with
  | zero => intro a; simp [swarMask, pairSums]
  | succ n ih =>
    intro a
    rw [and_swarMask_succ, and_swarMask_succ]
    simp only [pairSums]
    rw [← ih (a / 2 ^ (2 * w))]
    have h1 : a >>> w / 2 ^ (2 * w) = (a / 2 ^ (2 * w)) >>> w := by
      simp only [Nat.shiftRight_eq_div_pow, Nat.div_div_eq_div_mul]
      rw [Nat.mul_comm]
    rw [h1, Nat.shiftRight_eq_div_pow a w]
    ring

theorem bitSum_le (n : Nat) : ∀ a, bitSum n a ≤ n := by
  induction n with
  | zero => intro a; simp [bitSum]
  | succ n ih =>
    intro a
    have := ih (a / 2)
    have := Nat.mod_lt a (by decide : 0 < 2)
    simp only [bitSum]; omega

theorem bitSum_lt_two_pow (n a : Nat) : bitSum n a < 2 ^ n :=
  lt_of_le_of_lt (bitSum_le n a) (Nat.lt_two_pow n)

theorem bitSum_add (m : Nat) : ∀ (n a : Nat),
    bitSum (m + n) a = bitSum m a + bitSum n (a / 2 ^ m) := by
  induction m with
  | zero => intro n a; simp [bitSum]
  | succ m ih =>
    intro n a
    have h : m + 1 + n = (m + n) + 1 := by omega
    rw [h]
    simp only [bitSum]
    rw [ih n (a / 2), Nat.div_div_eq_div_mul, Nat.pow_succ, Nat.mul_comm (2 ^ m) 2]
    omega

theorem bitSum_mod (n : Nat) : ∀ (m a : Nat), n ≤ m → bitSum n (a % 2 ^ m) = bitSum n a := by
  induction n with
  | zero => intro m a _; simp [bitSum]
  | succ n ih =>
    intro m a hm
    obtain ⟨m, rfl⟩ : ∃ k, m = k + 1 := ⟨m - 1, by omega⟩
    simp only [bitSum]
    have h1 : a % 2 ^ (m + 1) % 2 = a % 2 := by
      rw [Nat.pow_succ, Nat.mul_comm]; exact Nat.mod_mul_right_mod a 2 (2 ^ m)
    have h2 : a % 2 ^ (m + 1) / 2 = a / 2 % 2 ^ m := by
      rw [Nat.pow_succ, Nat.mul_comm]; exact Nat.mod_mul_right_div_self a 2 (2 ^ m)
    rw [h1, h2, ih m (a / 2) (by omega)]

theorem bitSum_double (w a : Nat) :
    bitSum (2 * w) (a % 2 ^ (2 * w)) = bitSum w (a % 2 ^ w) + bitSum w (a / 2 ^ w % 2 ^ w) := by
  have h2 : 2 * w = w + w := by omega
  rw [bitSum_mod (2 * w) (2 * w) a (le_refl _), h2, bitSum_add w w a,
    bitSum_mod w w a (le_refl _), bitSum_mod w w (a / 2 ^ w) (le_refl _)]

theorem fieldCount_lt (w : Nat) : ∀ (n a : Nat), fieldCount w n a < 2 ^ (w * n) := by
  intro n
  induction n with
  | zero => intro a; simp [fieldCount]
  | succ n ih =>
    intro a
    simp only [fieldCount]
    have h1 := bitSum_lt_two_pow w (a % 2 ^ w)
    have h2 := ih (a / 2 ^ w)
    have h3 : 2 ^ (w * (n + 1)) = 2 ^ w * 2 ^ (w * n) := by rw [← Nat.pow_add]; congr 1; ring
    rw [h3]
    have h4 : 2 ^ w * (fieldCount w n (a / 2 ^ w) + 1) ≤ 2 ^ w * 2 ^ (w * n) :=
      Nat.mul_le_mul_left _ h2
    rw [Nat.mul_add, Nat.mul_one] at h4
    omega

theorem pairSums_fieldCount (w : Nat) : ∀ (n a : Nat),
    pairSums w n (fieldCount w (2 * n) a) = fieldCount (2 * w) n a := by
  intro n
  induction n with
  | zero => intro a; simp [pairSums, fieldCount]
  | succ n ih =>
    intro a
    have h2 : 2 * (n + 1) = (2 * n + 1) + 1 := by omega
    have hpos : 0 < 2 ^ w := Nat.two_pow_pos w
    have hb0 := bitSum_lt_two_pow w (a % 2 ^ w)
    have hb1 := bitSum_lt_two_pow w (a / 2 ^ w % 2 ^ w)
    rw [h2]
    simp only [fieldCount, pairSums]
    have e1 : (bitSum w (a % 2 ^ w) + 2 ^ w * (bitSum w (a / 2 ^ w % 2 ^ w)
        + 2 ^ w * fieldCount w (2 * n) (a / 2 ^ w / 2 ^ w))) % 2 ^ w = bitSum w (a % 2 ^ w) := by
      rw [Nat.add_mul_mod_self_left, Nat.mod_eq_of_lt hb0]
    have e2 : (bitSum w (a % 2 ^ w) + 2 ^ w * (bitSum w (a / 2 ^ w % 2 ^ w)
        + 2 ^ w * fieldCount w (2 * n) (a / 2 ^ w / 2 ^ w))) / 2 ^ w
        = bitSum w (a / 2 ^ w % 2 ^ w) + 2 ^ w * fieldCount w (2 * n) (a / 2 ^ w / 2 ^ w) := by
      rw [Nat.add_mul_div_left _ _ hpos, Nat.div_eq_of_lt hb0, Nat.zero_add]
    have e3 : (bitSum w (a % 2 ^ w) + 2 ^ w * (bitSum w (a / 2 ^ w % 2 ^ w)
        + 2 ^ w * fieldCount w (2 * n) (a / 2 ^ w / 2 ^ w))) / 2 ^ (2 * w)
        = fieldCount w (2 * n) (a / 2 ^ w / 2 ^ w) := by
      have : 2 ^ (2 * w) = 2 ^ w * 2 ^ w := by rw [← Nat.pow_add]; congr 1; omega
      rw [this, ← Nat.div_div_eq_div_mul, e2, Nat.add_mul_div_left _ _ hpos,
        Nat.div_eq_of_lt hb1, Nat.zero_add]
    have e4 : a / 2 ^ w / 2 ^ w = a / 2 ^ (2 * w) := by
      rw [Nat.div_div_eq_div_mul, ← Nat.pow_add]; congr 2; omega
    rw [e3, e1, e2, Nat.add_mul_mod_self_left, Nat.mod_eq_of_lt hb1, e4, ih, bitSum_double]

theorem fieldCount_one (n : Nat) : ∀ a, fieldCount 1 n a = a % 2 ^ n := by
  induction n with
  | zero => intro a; simp [fieldCount, Nat.mod_one]
  | succ n ih =>
    intro a
    simp only [fieldCount, bitSum, ih, Nat.pow_one, Nat.add_zero]
    rw [Nat.pow_succ, Nat.mul_comm (2 ^ n) 2, Nat.mod_mul, Nat.mod_mod]

theorem swar_round (w n : Nat) (a M : Nat) (hM : M = swarMask w n) (hn : 2 * w * n = 64) :
    ((fieldCount w (2 * n) a &&& M) + (fieldCount w (2 * n) a >>> w &&& M)) % 2 ^ 64
      = fieldCount (2 * w) n a := by
  subst hM
  rw [swar_step, pairSums_fieldCount]
  have := fieldCount_lt (2 * w) n a
  rw [hn] at this
  exact Nat.mod_eq_of_lt this

theorem toInt32_small (x : Nat) (hx : x < 2 ^ 31) : toInt32 x = (x : Int) := by
  have h1 : x % 2 ^ 32 = x := Nat.mod_eq_of_lt (by omega)
  unfold toInt32
  rw [h1, if_pos hx]

theorem POPCNT64_eq_bitSum (a : Nat) (ha : a < 2 ^ 64) : POPCNT64 a = (bitSum 64 a : Int) := by
  have h0 : a = fieldCount 1 (2 * 32) a := by
    rw [fieldCount_one]; exact (Nat.mod_eq_of_lt ha).symm
  unfold POPCNT64
  simp only []
  conv_lhs => rw [h0]
  rw [swar_round 1 32 a _ (by decide) (by decide)]
  rw [swar_round 2 16 a _ (by decide) (by decide)]
  rw [swar_round 4 8 a _ (by decide) (by decide)]
  rw [swar_round 8 4 a _ (by decide) (by decide)]
  rw [swar_round 16 2 a _ (by decide) (by decide)]
  have hb0 := bitSum_le 32 (a % 2 ^ 32)
  have hb1 := bitSum_le 32 (a / 2 ^ 32 % 2 ^ 32)
  have e : fieldCount (2 * 16) 2 a
      = bitSum 32 (a % 2 ^ 32) + 2 ^ 32 * bitSum 32 (a / 2 ^ 32 % 2 ^ 32) := by
    simp [fieldCount]
  rw [e]
  have e1 : toInt32 (bitSum 32 (a % 2 ^ 32) + 2 ^ 32 * bitSum 32 (a / 2 ^ 32 % 2 ^ 32))
      = (bitSum 32 (a % 2 ^ 32) : Int) := by
    unfold toInt32
    rw [Nat.add_mul_mod_self_left, Nat.mod_eq_of_lt (by omega), if_pos (by omega)]
  have e2 : (bitSum 32 (a % 2 ^ 32) + 2 ^ 32 * bitSum 32 (a / 2 ^ 32 % 2 ^ 32)) >>> 32
      = bitSum 32 (a / 2 ^ 32 % 2 ^ 32) := by
    rw [Nat.shiftRight_eq_div_pow, Nat.add_mul_div_left _ _ (by decide), Nat.div_eq_of_lt (by omega),
      Nat.zero_add]
  rw [e1, e2, toInt32_small _ (by omega)]
  have e3 := bitSum_double 32 a
  rw [bitSum_mod 64 64 a (le_refl _)] at e3
  rw [e3]
  push_cast
  rfl

theorem length_filter_testBit (n : Nat) : ∀ a : Nat,
    ((List.range n).filter (fun j => a.testBit j)).length = bitSum n a := by
  induction n with
  | zero => intro a; simp [bitSum]
  | succ n ih =>
    intro a
    rw [List.range_succ_eq_map, List.filter_cons, List.filter_map]
    have hcomp : ((fun j => a.testBit j) ∘ Nat.succ) = (fun j => (a / 2).testBit j) := by
      funext j; simp [Nat.testBit_succ]
    rw [hcomp]
    simp only [bitSum]
    rcases Nat.mod_two_eq_zero_or_one a with h | h
    · simp [h, ih]
    · simp [h, ih]; omega

theorem popcount_eq_bitSum (a : Nat) : popcount a = bitSum 64 a :=
  length_filter_testBit 64 a

theorem bitSum_or_of_disjoint (n : Nat) : ∀ x y : Nat, x &&& y = 0 →
    bitSum n (x ||| y) = bitSum n x + bitSum n y := by
  induction n with
  | zero => intro x y _; simp [bitSum]
  | succ n ih =>
    intro x y hxy
    have hdiv : x / 2 &&& y / 2 = 0 := by rw [← Nat.and_div_two, hxy]
    have hmod : ¬ (x % 2 = 1 ∧ y % 2 = 1) := by
      rw [← Nat.and_mod_two_eq_one, hxy]; decide
    have hor := @Nat.or_mod_two_eq_one x y
    simp only [bitSum]
    rw [Nat.or_div_two, ih _ _ hdiv]
    have := Nat.mod_two_eq_zero_or_one x
    have := Nat.mod_two_eq_zero_or_one y
    have := Nat.mod_two_eq_zero_or_one (x ||| y)
    by_cases h : (x ||| y) % 2 = 1
    · have := hor.1 h; omega
    · have h1 : ¬ (x % 2 = 1 ∨ y % 2 = 1) := fun hh => h (hor.2 hh)
      omega

theorem popcount_or_of_disjoint (x y : Nat) (h : x &&& y = 0) :
    popcount (x ||| y) = popcount x + popcount y := by
  rw [popcount_eq_bitSum, popcount_eq_bitSum, popcount_eq_bitSum, bitSum_or_of_disjoint 64 x y h]

theorem probeScan_first (tte : Nat → TTEntry) (key16 : Nat) : ∀ (n i k : Nat),
    i ≤ k → k < i + n →
    (∀ j, i ≤ j → j < k → (tte j).key16 ≠ 0 ∧ (tte j).key16 ≠ key16) →
    ((tte k).key16 = 0 ∨ (tte k).key16 = key16) →
    probeScan tte key16 n i = some (decide ((tte k).key16 ≠ 0), k) := by
  intro n
  induction n with
  | zero => intro i k h1 h2; omega
  | succ n ih =>
    intro i k hik hk hbefore hstop
    unfold probeScan
    by_cases hki : k = i
    · subst hki
      by_cases h0 : (tte k).key16 = 0
      · simp [h0]
      · have hm : (tte k).key16 = key16 := hstop.resolve_left h0
        rw [if_neg h0, if_pos hm]
        simp [h0]
    · have hlt : i < k := by omega
      obtain ⟨h0, hm⟩ := hbefore i (le_refl _) hlt
      rw [if_neg h0, if_neg hm]
      exact ih (i + 1) k (by omega) (by omega) (fun j hj hjk => hbefore j (by omega) hjk) hstop

theorem probeScan_none (tte : Nat → TTEntry) (key16 : Nat) : ∀ (n i : Nat),
    (∀ j, i ≤ j → j < i + n → (tte j).key16 ≠ 0 ∧ (tte j).key16 ≠ key16) →
    probeScan tte key16 n i = none := by
  intro n
  induction n with
  | zero => intro i _; rfl
  | succ n ih =>
    intro i h
    unfold probeScan
    obtain ⟨h0, hm⟩ := h i (le_refl _) (by omega)
    rw [if_neg h0, if_neg hm]
    exact ih (i + 1) (fun j hj hjn => h j (by omega) (by omega))

theorem replaceLoop_spec (g : Nat) (tte : Nat → TTEntry) : ∀ (n i r : Nat),
    r < i →
    (∀ j, j < i → replaceScore g (tte r) ≤ replaceScore g (tte j)) →
    (∀ j, j < r → replaceScore g (tte r) < replaceScore g (tte j)) →
    replaceLoop g tte n i r < i + n ∧
    (∀ j, j < i + n → replaceScore g (tte (replaceLoop g tte n i r)) ≤ replaceScore g (tte j)) ∧
    (∀ j, j < replaceLoop g tte n i r →
      replaceScore g (tte (replaceLoop g tte n i r)) < replaceScore g (tte j)) := by
  intro n
  induction n with
  | zero =>
    intro i r hr hmin hfirst
    exact ⟨by simpa [replaceLoop] using hr, by simpa [replaceLoop] using hmin,
      by simpa [replaceLoop] using hfirst⟩
  | succ n ih =>
    intro i r hr hmin hfirst
    unfold replaceLoop
    have hidx : i + (n + 1) = (i + 1) + n := by omega
    rw [hidx]
    by_cases hgt : replaceScore g (tte r) > replaceScore g (tte i)
    · rw [if_pos hgt]
      apply ih (i + 1) i (by omega)
      · intro j hj
        by_cases hji : j = i
        · subst hji; exact le_refl _
        · exact le_of_lt (lt_of_lt_of_le hgt (hmin j (by omega)))
      · intro j hj
        exact lt_of_lt_of_le hgt (hmin j hj)
    · rw [if_neg hgt]
      apply ih (i + 1) r (by omega)
      · intro j hj
        by_cases hji : j = i
        · subst hji; exact not_lt.1 hgt
        · exact hmin j (by omega)
      · exact hfirst

theorem probe_of_fullNoMatch (tt : TranspositionTable) (key : Nat) (h : fullNoMatch tt key) :
    tt.probe key = ⟨false, tt.clusterIndex key,
      replaceLoop tt.generation8 (tt.table (tt.clusterIndex key)) (tt.ClusterSize - 1) 1 0, tt⟩ := by
  have hs := probeScan_none (tt.table (tt.clusterIndex key)) (key16Of key) tt.ClusterSize 0
    (fun j _ hj => h j (by omega))
  simp only [TranspositionTable.probe, hs]

theorem probe_evict_spec (tt : TranspositionTable) (key : Nat) (hsize : 0 < tt.ClusterSize)
    (h : fullNoMatch tt key) :
    (tt.probe key).found = false ∧ (tt.probe key).cluster = tt.clusterIndex key ∧
    (tt.probe key).entry < tt.ClusterSize ∧
    (∀ j, j < tt.ClusterSize →
      replaceScore tt.generation8 (tt.table (tt.clusterIndex key) (tt.probe key).entry)
        ≤ replaceScore tt.generation8 (tt.table (tt.clusterIndex key) j)) ∧
    (∀ j, j < (tt.probe key).entry →
      replaceScore tt.generation8 (tt.table (tt.clusterIndex key) (tt.probe key).entry)
        < replaceScore tt.generation8 (tt.table (tt.clusterIndex key) j)) := by
  rw [probe_of_fullNoMatch tt key h]
  have hsp := replaceLoop_spec tt.generation8 (tt.table (tt.clusterIndex key))
    (tt.ClusterSize - 1) 1 0 (by decide)
    (fun j hj => by have : j = 0 := by omega
                    subst this; exact le_refl _)
    (fun j hj => by omega)
  have hn : 1 + (tt.ClusterSize - 1) = tt.ClusterSize := by omega
  rw [hn] at hsp
  exact ⟨rfl, rfl, hsp.1, hsp.2.1, hsp.2.2⟩

theorem and_0xFC (x : Nat) : x &&& 0xFC = x / 4 % 64 * 4 := by
  have h252 : (0xFC : Nat) = 2 ^ 2 * (2 ^ 6 - 1) := by decide
  have hr : x / 4 % 64 * 4 = 2 ^ 2 * (x >>> 2 % 2 ^ 6) := by
    rw [Nat.shiftRight_eq_div_pow, Nat.mul_comm]; rfl
  rw [h252, hr]
  apply Nat.eq_of_testBit_eq
  intro i
  rw [Nat.testBit_and, Nat.testBit_mul_pow_two, Nat.testBit_mul_pow_two, Nat.testBit_mod_two_pow,
    Nat.testBit_shiftRight, Nat.testBit_two_pow_sub_one]
  by_cases hi : 2 ≤ i
  · have : 2 + (i - 2) = i := by omega
    simp [hi, this, Bool.and_comm]
  · simp [hi]

theorem age_eq_wrapAge (g b : Nat) (hg : g < 256) (hg4 : g % 4 = 0) (hb : b < 256) :
    (259 + g - b) &&& 0xFC = wrapAge g b := by
  unfold wrapAge
  rw [and_0xFC, and_0xFC]
  omega

/-- C6 fails as stated: in a zero-filled cluster the first entry has the fragment of key 0, and
in `holeTable` the second entry has the fragment of the key `7 * 2 ^ 48`, yet `probe` reports
`found = false` and returns the first (empty) entry in both cases. -/
theorem probe_match_not_found :
    (zeroTable.table (zeroTable.clusterIndex 0) 0).key16 = key16Of 0 ∧
    (zeroTable.probe 0).found = false ∧
    (holeTable.table (holeTable.clusterIndex (7 * 2 ^ 48)) 1).key16 = key16Of (7 * 2 ^ 48) ∧
    (holeTable.probe (7 * 2 ^ 48)).found = false ∧ (holeTable.probe (7 * 2 ^ 48)).entry = 0 := by
  decide

/-- C6 (amended). If entry `i` of the addressed cluster has a fragment equal to the non-zero
fragment `key >> 48`, and no earlier entry is empty or matches, then `probe` returns
`found = true` with a pointer to entry `i` of the addressed cluster. -/
theorem probe_found_first_match (tt : TranspositionTable) (key i : Nat)
    (hi : i < tt.ClusterSize)
    (hmatch : (tt.table (tt.clusterIndex key) i).key16 = key16Of key)
    (hnz : key16Of key ≠ 0)
    (hbefore : ∀ j, j < i → (tt.table (tt.clusterIndex key) j).key16 ≠ 0 ∧
      (tt.table (tt.clusterIndex key) j).key16 ≠ key16Of key) :
    (tt.probe key).found = true ∧ (tt.probe key).cluster = tt.clusterIndex key ∧
      (tt.probe key).entry = i := by
  have hs := probeScan_first (tt.table (tt.clusterIndex key)) (key16Of key) tt.ClusterSize 0 i
    (Nat.zero_le _) (by omega) (fun j _ hj => hbefore j hj) (Or.inr hmatch)
  have hd : decide ((tt.table (tt.clusterIndex key) i).key16 ≠ 0) = true := by
    rw [hmatch]; exact decide_eq_true hnz
  rw [hd] at hs
  simp [TranspositionTable.probe, hs]

theorem probe_found_first_match_witness :
    (hitTable.probe (7 * 2 ^ 48)).found = true ∧
      (hitTable.probe (7 * 2 ^ 48)).cluster = hitTable.clusterIndex (7 * 2 ^ 48) ∧
      (hitTable.probe (7 * 2 ^ 48)).entry = 1 :=
  probe_found_first_match hitTable (7 * 2 ^ 48) 1 (by decide) (by decide) (by decide) (by decide)

/-- C7. If entry `i` of the addressed cluster is the first empty one (fragment 0) and no entry
before it has the fragment `key >> 48`, then `probe` returns `found = false` with a pointer to
entry `i` of the addressed cluster. -/
theorem probe_first_empty (tt : TranspositionTable) (key i : Nat)
    (hi : i < tt.ClusterSize)
    (hempty : (tt.table (tt.clusterIndex key) i).key16 = 0)
    (hfirst : ∀ j, j < i → (tt.table (tt.clusterIndex key) j).key16 ≠ 0)
    (hnomatch : ∀ j, j < i → (tt.table (tt.clusterIndex key) j).key16 ≠ key16Of key) :
    (tt.probe key).found = false ∧ (tt.probe key).cluster = tt.clusterIndex key ∧
      (tt.probe key).entry = i := by
  have hs := probeScan_first (tt.table (tt.clusterIndex key)) (key16Of key) tt.ClusterSize 0 i
    (Nat.zero_le _) (by omega) (fun j _ hj => ⟨hfirst j hj, hnomatch j hj⟩) (Or.inl hempty)
  have hd : decide ((tt.table (tt.clusterIndex key) i).key16 ≠ 0) = false := by
    rw [hempty]; decide
  rw [hd] at hs
  simp [TranspositionTable.probe, hs]

theorem probe_first_empty_witness :
    (tailTable.probe (7 * 2 ^ 48)).found = false ∧
      (tailTable.probe (7 * 2 ^ 48)).cluster = tailTable.clusterIndex (7 * 2 ^ 48) ∧
      (tailTable.probe (7 * 2 ^ 48)).entry = 1 :=
  probe_first_empty tailTable (7 * 2 ^ 48) 1 (by decide) (by decide) (by decide) (by decide)

/-- C8. When the addressed cluster is full (no fragment is 0) and no entry matches `key >> 48`,
`probe` returns `found = false` and an entry of the cluster with the minimum value of
`depth - 2 * age`, where `depth = depth8 / ONE_PLY` is the stored depth in plies (depths are
stored in units of `ONE_PLY`) and `age = (259 + generation8 - genBound8) & 0xFC`; for a current
generation that is a multiple of 4 below 256 and byte-sized `genBound8` this age is the
difference, modulo 256 and with the low two bits masked out, between the current generation and
the generation byte of the entry. The same holds with the depth rounded down to whole plies. -/
theorem probe_evicts_min_depth_minus_two_age (tt : TranspositionTable) (key : Nat)
    (hsize : 0 < tt.ClusterSize) (h : fullNoMatch tt key) :
    (tt.probe key).found = false ∧ (tt.probe key).entry < tt.ClusterSize ∧
    (∀ j, j < tt.ClusterSize →
      ((tt.table (tt.clusterIndex key) (tt.probe key).entry).depth8 : ℚ) / ((ONE_PLY : Int) : ℚ)
          - 2 * (((259 + tt.generation8
              - (tt.table (tt.clusterIndex key) (tt.probe key).entry).genBound8) &&& 0xFC : Nat) : ℚ)
        ≤ ((tt.table (tt.clusterIndex key) j).depth8 : ℚ) / ((ONE_PLY : Int) : ℚ)
          - 2 * (((259 + tt.generation8
              - (tt.table (tt.clusterIndex key) j).genBound8) &&& 0xFC : Nat) : ℚ)) ∧
    (∀ j, j < tt.ClusterSize →
      (tt.table (tt.clusterIndex key) (tt.probe key).entry).depth8 / ONE_PLY
          - 2 * (((259 + tt.generation8
              - (tt.table (tt.clusterIndex key) (tt.probe key).entry).genBound8) &&& 0xFC : Nat) : Int)
        ≤ (tt.table (tt.clusterIndex key) j).depth8 / ONE_PLY
          - 2 * (((259 + tt.generation8
              - (tt.table (tt.clusterIndex key) j).genBound8) &&& 0xFC : Nat) : Int)) ∧
    (tt.generation8 < 256 → tt.generation8 % 4 = 0 →
      (∀ j, j < tt.ClusterSize → (tt.table (tt.clusterIndex key) j).genBound8 < 256) →
      ∀ j, j < tt.ClusterSize →
        ((tt.table (tt.clusterIndex key) (tt.probe key).entry).depth8 : ℚ) / ((ONE_PLY : Int) : ℚ)
            - 2 * (wrapAge tt.generation8
                (tt.table (tt.clusterIndex key) (tt.probe key).entry).genBound8 : ℚ)
          ≤ ((tt.table (tt.clusterIndex key) j).depth8 : ℚ) / ((ONE_PLY : Int) : ℚ)
            - 2 * (wrapAge tt.generation8 (tt.table (tt.clusterIndex key) j).genBound8 : ℚ)) := by
  obtain ⟨hf, _, hlt, hmin, _⟩ := probe_evict_spec tt key hsize h
  have hq : ∀ j, j < tt.ClusterSize →
      ((tt.table (tt.clusterIndex key) (tt.probe key).entry).depth8 : ℚ) / ((ONE_PLY : Int) : ℚ)
          - 2 * (((259 + tt.generation8
              - (tt.table (tt.clusterIndex key) (tt.probe key).entry).genBound8) &&& 0xFC : Nat) : ℚ)
        ≤ ((tt.table (tt.clusterIndex key) j).depth8 : ℚ) / ((ONE_PLY : Int) : ℚ)
          - 2 * (((259 + tt.generation8
              - (tt.table (tt.clusterIndex key) j).genBound8) &&& 0xFC : Nat) : ℚ) := by
    intro j hj
    have h1 := hmin j hj
    simp only [replaceScore, ONE_PLY] at h1
    have h2 : (((tt.table (tt.clusterIndex key) (tt.probe key).entry).depth8
        - (((259 + tt.generation8
            - (tt.table (tt.clusterIndex key) (tt.probe key).entry).genBound8) &&& 0xFC : Nat) : Int)
          * 2 * 2 : Int) : ℚ)
        ≤ (((tt.table (tt.clusterIndex key) j).depth8
        - (((259 + tt.generation8
            - (tt.table (tt.clusterIndex key) j).genBound8) &&& 0xFC : Nat) : Int) * 2 * 2 : Int) : ℚ) :=
      Int.cast_le.2 h1
    push_cast at h2
    simp only [ONE_PLY]
    push_cast
    linarith
  refine ⟨hf, hlt, hq, ?_, ?_⟩
  · intro j hj
    have h1 := hmin j hj
    simp only [replaceScore, ONE_PLY] at h1 ⊢
    omega
  · intro hg hg4 hbyte j hj
    have := hq j hj
    rw [age_eq_wrapAge _ _ hg hg4 (hbyte j hj), age_eq_wrapAge _ _ hg hg4 (hbyte _ hlt)] at this
    exact this

theorem probe_evicts_min_depth_minus_two_age_witness :
    (evictTable.probe (9 * 2 ^ 48)).found = false ∧
    (evictTable.probe (9 * 2 ^ 48)).entry = 1 ∧
    (evictTable.generation8 < 256 → evictTable.generation8 % 4 = 0 →
      (∀ j, j < evictTable.ClusterSize →
        (evictTable.table (evictTable.clusterIndex (9 * 2 ^ 48)) j).genBound8 < 256) →
      ∀ j, j < evictTable.ClusterSize →
        ((evictTable.table (evictTable.clusterIndex (9 * 2 ^ 48))
            (evictTable.probe (9 * 2 ^ 48)).entry).depth8 : ℚ) / ((ONE_PLY : Int) : ℚ)
            - 2 * (wrapAge evictTable.generation8
                (evictTable.table (evictTable.clusterIndex (9 * 2 ^ 48))
                  (evictTable.probe (9 * 2 ^ 48)).entry).genBound8 : ℚ)
          ≤ ((evictTable.table (evictTable.clusterIndex (9 * 2 ^ 48)) j).depth8 : ℚ)
              / ((ONE_PLY : Int) : ℚ)
            - 2 * (wrapAge evictTable.generation8
                (evictTable.table (evictTable.clusterIndex (9 * 2 ^ 48)) j).genBound8 : ℚ)) :=
  ⟨by decide, by decide,
    (probe_evicts_min_depth_minus_two_age evictTable (9 * 2 ^ 48) (by decide) (by decide)).2.2.2.2⟩

/-- C9. When the addressed cluster is full and no entry matches, `probe` returns the
lowest-indexed entry attaining the minimum of the score the replacement loop compares: no entry
of the cluster scores strictly less, and every entry with a smaller index scores strictly more. -/
theorem probe_evicts_first_min (tt : TranspositionTable) (key : Nat)
    (hsize : 0 < tt.ClusterSize) (h : fullNoMatch tt key) :
    (tt.probe key).found = false ∧ (tt.probe key).cluster = tt.clusterIndex key ∧
    (tt.probe key).entry < tt.ClusterSize ∧
    (∀ j, j < tt.ClusterSize →
      ¬ replaceScore tt.generation8 (tt.table (tt.clusterIndex key) j)
        < replaceScore tt.generation8 (tt.table (tt.clusterIndex key) (tt.probe key).entry)) ∧
    (∀ j, j < (tt.probe key).entry →
      replaceScore tt.generation8 (tt.table (tt.clusterIndex key) (tt.probe key).entry)
        < replaceScore tt.generation8 (tt.table (tt.clusterIndex key) j)) := by
  obtain ⟨hf, hc, hlt, hmin, hfirst⟩ := probe_evict_spec tt key hsize h
  exact ⟨hf, hc, hlt, fun j hj => not_lt.2 (hmin j hj), hfirst⟩

theorem probe_evicts_first_min_witness :
    (tieTable.probe (9 * 2 ^ 48)).entry = 1 ∧
    (∀ j, j < (tieTable.probe (9 * 2 ^ 48)).entry →
      replaceScore tieTable.generation8
          (tieTable.table (tieTable.clusterIndex (9 * 2 ^ 48)) (tieTable.probe (9 * 2 ^ 48)).entry)
        < replaceScore tieTable.generation8 (tieTable.table (tieTable.clusterIndex (9 * 2 ^ 48)) j)) :=
  ⟨by decide, (probe_evicts_first_min tieTable (9 * 2 ^ 48) (by decide) (by decide)).2.2.2.2⟩

/-- C10. For every value of the generation counter and every full cluster without match whose
entries all have the same depth, the entry `probe` returns for eviction has the greatest age
`(259 + generation8 - genBound8) & 0xFC` of the cluster; and when the counter is a byte that is
a multiple of 4 (also after wrapping) and the entries hold bytes, that entry has the greatest
wraparound-safe age: no entry of the cluster is older than the one evicted. -/
theorem probe_evicts_oldest_of_equal_depth (tt : TranspositionTable) (key : Nat) (d : Int)
    (hsize : 0 < tt.ClusterSize) (h : fullNoMatch tt key)
    (hdepth : ∀ j, j < tt.ClusterSize → (tt.table (tt.clusterIndex key) j).depth8 = d) :
    (tt.probe key).found = false ∧ (tt.probe key).entry < tt.ClusterSize ∧
    (∀ j, j < tt.ClusterSize →
      (259 + tt.generation8 - (tt.table (tt.clusterIndex key) j).genBound8) &&& 0xFC
        ≤ (259 + tt.generation8
            - (tt.table (tt.clusterIndex key) (tt.probe key).entry).genBound8) &&& 0xFC) ∧
    (tt.generation8 < 256 → tt.generation8 % 4 = 0 →
      (∀ j, j < tt.ClusterSize → (tt.table (tt.clusterIndex key) j).genBound8 < 256) →
      ∀ j, j < tt.ClusterSize →
        wrapAge tt.generation8 (tt.table (tt.clusterIndex key) j).genBound8
          ≤ wrapAge tt.generation8
              (tt.table (tt.clusterIndex key) (tt.probe key).entry).genBound8) := by
  obtain ⟨hf, _, hlt, hmin, _⟩ := probe_evict_spec tt key hsize h
  have hcode : ∀ j, j < tt.ClusterSize →
      (259 + tt.generation8 - (tt.table (tt.clusterIndex key) j).genBound8) &&& 0xFC
        ≤ (259 + tt.generation8
            - (tt.table (tt.clusterIndex key) (tt.probe key).entry).genBound8) &&& 0xFC := by
    intro j hj
    have := hmin j hj
    simp only [replaceScore, ONE_PLY, hdepth j hj, hdepth _ hlt] at this
    omega
  refine ⟨hf, hlt, hcode, ?_⟩
  intro hg hg4 hbyte j hj
  have := hcode j hj
  rw [age_eq_wrapAge _ _ hg hg4 (hbyte j hj), age_eq_wrapAge _ _ hg hg4 (hbyte _ hlt)] at this
  exact this

theorem probe_evicts_oldest_of_equal_depth_witness :
    (wrapTable.probe (9 * 2 ^ 48)).entry = 2 ∧
    ∀ j, j < wrapTable.ClusterSize →
      wrapAge wrapTable.generation8 (wrapTable.table (wrapTable.clusterIndex (9 * 2 ^ 48)) j).genBound8
        ≤ wrapAge wrapTable.generation8
            (wrapTable.table (wrapTable.clusterIndex (9 * 2 ^ 48))
              (wrapTable.probe (9 * 2 ^ 48)).entry).genBound8 :=
  ⟨by decide, (probe_evicts_oldest_of_equal_depth wrapTable (9 * 2 ^ 48) 5 (by decide) (by decide)
    (by decide)).2.2.2 (by decide) (by decide) (by decide)⟩

theorem mem_maskSubsets_of_testBit {mask v : Nat} (hv : v < 2 ^ 64)
    (h : ∀ j, v.testBit j = true → mask.testBit j = true) : v ∈ maskSubsets mask := by
  refine ⟨hv, ?_⟩
  apply Nat.eq_of_testBit_eq
  intro j
  rw [Nat.testBit_and, Nat.testBit_xor, Nat.testBit_two_pow_sub_one, Nat.zero_testBit]
  cases hc : v.testBit j
  · simp
  · have hj : j < 64 := by
      by_contra hge
      have : v < 2 ^ j := lt_of_lt_of_le hv (Nat.pow_le_pow_right (by decide) (by omega))
      rw [Nat.testBit_lt_two_pow this] at hc
      exact Bool.false_ne_true hc
    simp [h j hc, hj]

theorem merge_and_mem_maskSubsets (a mask : Bitboard) (hm : mask.is64) :
    (a.and mask).merge ∈ maskSubsets mask.merge := by
  apply mem_maskSubsets_of_testBit
  · exact Nat.or_lt_two_pow (lt_of_le_of_lt Nat.and_le_right hm.1)
      (lt_of_le_of_lt Nat.and_le_right hm.2)
  · intro j hj
    simp only [Bitboard.merge, Bitboard.and, Nat.testBit_or, Nat.testBit_and, Bool.or_eq_true,
      Bool.and_eq_true] at hj ⊢
    rcases hj with hj | hj
    · exact Or.inl hj.2
    · exact Or.inr hj.2

theorem and_eq_of_merge_eq (a b mask : Bitboard) (hc : mask.p0 &&& mask.p1 = 0)
    (h : (a.and mask).merge = (b.and mask).merge) : a.and mask = b.and mask := by
  have hdis : ∀ j, ¬ (mask.p0.testBit j = true ∧ mask.p1.testBit j = true) := by
    intro j hj
    have : (mask.p0 &&& mask.p1).testBit j = true := by rw [Nat.testBit_and, hj.1, hj.2]; rfl
    rw [hc] at this
    simp at this
  have hbits : ∀ j, ((a.p0.testBit j && mask.p0.testBit j) || (a.p1.testBit j && mask.p1.testBit j))
      = ((b.p0.testBit j && mask.p0.testBit j) || (b.p1.testBit j && mask.p1.testBit j)) := by
    intro j
    have := congrArg (fun x => x.testBit j) h
    simpa [Bitboard.merge, Bitboard.and] using this
  have h0 : a.p0 &&& mask.p0 = b.p0 &&& mask.p0 := by
    apply Nat.eq_of_testBit_eq
    intro j
    have := hbits j
    have hd := hdis j
    rw [Nat.testBit_and, Nat.testBit_and]
    revert this hd
    cases a.p0.testBit j <;> cases b.p0.testBit j <;> cases mask.p0.testBit j <;>
      cases mask.p1.testBit j <;> cases a.p1.testBit j <;> cases b.p1.testBit j <;> simp
  have h1 : a.p1 &&& mask.p1 = b.p1 &&& mask.p1 := by
    apply Nat.eq_of_testBit_eq
    intro j
    have := hbits j
    have hd := hdis j
    rw [Nat.testBit_and, Nat.testBit_and]
    revert this hd
    cases a.p0.testBit j <;> cases b.p0.testBit j <;> cases mask.p0.testBit j <;>
      cases mask.p1.testBit j <;> cases a.p1.testBit j <;> cases b.p1.testBit j <;> simp
  simp only [Bitboard.and, h0, h1]

theorem pop_count_eq_popcount_merge (mask : Bitboard) (hm : mask.is64)
    (hc : mask.p0 &&& mask.p1 = 0) : mask.pop_count = (popcount mask.merge : Int) := by
  unfold Bitboard.pop_count Bitboard.merge
  rw [POPCNT64_eq_bitSum _ hm.1, POPCNT64_eq_bitSum _ hm.2, popcount_or_of_disjoint _ _ hc,
    popcount_eq_bitSum, popcount_eq_bitSum]
  push_cast
  rfl

/-- C3. For a Bitboard `mask` of 64-bit words without cross-over and all occupancies `a`, `b`:
`occupiedToIndex (a & mask) mask = occupiedToIndex (b & mask) mask` exactly when
`a & mask = b & mask`, and the index is below `2 ^ pop_count mask`. -/
theorem occupiedToIndex_faithful (mask a b : Bitboard) (hm : mask.is64)
    (hc : mask.cross_over = false) :
    (occupiedToIndex (a.and mask) mask = occupiedToIndex (b.and mask) mask ↔
      a.and mask = b.and mask) ∧
    occupiedToIndex (a.and mask) mask < 2 ^ mask.pop_count.toNat := by
  have hc0 : mask.p0 &&& mask.p1 = 0 := by
    simpa [Bitboard.cross_over] using hc
  have hm64 : mask.merge < 2 ^ 64 := Nat.or_lt_two_pow hm.1 hm.2
  refine ⟨⟨?_, ?_⟩, ?_⟩
  · intro h
    exact and_eq_of_merge_eq a b mask hc0
      (pext_injOn mask.merge hm64 (merge_and_mem_maskSubsets a mask hm)
        (merge_and_mem_maskSubsets b mask hm) h)
  · intro h
    rw [h]
  · rw [pop_count_eq_popcount_merge mask hm hc0, Int.toNat_ofNat]
    exact pext_lt _ _ hm64

theorem occupiedToIndex_faithful_witness :
    (occupiedToIndex ((⟨0x1FF, 0x3⟩ : Bitboard).and ⟨0x7F00, 0xFE⟩) ⟨0x7F00, 0xFE⟩
        = occupiedToIndex ((⟨0x100, 0x2⟩ : Bitboard).and ⟨0x7F00, 0xFE⟩) ⟨0x7F00, 0xFE⟩ ↔
      (⟨0x1FF, 0x3⟩ : Bitboard).and ⟨0x7F00, 0xFE⟩ = (⟨0x100, 0x2⟩ : Bitboard).and ⟨0x7F00, 0xFE⟩) ∧
    occupiedToIndex ((⟨0x1FF, 0x3⟩ : Bitboard).and ⟨0x7F00, 0xFE⟩) ⟨0x7F00, 0xFE⟩
      < 2 ^ (⟨0x7F00, 0xFE⟩ : Bitboard).pop_count.toNat :=
  occupiedToIndex_faithful ⟨0x7F00, 0xFE⟩ ⟨0x1FF, 0x3⟩ ⟨0x100, 0x2⟩
    ⟨by decide, by decide⟩ (by decide)

/-- C4. For every content of the tables, every square and every occupancy, `rookEffect` is the
entry of `RookEffect` at `RookEffectIndex[sq] + pext(merge(occ & mask), merge(mask))` with
`mask = RookEffectMask[sq]`, and `bishopEffect` likewise with the Bishop tables; so two
occupancies that agree on the squares of the mask yield the same attack set. -/
theorem slidingEffect_is_table_entry (T : EffectTables) (sq : Nat) (occ occ2 : Bitboard) :
    rookEffect T sq occ
      = T.RookEffect (toU64 (T.RookEffectIndex sq
          + pext (occ.and (T.RookEffectMask sq)).merge (T.RookEffectMask sq).merge)) ∧
    bishopEffect T sq occ
      = T.BishopEffect (toU64 (T.BishopEffectIndex sq
          + pext (occ.and (T.BishopEffectMask sq)).merge (T.BishopEffectMask sq).merge)) ∧
    (occ.and (T.RookEffectMask sq) = occ2.and (T.RookEffectMask sq) →
      rookEffect T sq occ = rookEffect T sq occ2) ∧
    (occ.and (T.BishopEffectMask sq) = occ2.and (T.BishopEffectMask sq) →
      bishopEffect T sq occ = bishopEffect T sq occ2) := by
  refine ⟨rfl, rfl, ?_, ?_⟩
  · intro h
    simp only [rookEffect, h]
  · intro h
    simp only [bishopEffect, h]

theorem slidingEffect_is_table_entry_witness :
    rookEffect probeTables 0 ⟨0x1FF, 0x3⟩ = rookEffect probeTables 0 ⟨0x100, 0x2⟩ ∧
      rookEffect probeTables 0 ⟨0x1FF, 0x3⟩ = ⟨100 + 0x81, 1⟩ :=
  ⟨(slidingEffect_is_table_entry probeTables 0 ⟨0x1FF, 0x3⟩ ⟨0x100, 0x2⟩).2.2.1 (by decide),
    by decide⟩

theorem Bitboard.ext_words {a b : Bitboard} (h0 : a.p0 = b.p0) (h1 : a.p1 = b.p1) : a = b := by
  cases a; cases b; simp only at h0 h1; rw [h0, h1]

theorem bbOfSquares_p0_testBit (L : List Nat) (j : Nat) :
    (bbOfSquares L).p0.testBit j = decide (j < 63 ∧ j ∈ L) := by
  induction L with
  | nil => simp [bbOfSquares, ZERO_BB]
  | cons y L ih =>
    have hstep : bbOfSquares (y :: L) = (SquareBB y).or (bbOfSquares L) := rfl
    rw [hstep]
    simp only [Bitboard.or, Nat.testBit_or, ih, SquareBB]
    by_cases hy : y < 63
    · by_cases hj : j = y
      · subst hj; simp [hy, Nat.testBit_two_pow_self]
      · have hne : ¬ (y = j) := fun e => hj e.symm
        simp [hy, Nat.testBit_two_pow, hj, hne]
    · have hne : j < 63 → j ≠ y := by omega
      by_cases hj : j < 63
      · simp [hy, hj, hne hj]
      · simp [hy, hj]

theorem bbOfSquares_p1_testBit (L : List Nat) (j : Nat) :
    (bbOfSquares L).p1.testBit j = decide (j + 63 ∈ L) := by
  induction L with
  | nil => simp [bbOfSquares, ZERO_BB]
  | cons y L ih =>
    have hstep : bbOfSquares (y :: L) = (SquareBB y).or (bbOfSquares L) := rfl
    rw [hstep]
    simp only [Bitboard.or, Nat.testBit_or, ih, SquareBB]
    by_cases hy : y < 63
    · have hne : j + 63 ≠ y := by omega
      simp [hy, hne]
    · by_cases hj : j + 63 = y
      · have : y - 63 = j := by omega
        simp [hy, hj, this, Nat.testBit_two_pow_self]
      · have : ¬ (y - 63 = j) := by omega
        simp [hy, hj, Nat.testBit_two_pow, this]

theorem test_bbOfSquares (L : List Nat) (x : Nat) : (bbOfSquares L).test x = decide (x ∈ L) := by
  unfold Bitboard.test
  by_cases hx : x < 63
  · simp [hx, bbOfSquares_p0_testBit]
  · have : x - 63 + 63 = x := by omega
    simp [hx, bbOfSquares_p1_testBit, this]

theorem and_SquareBB (occ : Bitboard) (y : Nat) :
    occ.and (SquareBB y) = if occ.test y then SquareBB y else ZERO_BB := by
  have hpow : ∀ v k : Nat, v &&& 2 ^ k = if v.testBit k then 2 ^ k else 0 := by
    intro v k
    apply Nat.eq_of_testBit_eq
    intro i
    by_cases hv : v.testBit k = true
    · rw [if_pos hv, Nat.testBit_and, Nat.testBit_two_pow]
      by_cases hki : k = i
      · subst hki; simp [hv]
      · simp [hki]
    · rw [if_neg hv, Nat.testBit_and, Nat.testBit_two_pow]
      by_cases hki : k = i
      · subst hki; simp at hv; simp [hv]
      · simp [hki]
  unfold Bitboard.test SquareBB Bitboard.and
  by_cases hy : y < 63
  · simp only [hy, if_true, hpow, Nat.and_zero]
    split <;> simp [ZERO_BB]
  · simp only [hy, if_false, hpow, Nat.and_zero]
    split <;> simp [ZERO_BB]

theorem and_bbOfSquares (occ : Bitboard) (L : List Nat) :
    occ.and (bbOfSquares L) = bbOfSquares (L.filter occ.test) := by
  induction L with
  | nil => simp [bbOfSquares, ZERO_BB, Bitboard.and]
  | cons y L ih =>
    have hstep : bbOfSquares (y :: L) = (SquareBB y).or (bbOfSquares L) := rfl
    have hdist : occ.and ((SquareBB y).or (bbOfSquares L))
        = (occ.and (SquareBB y)).or (occ.and (bbOfSquares L)) := by
      simp only [Bitboard.and, Bitboard.or, Nat.and_or_distrib_left]
    rw [hstep, hdist, ih, and_SquareBB, List.filter_cons]
    by_cases ht : occ.test y = true
    · simp only [ht, if_true]; rfl
    · simp only [ht, if_false]
      simp [ZERO_BB, Bitboard.or]

theorem and_comm_bb (a b : Bitboard) : a.and b = b.and a := by
  simp only [Bitboard.and, Nat.and_comm]

theorem bbOfSquares_and_of_subset (l L : List Nat) (h : ∀ x, x ∈ l → x ∈ L) :
    (bbOfSquares l).and (bbOfSquares L) = bbOfSquares l := by
  rw [and_comm_bb, and_bbOfSquares]
  congr 1
  rw [List.filter_eq_self]
  intro x hx
  rw [test_bbOfSquares]
  exact decide_eq_true (h x hx)

theorem bbOfSquares_is64 (L : List Nat) (h : ∀ x, x ∈ L → x < 81) : (bbOfSquares L).is64 := by
  constructor
  · apply Nat.lt_pow_two_of_testBit
    intro i hi
    rw [bbOfSquares_p0_testBit]
    have : ¬ i < 63 := by omega
    simp [this]
  · apply Nat.lt_pow_two_of_testBit
    intro i hi
    rw [bbOfSquares_p1_testBit]
    have : ¬ (i + 63 ∈ L) := fun hm => by have := h _ hm; omega
    simp [this]

theorem mem_rayLine_lt (sq : Nat) (df dr : Int) (x : Nat) (hx : x ∈ rayLine sq df dr) : x < 81 := by
  unfold rayLine at hx
  rw [List.mem_filterMap] at hx
  obtain ⟨k, _, hk⟩ := hx
  split at hk
  · rename_i hc
    simp only [Option.some.injEq] at hk
    omega
  · exact absurd hk (by simp)

theorem upToFirst_congr (p q : Nat → Bool) (l : List Nat)
    (h : ∀ x, x ∈ l.dropLast → p x = q x) : upToFirst p l = upToFirst q l := by
  induction l with
  | nil => rfl
  | cons x xs ih =>
    cases xs with
    | nil => simp [upToFirst]
    | cons y ys =>
      have hx : p x = q x := h x (by simp [List.dropLast])
      have hrest : ∀ z, z ∈ (y :: ys).dropLast → p z = q z := by
        intro z hz
        exact h z (by simp only [List.dropLast_cons₂, List.mem_cons]; exact Or.inr hz)
      simp only [upToFirst] at ih ⊢
      rw [hx, ih hrest]

theorem mem_maskSquares_lt (dirs : List (Int × Int)) (sq x : Nat) (hx : x ∈ maskSquares dirs sq) :
    x < 81 := by
  unfold maskSquares at hx
  rw [List.mem_flatMap] at hx
  obtain ⟨d, _, hd⟩ := hx
  exact mem_rayLine_lt sq d.1 d.2 x (List.mem_of_mem_dropLast hd)

theorem test_and (a b : Bitboard) (x : Nat) : (a.and b).test x = (a.test x && b.test x) := by
  unfold Bitboard.test Bitboard.and
  split <;> simp

theorem rayCastAttack_and_mask (dirs : List (Int × Int)) (sq : Nat) (occ : Bitboard) :
    rayCastAttack dirs sq (occ.and (effectMask dirs sq)) = rayCastAttack dirs sq occ := by
  unfold rayCastAttack
  congr 1
  simp only [List.flatMap]
  congr 1
  apply List.map_congr_left
  intro d hd
  apply upToFirst_congr
  intro x hx
  have hmem : x ∈ maskSquares dirs sq := by
    unfold maskSquares
    rw [List.mem_flatMap]
    exact ⟨d, hd, hx⟩
  rw [test_and, effectMask, test_bbOfSquares, decide_eq_true hmem, Bool.and_true]

theorem storeAll_of_not_mem (ws : List (Nat × Bitboard)) : ∀ (init : Nat → Bitboard) (i : Nat),
    (∀ w, w ∈ ws → w.1 ≠ i) → storeAll ws init i = init i := by
  induction ws with
  | nil => intro init i _; rfl
  | cons w ws ih =>
    intro init i h
    have hstep : storeAll (w :: ws) init = storeAll ws (Function.update init w.1 w.2) := rfl
    rw [hstep, ih _ i (fun w1 hw1 => h w1 (List.mem_cons_of_mem _ hw1))]
    exact Function.update_noteq (fun e => h w (List.mem_cons_self _ _) e.symm) _ _

theorem storeAll_of_mem (ws : List (Nat × Bitboard)) : ∀ (init : Nat → Bitboard) (i : Nat)
    (v : Bitboard), (i, v) ∈ ws → (∀ v1, (i, v1) ∈ ws → v1 = v) → storeAll ws init i = v := by
  induction ws with
  | nil => intro init i v h; simp at h
  | cons w ws ih =>
    intro init i v hmem hcons
    have hstep : storeAll (w :: ws) init = storeAll ws (Function.update init w.1 w.2) := rfl
    rw [hstep]
    by_cases hlater : ∃ v1, (i, v1) ∈ ws
    · obtain ⟨v1, hv1⟩ := hlater
      have hv : v1 = v := hcons v1 (List.mem_cons_of_mem _ hv1)
      subst hv
      exact ih _ i v1 hv1 (fun v2 hv2 => hcons v2 (List.mem_cons_of_mem _ hv2))
    · have hnot : ∀ w1, w1 ∈ ws → w1.1 ≠ i := by
        intro w1 hw1 he
        exact hlater ⟨w1.2, by rw [← he]; exact hw1⟩
      rw [storeAll_of_not_mem ws _ i hnot]
      have hw : w = (i, v) := by
        rcases List.mem_cons.1 hmem with h | h
        · exact h.symm
        · exact absurd ⟨v, h⟩ hlater
      rw [hw]
      simp

theorem effectIndex_succ_le (dirs : List (Int × Int)) (a : Nat) : ∀ b, a < b →
    effectIndex dirs a + 2 ^ (effectMask dirs a).pop_count.toNat ≤ effectIndex dirs b := by
  intro b hab
  induction b with
  | zero => omega
  | succ b ih =>
    by_cases h : a = b
    · subst h; exact le_refl _
    · have := ih (by omega)
      simp only [effectIndex]
      exact le_trans this (Nat.le_add_right _ _)

theorem effectMask_is64 (dirs : List (Int × Int)) (sq : Nat) : (effectMask dirs sq).is64 :=
  bbOfSquares_is64 _ (fun x hx => mem_maskSquares_lt dirs sq x hx)

theorem occupiedToIndex_lt (dirs : List (Int × Int)) (sq : Nat) (x : Bitboard)
    (hc : (effectMask dirs sq).cross_over = false) :
    occupiedToIndex x (effectMask dirs sq) < 2 ^ (effectMask dirs sq).pop_count.toNat := by
  have hm := effectMask_is64 dirs sq
  have hc0 : (effectMask dirs sq).p0 &&& (effectMask dirs sq).p1 = 0 := by
    simpa [Bitboard.cross_over] using hc
  rw [pop_count_eq_popcount_merge _ hm hc0, Int.toNat_ofNat]
  exact pext_lt _ _ (Nat.or_lt_two_pow hm.1 hm.2)

theorem eq_of_occupiedToIndex_eq (x y mask : Bitboard) (hm : mask.is64)
    (hc : mask.cross_over = false) (hx : x.and mask = x) (hy : y.and mask = y)
    (h : occupiedToIndex x mask = occupiedToIndex y mask) : x = y := by
  have hc0 : mask.p0 &&& mask.p1 = 0 := by simpa [Bitboard.cross_over] using hc
  have hxm := merge_and_mem_maskSubsets x mask hm
  have hym := merge_and_mem_maskSubsets y mask hm
  rw [hx] at hxm
  rw [hy] at hym
  have hmerge := pext_injOn mask.merge (Nat.or_lt_two_pow hm.1 hm.2) hxm hym h
  have := and_eq_of_merge_eq x y mask hc0 (by rw [hx, hy]; exact hmerge)
  rw [hx, hy] at this
  exact this

theorem storeAll_effectStores (dirs : List (Int × Int))
    (hcross : ∀ sq, sq < 81 → (effectMask dirs sq).cross_over = false)
    (sq : Nat) (hsq : sq < 81) (occ : Bitboard) (init : Nat → Bitboard) :
    storeAll (effectStores dirs) init
        (effectIndex dirs sq + occupiedToIndex (occ.and (effectMask dirs sq)) (effectMask dirs sq))
      = rayCastAttack dirs sq occ := by
  have hocc : occ.and (effectMask dirs sq)
      = bbOfSquares ((maskSquares dirs sq).filter occ.test) := and_bbOfSquares occ _
  rw [← rayCastAttack_and_mask dirs sq occ]
  apply storeAll_of_mem
  · unfold effectStores
    rw [List.mem_flatMap]
    refine ⟨sq, List.mem_range.2 hsq, ?_⟩
    rw [List.mem_map]
    refine ⟨(maskSquares dirs sq).filter occ.test, ?_, ?_⟩
    · rw [List.mem_sublists]; exact List.filter_sublist _
    · rw [hocc]
  · intro v1 hv1
    unfold effectStores at hv1
    rw [List.mem_flatMap] at hv1
    obtain ⟨sq1, hsq1, hmem⟩ := hv1
    rw [List.mem_range] at hsq1
    rw [List.mem_map] at hmem
    obtain ⟨l, hl, hpair⟩ := hmem
    rw [List.mem_sublists] at hl
    simp only [Prod.mk.injEq] at hpair
    obtain ⟨hidx, hval⟩ := hpair
    have hb1 := occupiedToIndex_lt dirs sq1 (bbOfSquares l) (hcross sq1 hsq1)
    have hb := occupiedToIndex_lt dirs sq (occ.and (effectMask dirs sq)) (hcross sq hsq)
    have hsame : sq1 = sq := by
      rcases Nat.lt_trichotomy sq1 sq with hlt | heq | hgt
      · have := effectIndex_succ_le dirs sq1 sq hlt; omega
      · exact heq
      · have := effectIndex_succ_le dirs sq sq1 hgt; omega
    subst hsame
    have hidx2 : occupiedToIndex (bbOfSquares l) (effectMask dirs sq1)
        = occupiedToIndex (occ.and (effectMask dirs sq1)) (effectMask dirs sq1) := by omega
    have hl_and : (bbOfSquares l).and (effectMask dirs sq1) = bbOfSquares l :=
      bbOfSquares_and_of_subset l _ (fun x hx => hl.subset hx)
    have hocc_and : (occ.and (effectMask dirs sq1)).and (effectMask dirs sq1)
        = occ.and (effectMask dirs sq1) := by
      simp only [Bitboard.and, Nat.and_assoc, Nat.and_self]
    have heq := eq_of_occupiedToIndex_eq _ _ _ (effectMask_is64 dirs sq1) (hcross sq1 hsq1)
      hl_and hocc_and hidx2
    rw [← hval, heq]

theorem lance_layout : ∀ sq, sq < 81 → ∀ j, j < 7 →
    if 9 * (sq / 9) + j + 1 < 63
    then Bitboard.part sq = 0 ∧ Slide sq + j = 9 * (sq / 9) + j + 1
    else Bitboard.part sq = 1 ∧ Slide sq + j = 9 * (sq / 9) + j + 1 - 63 := by
  decide

theorem lance_ray_inner : ∀ sq, sq < 81 → ∀ c, c < 2 → ∀ d, d ∈ lanceDirs c →
    ∀ x, x ∈ (rayLine sq d.1 d.2).dropLast → x ∈ fileInnerSquares sq := by
  decide

theorem lanceIndex_testBit (sq : Nat) (hsq : sq < 81) (occ : Bitboard) (j : Nat) (hj : j < 7) :
    (lanceIndex sq occ).testBit j = occ.test (9 * (sq / 9) + j + 1) := by
  have h127 : (127 : Nat) = 2 ^ 7 - 1 := by decide
  have hl := lance_layout sq hsq j hj
  unfold lanceIndex Bitboard.test Bitboard.p
  rw [h127, Nat.testBit_and, Nat.testBit_shiftRight, Nat.testBit_two_pow_sub_one,
    decide_eq_true hj, Bool.and_true]
  by_cases hx : 9 * (sq / 9) + j + 1 < 63
  · rw [if_pos hx] at hl ⊢
    rw [hl.1, hl.2]; rfl
  · rw [if_neg hx] at hl ⊢
    rw [hl.1, hl.2]; rfl

theorem lanceIndex_lt (sq : Nat) (occ : Bitboard) : lanceIndex sq occ < 2 ^ 7 :=
  Nat.and_lt_two_pow _ (by decide)

theorem lanceIndex_eq_of_test (sq : Nat) (hsq : sq < 81) (a b : Bitboard)
    (h : ∀ x, x ∈ fileInnerSquares sq → a.test x = b.test x) :
    lanceIndex sq a = lanceIndex sq b := by
  apply Nat.eq_of_testBit_eq
  intro j
  by_cases hj : j < 7
  · rw [lanceIndex_testBit sq hsq a j hj, lanceIndex_testBit sq hsq b j hj]
    apply h
    unfold fileInnerSquares
    rw [List.mem_map]
    exact ⟨j, List.mem_range.2 hj, rfl⟩
  · have hle : 2 ^ 7 ≤ 2 ^ j := Nat.pow_le_pow_right (by decide) (by omega)
    rw [Nat.testBit_lt_two_pow (lt_of_lt_of_le (lanceIndex_lt sq a) hle),
      Nat.testBit_lt_two_pow (lt_of_lt_of_le (lanceIndex_lt sq b) hle)]

theorem test_eq_of_lanceIndex_eq (sq : Nat) (hsq : sq < 81) (a b : Bitboard)
    (h : lanceIndex sq a = lanceIndex sq b) (x : Nat) (hx : x ∈ fileInnerSquares sq) :
    a.test x = b.test x := by
  unfold fileInnerSquares at hx
  rw [List.mem_map] at hx
  obtain ⟨j, hj, rfl⟩ := hx
  rw [List.mem_range] at hj
  rw [← lanceIndex_testBit sq hsq a j hj, ← lanceIndex_testBit sq hsq b j hj, h]

theorem lance_rayCast_congr (c sq : Nat) (hc : c < 2) (hsq : sq < 81) (a b : Bitboard)
    (h : lanceIndex sq a = lanceIndex sq b) :
    rayCastAttack (lanceDirs c) sq a = rayCastAttack (lanceDirs c) sq b := by
  unfold rayCastAttack
  congr 1
  simp only [List.flatMap]
  congr 1
  apply List.map_congr_left
  intro d hd
  apply upToFirst_congr
  intro x hx
  exact test_eq_of_lanceIndex_eq sq hsq a b h x (lance_ray_inner sq hsq c hc d hd x hx)

theorem storeAll_lanceStores (c sq : Nat) (hc : c < 2) (hsq : sq < 81) (occ : Bitboard)
    (init : Nat → Bitboard) :
    storeAll (lanceStores c sq) init (lanceIndex sq occ) = rayCastAttack (lanceDirs c) sq occ := by
  have hidx : lanceIndex sq (bbOfSquares ((fileInnerSquares sq).filter occ.test))
      = lanceIndex sq occ := by
    apply lanceIndex_eq_of_test sq hsq
    intro x hx
    rw [test_bbOfSquares]
    by_cases ht : occ.test x = true
    · rw [ht]; exact decide_eq_true (List.mem_filter.2 ⟨hx, ht⟩)
    · have hf : occ.test x = false := by simpa using ht
      rw [hf]
      exact decide_eq_false (fun hm => ht (List.mem_filter.1 hm).2)
  apply storeAll_of_mem
  · unfold lanceStores
    rw [List.mem_map]
    refine ⟨(fileInnerSquares sq).filter occ.test, ?_, ?_⟩
    · rw [List.mem_sublists]; exact List.filter_sublist _
    · rw [hidx, lance_rayCast_congr c sq hc hsq _ occ hidx]
  · intro v1 hv1
    unfold lanceStores at hv1
    rw [List.mem_map] at hv1
    obtain ⟨l, _, hpair⟩ := hv1
    simp only [Prod.mk.injEq] at hpair
    rw [← hpair.2]
    exact lance_rayCast_congr c sq hc hsq _ occ hpair.1

theorem rook_cross_over : ∀ sq, sq < 81 → (effectMask rookDirs sq).cross_over = false := by
  decide

theorem bishop_cross_over : ∀ sq, sq < 81 → (effectMask bishopDirs sq).cross_over = false := by
  decide

set_option maxRecDepth 100000 in
theorem rook_effectIndex_total : effectIndex rookDirs 81 = 495616 := by decide

set_option maxRecDepth 100000 in
theorem bishop_effectIndex_total : effectIndex bishopDirs 81 = 20224 := by decide

theorem toU64_index (dirs : List (Int × Int)) (sq : Nat) (hsq : sq < 81) (x : Bitboard)
    (hcross : ∀ s, s < 81 → (effectMask dirs s).cross_over = false)
    (htotal : effectIndex dirs 81 < 2 ^ 64) :
    toU64 ((effectIndex dirs sq : Int) + (occupiedToIndex x (effectMask dirs sq) : Int))
      = effectIndex dirs sq + occupiedToIndex x (effectMask dirs sq) := by
  have h1 := occupiedToIndex_lt dirs sq x (hcross sq hsq)
  have h2 := effectIndex_succ_le dirs sq 81 hsq
  have hlt : effectIndex dirs sq + occupiedToIndex x (effectMask dirs sq) < 2 ^ 64 := by omega
  unfold toU64
  rw [← Int.ofNat_add]
  have : ((effectIndex dirs sq + occupiedToIndex x (effectMask dirs sq) : Nat) : Int) % 2 ^ 64
      = ((effectIndex dirs sq + occupiedToIndex x (effectMask dirs sq) : Nat) : Int) := by
    apply Int.emod_eq_of_lt (Int.ofNat_nonneg _)
    exact_mod_cast hlt
  rw [this, Int.toNat_ofNat]

/-- C5. On the tables built as the spec describes, for every origin square and every occupancy
the table-driven `rookEffect`, `bishopEffect` and `lanceEffect` equal the attack set of naive
ray-casting from that square, each ray stopping at and including the first occupied square or at
the board edge. -/
theorem slidingEffect_eq_rayCast (sq : Nat) (hsq : sq < 81) (c : Nat) (hc : c < 2)
    (occ : Bitboard) :
    rookEffect builtTables sq occ = rayCastAttack rookDirs sq occ ∧
    bishopEffect builtTables sq occ = rayCastAttack bishopDirs sq occ ∧
    lanceEffect builtTables c sq occ = rayCastAttack (lanceDirs c) sq occ := by
  refine ⟨?_, ?_, ?_⟩
  · have hu := toU64_index rookDirs sq hsq (occ.and (effectMask rookDirs sq)) rook_cross_over
      (by rw [rook_effectIndex_total]; decide)
    simp only [rookEffect, builtTables]
    rw [hu]
    exact storeAll_effectStores rookDirs rook_cross_over sq hsq occ _
  · have hu := toU64_index bishopDirs sq hsq (occ.and (effectMask bishopDirs sq)) bishop_cross_over
      (by rw [bishop_effectIndex_total]; decide)
    simp only [bishopEffect, builtTables]
    rw [hu]
    exact storeAll_effectStores bishopDirs bishop_cross_over sq hsq occ _
  · simp only [lanceEffect, builtTables]
    exact storeAll_lanceStores c sq hc hsq occ _

theorem slidingEffect_eq_rayCast_witness :
    rookEffect builtTables 40 ⟨2 ^ 38 + 2 ^ 44 + 2 ^ 22, 2 ^ 4⟩
        = rayCastAttack rookDirs 40 ⟨2 ^ 38 + 2 ^ 44 + 2 ^ 22, 2 ^ 4⟩ ∧
      bishopEffect builtTables 40 ⟨2 ^ 38 + 2 ^ 44 + 2 ^ 22, 2 ^ 4⟩
        = rayCastAttack bishopDirs 40 ⟨2 ^ 38 + 2 ^ 44 + 2 ^ 22, 2 ^ 4⟩ ∧
      lanceEffect builtTables 0 40 ⟨2 ^ 38 + 2 ^ 44 + 2 ^ 22, 2 ^ 4⟩
        = rayCastAttack (lanceDirs 0) 40 ⟨2 ^ 38 + 2 ^ 44 + 2 ^ 22, 2 ^ 4⟩ :=
  slidingEffect_eq_rayCast 40 (by decide) 0 (by decide) ⟨2 ^ 38 + 2 ^ 44 + 2 ^ 22, 2 ^ 4⟩

theorem probeScan_some_spec (tte : Nat → TTEntry) (key16 : Nat) : ∀ (n i : Nat) (b : Bool)
    (j : Nat), probeScan tte key16 n i = some (b, j) →
    i ≤ j ∧ j < i + n ∧
    (∀ m, i ≤ m → m < j → (tte m).key16 ≠ 0 ∧ (tte m).key16 ≠ key16) ∧
    ((b = false ∧ (tte j).key16 = 0) ∨
      (b = true ∧ (tte j).key16 ≠ 0 ∧ (tte j).key16 = key16)) := by
  intro n
  induction n with
  | zero => intro i b j h; simp [probeScan] at h
  | succ n ih =>
    intro i b j h
    unfold probeScan at h
    by_cases h0 : (tte i).key16 = 0
    · rw [if_pos h0] at h
      simp only [Option.some.injEq, Prod.mk.injEq] at h
      obtain ⟨hb, hj⟩ := h
      subst hb; subst hj
      exact ⟨le_refl _, by omega, fun m h1 h2 => by omega, Or.inl ⟨rfl, h0⟩⟩
    · rw [if_neg h0] at h
      by_cases hm : (tte i).key16 = key16
      · rw [if_pos hm] at h
        simp only [Option.some.injEq, Prod.mk.injEq] at h
        obtain ⟨hb, hj⟩ := h
        subst hb; subst hj
        exact ⟨le_refl _, by omega, fun m h1 h2 => by omega, Or.inr ⟨rfl, h0, hm⟩⟩
      · rw [if_neg hm] at h
        obtain ⟨h1, h2, h3, h4⟩ := ih (i + 1) b j h
        refine ⟨by omega, by omega, ?_, h4⟩
        intro m hm1 hm2
        by_cases hmi : m = i
        · subst hmi; exact ⟨h0, hm⟩
        · exact h3 m (by omega) hm2

theorem probeScan_none_spec (tte : Nat → TTEntry) (key16 : Nat) : ∀ (n i : Nat),
    probeScan tte key16 n i = none →
    ∀ m, i ≤ m → m < i + n → (tte m).key16 ≠ 0 ∧ (tte m).key16 ≠ key16 := by
  intro n
  induction n with
  | zero => intro i _ m h1 h2; omega
  | succ n ih =>
    intro i h m h1 h2
    unfold probeScan at h
    by_cases h0 : (tte i).key16 = 0
    · rw [if_pos h0] at h; exact absurd h (by simp)
    · rw [if_neg h0] at h
      by_cases hm : (tte i).key16 = key16
      · rw [if_pos hm] at h; exact absurd h (by simp)
      · rw [if_neg hm] at h
        by_cases hmi : m = i
        · subst hmi; exact ⟨h0, hm⟩
        · exact ih (i + 1) h m (by omega) (by omega)

/-- The slot `probe` returns lies in the addressed cluster, behind entries that are neither
empty nor matching, and `probe` leaves every fragment, the sizes and the generation as they are. -/
theorem probe_slot_spec (tt : TranspositionTable) (key : Nat) (hsize : 0 < tt.ClusterSize) :
    (tt.probe key).cluster = tt.clusterIndex key ∧
    (tt.probe key).entry < tt.ClusterSize ∧
    (∀ m, m < (tt.probe key).entry →
      (tt.table (tt.clusterIndex key) m).key16 ≠ 0 ∧
      (tt.table (tt.clusterIndex key) m).key16 ≠ key16Of key) ∧
    (∀ c i, ((tt.probe key).tt.table c i).key16 = (tt.table c i).key16) ∧
    (tt.probe key).tt.ClusterSize = tt.ClusterSize ∧
    (tt.probe key).tt.clusterCount = tt.clusterCount ∧
    (tt.probe key).tt.generation8 = tt.generation8 := by
  cases hs : probeScan (tt.table (tt.clusterIndex key)) (key16Of key) tt.ClusterSize 0 with
  | none =>
    have hall := probeScan_none_spec _ _ _ _ hs
    have hfull : fullNoMatch tt key := fun j hj => hall j (Nat.zero_le _) (by omega)
    obtain ⟨_, _, hlt, _, _⟩ := probe_evict_spec tt key hsize hfull
    rw [probe_of_fullNoMatch tt key hfull] at hlt ⊢
    exact ⟨rfl, hlt, fun m hm => hfull m (lt_trans hm hlt), fun _ _ => rfl, rfl, rfl, rfl⟩
  | some p =>
    obtain ⟨b, j⟩ := p
    obtain ⟨_, h2, h3, _⟩ := probeScan_some_spec _ _ _ _ b j hs
    have hj : j < tt.ClusterSize := by omega
    cases b with
    | false =>
      have hp : tt.probe key = ⟨false, tt.clusterIndex key, j, tt⟩ := by
        simp only [TranspositionTable.probe, hs]
      rw [hp]
      exact ⟨rfl, hj, fun m hm => h3 m (Nat.zero_le _) hm, fun _ _ => rfl, rfl, rfl, rfl⟩
    | true =>
      have hp : tt.probe key = ⟨true, tt.clusterIndex key, j,
          { tt with table := fun c1 i1 =>
              if c1 = tt.clusterIndex key ∧ i1 = j then
                (tt.table (tt.clusterIndex key) j).set_generation tt.generation8
              else tt.table c1 i1 }⟩ := by
        simp only [TranspositionTable.probe, hs]
      rw [hp]
      refine ⟨rfl, hj, fun m hm => h3 m (Nat.zero_le _) hm, ?_, rfl, rfl, rfl⟩
      intro c i
      show (if c = tt.clusterIndex key ∧ i = j then
          (tt.table (tt.clusterIndex key) j).set_generation tt.generation8
        else tt.table c i).key16 = (tt.table c i).key16
      by_cases hci : c = tt.clusterIndex key ∧ i = j
      · rw [if_pos hci, hci.1, hci.2]; rfl
      · rw [if_neg hci]

/-- The full result of `probe` when entry `i` is the first one that matches and nothing before
it is empty. -/
theorem probe_eq_of_first_match (tt : TranspositionTable) (key i : Nat)
    (hi : i < tt.ClusterSize)
    (hmatch : (tt.table (tt.clusterIndex key) i).key16 = key16Of key)
    (hnz : key16Of key ≠ 0)
    (hbefore : ∀ j, j < i → (tt.table (tt.clusterIndex key) j).key16 ≠ 0 ∧
      (tt.table (tt.clusterIndex key) j).key16 ≠ key16Of key) :
    tt.probe key = ⟨true, tt.clusterIndex key, i,
      { tt with table := fun c1 i1 =>
          if c1 = tt.clusterIndex key ∧ i1 = i then
            (tt.table (tt.clusterIndex key) i).set_generation tt.generation8
          else tt.table c1 i1 }⟩ := by
  have hs := probeScan_first (tt.table (tt.clusterIndex key)) (key16Of key) tt.ClusterSize 0 i
    (Nat.zero_le _) (by omega) (fun j _ hj => hbefore j hj) (Or.inr hmatch)
  have hd : decide ((tt.table (tt.clusterIndex key) i).key16 ≠ 0) = true := by
    rw [hmatch]; exact decide_eq_true hnz
  rw [hd] at hs
  simp only [TranspositionTable.probe, hs]

/-- C11 fails as stated: in a zero-filled table the key 5 has fragment 0; after storing depth 3
and move 77 for it in the slot `probe` returned, the stored entry still looks empty and the
following `probe` of the same key reports `found = false`. -/
theorem probe_after_store_zero_fragment_not_found :
    key16Of 5 = 0 ∧
    (((zeroTable.probe 5).tt.store (zeroTable.probe 5).cluster (zeroTable.probe 5).entry
        5 3 77 0 0).probe 5).found = false := by
  decide

/-- C11 (amended). For every key whose fragment `key >> 48` is non-zero, every depth and move:
after an entry for the key has been stored in the slot returned by `probe`, the following
`probe` of the key returns `found = true` and that slot, whose depth and move are the stored
ones. -/
theorem probe_after_store_found (tt : TranspositionTable) (key : Nat) (depth : Int)
    (move : Nat) (value : Int) (genBound : Nat)
    (hsize : 0 < tt.ClusterSize) (hnz : key16Of key ≠ 0) :
    (((tt.probe key).tt.store (tt.probe key).cluster (tt.probe key).entry
        key depth move value genBound).probe key).found = true ∧
    (((tt.probe key).tt.store (tt.probe key).cluster (tt.probe key).entry
        key depth move value genBound).probe key).cluster = (tt.probe key).cluster ∧
    (((tt.probe key).tt.store (tt.probe key).cluster (tt.probe key).entry
        key depth move value genBound).probe key).entry = (tt.probe key).entry ∧
    ((((tt.probe key).tt.store (tt.probe key).cluster (tt.probe key).entry
        key depth move value genBound).probe key).tt.table (tt.probe key).cluster
          (tt.probe key).entry).depth8 = depth ∧
    ((((tt.probe key).tt.store (tt.probe key).cluster (tt.probe key).entry
        key depth move value genBound).probe key).tt.table (tt.probe key).cluster
          (tt.probe key).entry).move16 = move := by
  obtain ⟨hc, hlt, hbefore, hkeys, hcs, hcc, _⟩ := probe_slot_spec tt key hsize
  generalize hr : tt.probe key = r at hc hlt hbefore hkeys hcs hcc
  obtain ⟨found, c, e, tt1⟩ := r
  simp only at hc hlt hbefore hkeys hcs hcc
  subst hc
  have hidx : (tt1.store (tt.clusterIndex key) e key depth move value genBound).clusterIndex key
      = tt.clusterIndex key := by
    simp only [TranspositionTable.clusterIndex, TranspositionTable.store, hcc]
  have hp := probe_eq_of_first_match
    (tt1.store (tt.clusterIndex key) e key depth move value genBound) key e
    (by simp only [TranspositionTable.store, hcs]; exact hlt)
    (by rw [hidx]; simp [TranspositionTable.store])
    hnz
    (by
      intro j hj
      rw [hidx]
      have hje : j ≠ e := by omega
      simp only [TranspositionTable.store, hje, and_false, if_false, hkeys]
      exact hbefore j hj)
  rw [hp, hidx]
  simp [TranspositionTable.store, TTEntry.set_generation]

theorem probe_after_store_found_witness :
    (((hitTable.probe (11 * 2 ^ 48)).tt.store (hitTable.probe (11 * 2 ^ 48)).cluster
        (hitTable.probe (11 * 2 ^ 48)).entry (11 * 2 ^ 48) 6 1234 (-20) 5).probe
          (11 * 2 ^ 48)).found = true ∧
    (hitTable.probe (11 * 2 ^ 48)).found = false :=
  ⟨(probe_after_store_found hitTable (11 * 2 ^ 48) 6 1234 (-20) 5 (by decide) (by decide)).1,
    by decide⟩

theorem msbAux_spec : ∀ (fuel b : Nat), 0 < b → b < 2 ^ fuel →
    2 ^ msbAux fuel b ≤ b ∧ b < 2 ^ (msbAux fuel b + 1) := by
  intro fuel
  induction fuel with
  | zero => intro b h0 h1; simp at h1; omega
  | succ f ih =>
    intro b h0 h1
    unfold msbAux
    by_cases hb : b / 2 = 0
    · rw [if_pos hb]
      have : b = 1 := by omega
      subst this
      exact ⟨by decide, by decide⟩
    · rw [if_neg hb]
      have hlt : b / 2 < 2 ^ f := by
        rw [Nat.pow_succ] at h1; omega
      obtain ⟨h2, h3⟩ := ih (b / 2) (by omega) hlt
      have e1 : 2 ^ (msbAux f (b / 2) + 1) = 2 * 2 ^ msbAux f (b / 2) := by
        rw [Nat.pow_succ, Nat.mul_comm]
      have e2 : 2 ^ (msbAux f (b / 2) + 1 + 1) = 2 * 2 ^ (msbAux f (b / 2) + 1) := by
        rw [Nat.pow_succ, Nat.mul_comm]
      rw [e2, e1]
      rw [e1] at h3
      omega

theorem msb_spec (b : Nat) (h0 : 0 < b) (h1 : b < 2 ^ 64) :
    2 ^ msb b ≤ b ∧ b < 2 ^ (msb b + 1) :=
  msbAux_spec 64 b h0 h1

theorem newClusterCount_eq (mbSize S : Nat) (hfit : mbSize * 2 ^ 20 < 2 ^ 64) (hS1 : 1 ≤ S)
    (hS2 : S ≤ mbSize * 2 ^ 20) :
    newClusterCount mbSize S = 2 ^ msb (mbSize * 2 ^ 20 / S) := by
  have hb : mbSize * 1024 * 1024 = mbSize * 2 ^ 20 := by ring
  have hq : mbSize * 2 ^ 20 / S < 2 ^ 64 := lt_of_le_of_lt (Nat.div_le_self _ _) hfit
  have hq0 : 0 < mbSize * 2 ^ 20 / S := (Nat.le_div_iff_mul_le (by omega)).2 (by omega)
  have hlow := (msb_spec _ hq0 hq).1
  have hlt : 2 ^ msb (mbSize * 2 ^ 20 / S) < 2 ^ 64 := lt_of_le_of_lt hlow hq
  unfold newClusterCount
  rw [hb, Nat.mod_eq_of_lt hfit, Nat.shiftLeft_eq, Nat.one_mul]
  exact Nat.mod_eq_of_lt hlt

/-- C12. For `mbSize` with `mbSize * 2 ^ 20` fitting in `size_t` and a cluster size `S` with
`1 <= S <= mbSize * 2 ^ 20` (so `mbSize >= 1`), the cluster count of `resize` is a power of two `n` with
`n * S <= mbSize * 2 ^ 20 < 2 * n * S`, and no power of two `m` with
`m * S <= mbSize * 2 ^ 20` is larger. -/
theorem newClusterCount_largest_pow2 (mbSize S : Nat)
    (hfit : mbSize * 2 ^ 20 < 2 ^ 64) (hS1 : 1 ≤ S) (hS2 : S ≤ mbSize * 2 ^ 20) :
    (∃ k, newClusterCount mbSize S = 2 ^ k) ∧
    newClusterCount mbSize S * S ≤ mbSize * 2 ^ 20 ∧
    mbSize * 2 ^ 20 < 2 * newClusterCount mbSize S * S ∧
    (∀ m, (∃ k, m = 2 ^ k) → m * S ≤ mbSize * 2 ^ 20 → m ≤ newClusterCount mbSize S) := by
  rw [newClusterCount_eq mbSize S hfit hS1 hS2]
  generalize hB : mbSize * 2 ^ 20 = B at hfit hS2 ⊢
  have hq : B / S < 2 ^ 64 := lt_of_le_of_lt (Nat.div_le_self _ _) hfit
  have hq0 : 0 < B / S := (Nat.le_div_iff_mul_le (by omega)).2 (by omega)
  obtain ⟨hlow, hhigh⟩ := msb_spec _ hq0 hq
  have e1 : 2 ^ (msb (B / S) + 1) = 2 * 2 ^ msb (B / S) := by rw [Nat.pow_succ, Nat.mul_comm]
  refine ⟨⟨_, rfl⟩, ?_, ?_, ?_⟩
  · exact le_trans (Nat.mul_le_mul_right S hlow) (Nat.div_mul_le_self _ _)
  · have h1 : B / S + 1 ≤ 2 * 2 ^ msb (B / S) := by rw [e1] at hhigh; omega
    have h2 : B < (B / S + 1) * S := by
      have := Nat.lt_div_mul_add (a := B) (b := S) (by omega)
      rw [Nat.add_mul, Nat.one_mul]; exact this
    exact lt_of_lt_of_le h2 (Nat.mul_le_mul_right S h1)
  · rintro m ⟨k, rfl⟩ hm
    have hk : 2 ^ k ≤ B / S := (Nat.le_div_iff_mul_le (by omega)).2 hm
    have hk2 : 2 ^ k < 2 ^ (msb (B / S) + 1) := lt_of_le_of_lt hk hhigh
    have hk3 : k < msb (B / S) + 1 := (Nat.pow_lt_pow_iff_right (by decide)).1 hk2
    exact Nat.pow_le_pow_right (by decide) (by omega)

theorem newClusterCount_largest_pow2_witness :
    newClusterCount 16 24 = 2 ^ 19 ∧
    newClusterCount 16 24 * 24 ≤ 16 * 2 ^ 20 ∧ 16 * 2 ^ 20 < 2 * newClusterCount 16 24 * 24 :=
  ⟨by decide, (newClusterCount_largest_pow2 16 24 (by decide) (by decide) (by decide)).2.1,
    (newClusterCount_largest_pow2 16 24 (by decide) (by decide) (by decide)).2.2.1⟩

theorem hashfullInner_eq (g : Nat) (tte : Nat → TTEntry) : ∀ (n j : Nat) (cnt : Int),
    hashfullInner g tte n j cnt
      = cnt + ((∑ k in Finset.range n, if (tte (j + k)).generation = g then 1 else 0 : Nat) : Int) := by
  intro n
  induction n with
  | zero => intro j cnt; simp [hashfullInner]
  | succ n ih =>
    intro j cnt
    unfold hashfullInner
    rw [ih, Finset.sum_range_succ']
    have hshift : ∀ k, j + 1 + k = j + (k + 1) := fun k => by omega
    simp only [hshift, Nat.add_zero]
    push_cast
    split <;> ring

theorem hashfullOuter_eq (tt : TranspositionTable) : ∀ (n i : Nat) (cnt : Int),
    hashfullOuter tt n i cnt
      = cnt + ((∑ a in Finset.range n, ∑ k in Finset.range tt.ClusterSize,
          if (tt.table (i + a) k).generation = tt.generation8 then 1 else 0 : Nat) : Int) := by
  intro n
  induction n with
  | zero => intro i cnt; simp [hashfullOuter]
  | succ n ih =>
    intro i cnt
    unfold hashfullOuter
    rw [ih, hashfullInner_eq, Finset.sum_range_succ']
    have hshift : ∀ a, i + 1 + a = i + (a + 1) := fun a => by omega
    simp only [hshift, Nat.add_zero, Nat.zero_add]
    push_cast
    ring

theorem hashfull_eq_sum (tt : TranspositionTable) :
    tt.hashfull = ((∑ a in Finset.range (1000 / tt.ClusterSize),
      ∑ k in Finset.range tt.ClusterSize,
        if (tt.table a k).generation = tt.generation8 then 1 else 0 : Nat) : Int) := by
  unfold TranspositionTable.hashfull
  rw [hashfullOuter_eq]
  simp

theorem sampledCurrentCount_eq_sum (tt : TranspositionTable) :
    sampledCurrentCount tt = ∑ a in Finset.range (1000 / tt.ClusterSize),
      ∑ k in Finset.range tt.ClusterSize,
        if (tt.table a k).generation = tt.generation8 then 1 else 0 := by
  unfold sampledCurrentCount
  rw [Finset.card_filter, Finset.sum_product]

theorem sampledCurrentCount_le (tt : TranspositionTable) : sampledCurrentCount tt ≤ 1000 := by
  unfold sampledCurrentCount
  refine le_trans (Finset.card_filter_le _ _) ?_
  rw [Finset.card_product, Finset.card_range, Finset.card_range]
  exact Nat.div_mul_le_self 1000 tt.ClusterSize

/-- C13. `hashfull` returns exactly the number of entries of the first
`1000 / ClusterSize` clusters whose stored generation equals the current generation; the result
lies between 0 and 1000, and it is the same for every table that agrees with this one on the
sampled clusters. -/
theorem hashfull_counts_sampled (tt : TranspositionTable) (_hsize : 0 < tt.ClusterSize) :
    tt.hashfull = (sampledCurrentCount tt : Int) ∧
    0 ≤ tt.hashfull ∧ tt.hashfull ≤ 1000 ∧
    ∀ tt2 : TranspositionTable, tt2.ClusterSize = tt.ClusterSize →
      tt2.generation8 = tt.generation8 →
      (∀ i j, i < 1000 / tt.ClusterSize → j < tt.ClusterSize → tt2.table i j = tt.table i j) →
      tt2.hashfull = tt.hashfull := by
  have heq : tt.hashfull = (sampledCurrentCount tt : Int) := by
    rw [hashfull_eq_sum, sampledCurrentCount_eq_sum]
  refine ⟨heq, ?_, ?_, ?_⟩
  · rw [heq]; exact Int.ofNat_nonneg _
  · rw [heq]; exact_mod_cast sampledCurrentCount_le tt
  · intro tt2 hcs hg htab
    rw [hashfull_eq_sum, hashfull_eq_sum, hcs, hg]
    congr 1
    apply Finset.sum_congr rfl
    intro a ha
    apply Finset.sum_congr rfl
    intro k hk
    rw [htab a k (Finset.mem_range.1 ha) (Finset.mem_range.1 hk)]

theorem hashfull_counts_sampled_witness :
    evictTable.hashfull = (sampledCurrentCount evictTable : Int) ∧ evictTable.hashfull ≤ 1000 :=
  ⟨(hashfull_counts_sampled evictTable (by decide)).1,
    (hashfull_counts_sampled evictTable (by decide)).2.2.1⟩

theorem set_generation_generation (b g : Nat) : ((b &&& 0x3) ||| g) &&& 0xFC = g &&& 0xFC := by
  rw [Nat.and_distrib_right, Nat.and_assoc]
  have : (0x3 : Nat) &&& 0xFC = 0 := by decide
  rw [this, Nat.and_zero, Nat.zero_or]

theorem and_0xFC_of_generation (g : Nat) (hg : g < 256) (hg4 : g % 4 = 0) : g &&& 0xFC = g := by
  rw [and_0xFC]; omega

/-- C14. `probe` changes nothing in the table except the generation of the entry it returns
with `found = true`: sizes and generation counter are kept; with `found = false` every entry
is unchanged; with `found = true` all other entries and the returned entry's fragment, move,
value, depth and bound bits are unchanged, and its stored generation becomes the current
generation (the counter masked with `0xFC`, which is the counter itself when it is a byte that
is a multiple of 4). -/
theorem probe_frame (tt : TranspositionTable) (key : Nat) :
    (tt.probe key).tt.ClusterSize = tt.ClusterSize ∧
    (tt.probe key).tt.clusterCount = tt.clusterCount ∧
    (tt.probe key).tt.generation8 = tt.generation8 ∧
    ((tt.probe key).found = false → ∀ c i, (tt.probe key).tt.table c i = tt.table c i) ∧
    ((tt.probe key).found = true →
      (∀ c i, ¬ (c = (tt.probe key).cluster ∧ i = (tt.probe key).entry) →
        (tt.probe key).tt.table c i = tt.table c i) ∧
      ((tt.probe key).tt.table (tt.probe key).cluster (tt.probe key).entry).key16
        = (tt.table (tt.probe key).cluster (tt.probe key).entry).key16 ∧
      ((tt.probe key).tt.table (tt.probe key).cluster (tt.probe key).entry).move16
        = (tt.table (tt.probe key).cluster (tt.probe key).entry).move16 ∧
      ((tt.probe key).tt.table (tt.probe key).cluster (tt.probe key).entry).value16
        = (tt.table (tt.probe key).cluster (tt.probe key).entry).value16 ∧
      ((tt.probe key).tt.table (tt.probe key).cluster (tt.probe key).entry).depth8
        = (tt.table (tt.probe key).cluster (tt.probe key).entry).depth8 ∧
      ((tt.probe key).tt.table (tt.probe key).cluster (tt.probe key).entry).genBound8
        = ((tt.table (tt.probe key).cluster (tt.probe key).entry).genBound8 &&& 0x3)
            ||| tt.generation8 ∧
      ((tt.probe key).tt.table (tt.probe key).cluster (tt.probe key).entry).generation
        = tt.generation8 &&& 0xFC ∧
      (tt.generation8 < 256 → tt.generation8 % 4 = 0 →
        ((tt.probe key).tt.table (tt.probe key).cluster (tt.probe key).entry).generation
          = tt.generation8)) := by
  cases hs : probeScan (tt.table (tt.clusterIndex key)) (key16Of key) tt.ClusterSize 0 with
  | none =>
    have hp : tt.probe key = ⟨false, tt.clusterIndex key,
        replaceLoop tt.generation8 (tt.table (tt.clusterIndex key)) (tt.ClusterSize - 1) 1 0,
        tt⟩ := by
      simp only [TranspositionTable.probe, hs]
    rw [hp]
    exact ⟨rfl, rfl, rfl, fun _ _ _ => rfl, fun h => absurd h (by simp)⟩
  | some p =>
    obtain ⟨b, j⟩ := p
    cases b with
    | false =>
      have hp : tt.probe key = ⟨false, tt.clusterIndex key, j, tt⟩ := by
        simp only [TranspositionTable.probe, hs]
      rw [hp]
      exact ⟨rfl, rfl, rfl, fun _ _ _ => rfl, fun h => absurd h (by simp)⟩
    | true =>
      have hp : tt.probe key = ⟨true, tt.clusterIndex key, j,
          { tt with table := fun c1 i1 =>
              if c1 = tt.clusterIndex key ∧ i1 = j then
                (tt.table (tt.clusterIndex key) j).set_generation tt.generation8
              else tt.table c1 i1 }⟩ := by
        simp only [TranspositionTable.probe, hs]
      rw [hp]
      refine ⟨rfl, rfl, rfl, fun h => absurd h (by simp), fun _ => ?_⟩
      have hself : (if tt.clusterIndex key = tt.clusterIndex key ∧ j = j then
            (tt.table (tt.clusterIndex key) j).set_generation tt.generation8
          else tt.table (tt.clusterIndex key) j)
          = (tt.table (tt.clusterIndex key) j).set_generation tt.generation8 :=
        if_pos ⟨rfl, rfl⟩
      refine ⟨?_, ?_, ?_, ?_, ?_, ?_, ?_, ?_⟩
      · intro c i hci
        exact if_neg hci
      · show (if _ then _ else _ : TTEntry).key16 = _
        rw [hself]; rfl
      · show (if _ then _ else _ : TTEntry).move16 = _
        rw [hself]; rfl
      · show (if _ then _ else _ : TTEntry).value16 = _
        rw [hself]; rfl
      · show (if _ then _ else _ : TTEntry).depth8 = _
        rw [hself]; rfl
      · show (if _ then _ else _ : TTEntry).genBound8 = _
        rw [hself]; rfl
      · show (if _ then _ else _ : TTEntry).generation = _
        rw [hself]
        exact set_generation_generation _ _
      · intro hg hg4
        show (if _ then _ else _ : TTEntry).generation = _
        rw [hself]
        exact (set_generation_generation _ _).trans (and_0xFC_of_generation _ hg hg4)

theorem probe_frame_witness :
    (hitTable.probe (7 * 2 ^ 48)).found = true ∧
    ((hitTable.probe (7 * 2 ^ 48)).tt.table (hitTable.probe (7 * 2 ^ 48)).cluster
        (hitTable.probe (7 * 2 ^ 48)).entry).generation = hitTable.generation8 ∧
    ((hitTable.probe (7 * 2 ^ 48)).tt.table (hitTable.probe (7 * 2 ^ 48)).cluster
        (hitTable.probe (7 * 2 ^ 48)).entry).genBound8 = 5 :=
  ⟨by decide, ((probe_frame hitTable (7 * 2 ^ 48)).2.2.2.2 (by decide)).2.2.2.2.2.2.2
    (by decide) (by decide), by decide⟩

theorem wellFormed_and (a b : Bitboard) (_ha : a.wellFormed) (hb : b.wellFormed) :
    (a.and b).wellFormed :=
  ⟨Nat.and_lt_two_pow _ hb.1, Nat.and_lt_two_pow _ hb.2⟩

theorem wellFormed_or (a b : Bitboard) (ha : a.wellFormed) (hb : b.wellFormed) :
    (a.or b).wellFormed :=
  ⟨Nat.or_lt_two_pow ha.1 hb.1, Nat.or_lt_two_pow ha.2 hb.2⟩

theorem wellFormed_xor (a b : Bitboard) (ha : a.wellFormed) (hb : b.wellFormed) :
    (a.xor b).wellFormed :=
  ⟨Nat.xor_lt_two_pow ha.1 hb.1, Nat.xor_lt_two_pow ha.2 hb.2⟩

theorem wellFormed_ALL_BB : ALL_BB.wellFormed := by decide

theorem wellFormed_not (a : Bitboard) (ha : a.wellFormed) : a.not.wellFormed :=
  wellFormed_xor a ALL_BB ha wellFormed_ALL_BB

/-- C20. The well-formed Bitboards (bit 63 of `p[0]` clear, `p[1]` within its low 18 bits)
are closed under the set operations: `ZERO_BB`, `ALL_BB` and all `FILE_BB`, `RANK_BB`
constants are well-formed, and for well-formed `a`, `b` so are `a & b`, `a | b`, `a ^ b`, `~a`. -/
theorem wellFormed_closed :
    ZERO_BB.wellFormed ∧ ALL_BB.wellFormed ∧
    (∀ f, f < 9 → (FILE_BB f).wellFormed) ∧ (∀ r, r < 9 → (RANK_BB r).wellFormed) ∧
    ∀ a b : Bitboard, a.wellFormed → b.wellFormed →
      (a.and b).wellFormed ∧ (a.or b).wellFormed ∧ (a.xor b).wellFormed ∧ a.not.wellFormed := by
  refine ⟨by decide, by decide, by decide, by decide, ?_⟩
  intro a b ha hb
  exact ⟨wellFormed_and a b ha hb, wellFormed_or a b ha hb, wellFormed_xor a b ha hb,
    wellFormed_not a ha⟩

theorem wellFormed_closed_witness :
    (FILE9_BB.and RANK9_BB).wellFormed ∧ (FILE9_BB.or RANK9_BB).wellFormed ∧
      (FILE9_BB.xor RANK9_BB).wellFormed ∧ FILE9_BB.not.wellFormed ∧
      FILE9_BB.not = ⟨0x7FFFFFFFFFFFFFFF, 0x1FF⟩ :=
  ⟨(wellFormed_closed.2.2.2.2 FILE9_BB RANK9_BB (by decide) (by decide)).1,
    (wellFormed_closed.2.2.2.2 FILE9_BB RANK9_BB (by decide) (by decide)).2.1,
    (wellFormed_closed.2.2.2.2 FILE9_BB RANK9_BB (by decide) (by decide)).2.2.1,
    (wellFormed_closed.2.2.2.2 FILE9_BB RANK9_BB (by decide) (by decide)).2.2.2, by decide⟩

theorem lsbAux_lowbit (k : Nat) : ∀ (fuel q : Nat), k < fuel →
    lsbAux fuel (2 ^ (k + 1) * q + 2 ^ k) = k := by
  induction k with
  | zero =>
    intro fuel q hk
    obtain ⟨f, rfl⟩ : ∃ f, fuel = f + 1 := ⟨fuel - 1, by omega⟩
    have e : 2 ^ (0 + 1) * q + 2 ^ 0 = 2 * q + 1 := by norm_num
    rw [e]
    unfold lsbAux
    rw [if_pos (by omega)]
  | succ k ih =>
    intro fuel q hk
    obtain ⟨f, rfl⟩ : ∃ f, fuel = f + 1 := ⟨fuel - 1, by omega⟩
    have e : 2 ^ (k + 1 + 1) * q + 2 ^ (k + 1) = 2 * (2 ^ (k + 1) * q + 2 ^ k) := by
      rw [Nat.pow_succ 2 (k + 1), Nat.pow_succ 2 k]; ring
    have h1 : (2 * (2 ^ (k + 1) * q + 2 ^ k)) % 2 ≠ 1 := by omega
    have h2 : 2 * (2 ^ (k + 1) * q + 2 ^ k) / 2 = 2 ^ (k + 1) * q + 2 ^ k := by omega
    rw [e]
    unfold lsbAux
    rw [if_neg h1, h2, ih f q (by omega)]

theorem lsb_lowbit (k q : Nat) (h : 2 ^ (k + 1) * q + 2 ^ k < 2 ^ 64) :
    lsb (2 ^ (k + 1) * q + 2 ^ k) = k :=
  lsbAux_lowbit k 64 q (lowbit_bounds k q h).1

theorem bitSum_zero (n : Nat) : bitSum n 0 = 0 := by
  induction n with
  | zero => rfl
  | succ n ih => simp [bitSum, ih]

theorem setBits_length_le_32 (x : Nat) (hx : x < 2 ^ 32) : (setBits x).length ≤ 32 := by
  have h : (setBits x).length = bitSum 64 x := popcount_eq_bitSum x
  have e : bitSum 64 x = bitSum 32 x + bitSum 32 (x / 2 ^ 32) := bitSum_add 32 32 x
  rw [Nat.div_eq_of_lt hx, bitSum_zero] at e
  have := bitSum_le 32 x
  omega

theorem cutOffLoop_eq_any (eff : ByteBoard) (dst : Int) : ∀ (fuel x : Nat), x < 2 ^ 64 →
    (setBits x).length ≤ fuel →
    cutOffLoop eff dst fuel x
      = (setBits x).any fun c => decide (eff.count (dst + DirectToDelta c) ≤ 1) := by
  intro fuel
  induction fuel with
  | zero =>
    intro x _ hf
    have : setBits x = [] := List.eq_nil_of_length_eq_zero (by omega)
    rw [this]; rfl
  | succ n ih =>
    intro x hx hf
    unfold cutOffLoop
    by_cases h0 : x = 0
    · subst h0; rw [setBits_zero]; simp
    · obtain ⟨k, q, hkq⟩ := exists_lowbit x h0
      subst hkq
      have hpos : 0 < 2 ^ k := Nat.two_pow_pos k
      rw [if_neg h0, lsb_lowbit k q hx, lowbit_and_pred]
      rw [setBits_lowbit k q hx] at hf ⊢
      rw [List.any_cons, ih _ (by omega) (by simpa using hf)]
      by_cases hc : eff.count (dst + DirectToDelta k) ≤ 1
      · simp [hc]
      · simp [hc]

theorem dropLoop_eq_find (env : MateEnv) (us : Nat) (themKing : Int) (pc : Nat)
    (hcut : ∀ d, env.cutoff_directions pc d < 2 ^ 32) : ∀ (fuel x : Nat), x < 2 ^ 64 →
    (setBits x).length ≤ fuel →
    dropLoop env us themKing pc fuel x
      = ((setBits x).find? fun d => !directionRejected env us themKing pc d).map
          fun d => make_move_drop GOLD (themKing + DirectToDelta d) := by
  have hrej : ∀ d, cutOffLoop (env.effect us) (themKing + DirectToDelta d) 32
      (env.cutoff_directions pc d &&& (env.long_effect us).directions (themKing + DirectToDelta d))
      = directionRejected env us themKing pc d := by
    intro d
    have hlt : env.cutoff_directions pc d
        &&& (env.long_effect us).directions (themKing + DirectToDelta d) < 2 ^ 32 :=
      lt_of_le_of_lt Nat.and_le_left (hcut d)
    rw [cutOffLoop_eq_any _ _ 32 _ (lt_trans hlt (by decide)) (setBits_length_le_32 _ hlt)]
    rfl
  intro fuel
  induction fuel with
  | zero =>
    intro x _ hf
    have : setBits x = [] := List.eq_nil_of_length_eq_zero (by omega)
    rw [this]; rfl
  | succ n ih =>
    intro x hx hf
    unfold dropLoop
    by_cases h0 : x = 0
    · subst h0; rw [setBits_zero]; simp
    · obtain ⟨k, q, hkq⟩ := exists_lowbit x h0
      subst hkq
      have hpos : 0 < 2 ^ k := Nat.two_pow_pos k
      rw [if_neg h0]
      simp only [lsb_lowbit k q hx, lowbit_and_pred, hrej]
      rw [setBits_lowbit k q hx] at hf ⊢
      rw [List.find?_cons, ih _ (by omega) (by simpa using hf)]
      cases hr : directionRejected env us themKing pc k <;> simp

theorem find?_of_first (p : Nat → Bool) : ∀ (l : List Nat) (d : Nat), l.Sorted (· < ·) →
    d ∈ l → p d = true → (∀ x, x ∈ l → x < d → p x = false) → l.find? p = some d := by
  intro l
  induction l with
  | nil => intro d _ hd; simp at hd
  | cons a l ih =>
    intro d hs hd hp hbefore
    rw [List.sorted_cons] at hs
    rcases List.mem_cons.1 hd with h | h
    · subst h
      rw [List.find?_cons, hp]
    · have hlt : a < d := hs.1 d h
      have hpa : p a = false := hbefore a (List.mem_cons_self _ _) hlt
      rw [List.find?_cons, hpa]
      exact ih d hs.2 h hp (fun x hx hxd => hbefore x (List.mem_cons_of_mem _ hx) hxd)

set_option maxRecDepth 100000 in
theorem make_move_drop_decode : ∀ n : Nat, n < 128 →
    is_drop (make_move_drop GOLD (n : Int)) = true ∧
    move_to (make_move_drop GOLD (n : Int)) = n ∧
    move_dropped_piece (make_move_drop GOLD (n : Int)) = GOLD := by
  decide

/-- C18. In the drop loop of `mate1ply_impl` for the piece `pc` with candidate directions
`directions`: a direction `d` is rejected exactly when some direction `c` among the bits of
`cutoff_directions[pc][d] & long_effect[Us].directions(to)` has
`effect[Us].count(to + DirectToDelta(c)) <= 1`, where `to = themKing + DirectToDelta(d)`; the
loop returns the drop on `to` for the first direction, in ascending bit order, that is not
rejected, and no move when every direction is rejected. -/
theorem dropLoop_first_accepted (env : MateEnv) (us : Nat) (themKing : Int) (pc directions : Nat)
    (hdir : directions < 2 ^ 32) (hcut : ∀ d, env.cutoff_directions pc d < 2 ^ 32) :
    (∀ d, cutOffLoop (env.effect us) (themKing + DirectToDelta d) 32
        (env.cutoff_directions pc d &&& (env.long_effect us).directions (themKing + DirectToDelta d))
          = true ↔
      ∃ c, c ∈ setBits (env.cutoff_directions pc d
            &&& (env.long_effect us).directions (themKing + DirectToDelta d)) ∧
        (env.effect us).count (themKing + DirectToDelta d + DirectToDelta c) ≤ 1) ∧
    (∀ d, directionRejected env us themKing pc d
      = cutOffLoop (env.effect us) (themKing + DirectToDelta d) 32
          (env.cutoff_directions pc d
            &&& (env.long_effect us).directions (themKing + DirectToDelta d))) ∧
    (∀ d, d ∈ setBits directions → directionRejected env us themKing pc d = false →
      (∀ x, x ∈ setBits directions → x < d → directionRejected env us themKing pc x = true) →
      dropLoop env us themKing pc 32 directions
        = some (make_move_drop GOLD (themKing + DirectToDelta d))) ∧
    ((∀ d, d ∈ setBits directions → directionRejected env us themKing pc d = true) →
      dropLoop env us themKing pc 32 directions = none) ∧
    (∀ (d n : Nat), themKing + DirectToDelta d = (n : Int) → n < 128 →
      is_drop (make_move_drop GOLD (themKing + DirectToDelta d)) = true ∧
      move_to (make_move_drop GOLD (themKing + DirectToDelta d)) = n) := by
  have hfind := dropLoop_eq_find env us themKing pc hcut 32 directions
    (lt_trans hdir (by decide)) (setBits_length_le_32 _ hdir)
  have hloop : ∀ d, cutOffLoop (env.effect us) (themKing + DirectToDelta d) 32
      (env.cutoff_directions pc d &&& (env.long_effect us).directions (themKing + DirectToDelta d))
      = directionRejected env us themKing pc d := by
    intro d
    have hlt : env.cutoff_directions pc d
        &&& (env.long_effect us).directions (themKing + DirectToDelta d) < 2 ^ 32 :=
      lt_of_le_of_lt Nat.and_le_left (hcut d)
    rw [cutOffLoop_eq_any _ _ 32 _ (lt_trans hlt (by decide)) (setBits_length_le_32 _ hlt)]
    rfl
  refine ⟨?_, fun d => (hloop d).symm, ?_, ?_, ?_⟩
  rotate_right
  · intro d n hn hlt
    rw [hn]
    exact ⟨(make_move_drop_decode n hlt).1, (make_move_drop_decode n hlt).2.1⟩
  · intro d
    rw [hloop d]
    simp [directionRejected, cutOffOf, List.any_eq_true]
  · intro d hd hacc hbefore
    rw [hfind, find?_of_first _ (setBits directions) d (setBits_sorted _) hd (by simp [hacc])
      (fun x hx hxd => by simp [hbefore x hx hxd])]
    rfl
  · intro hall
    rw [hfind]
    have : (setBits directions).find? (fun d => !directionRejected env us themKing pc d) = none := by
      rw [List.find?_eq_none]
      intro d hd
      simp [hall d hd]
    rw [this]; rfl

theorem dropLoop_first_accepted_witness :
    directionRejected cutEnv 0 40 (make_piece GOLD 0) 1 = true ∧
    dropLoop cutEnv 0 40 (make_piece GOLD 0) 32 66 = some (make_move_drop GOLD (40 + DirectToDelta 6)) ∧
    mate1ply cutEnv goldPos = some (make_move_drop GOLD 41) :=
  ⟨by decide,
    (dropLoop_first_accepted cutEnv 0 40 (make_piece GOLD 0) 66 (by decide)
      (by intro d; unfold cutEnv; simp only; split <;> decide)).2.2.1 6 (by decide) (by decide)
      (by decide),
    by decide⟩

set_option maxRecDepth 100000 in
/-- C15 (code at the failing input). BLACK holds a gold and attacks square 37 just below the
WHITE king on 36; WHITE attacks no square around its king and no long attack passes through 37.
A gold dropped on 37 is mate: every board square next to the king is 37 itself or attacked by
the gold from 37, the BLACK pawn on 38 protects 37, and WHITE has no piece but the king. On the
tables as the source leaves them `mate1ply` returns `MOVE_NONE`, not the gold drop. -/
theorem mate1ply_head_gold_none :
    hand_count (headGoldPos.hand 0) GOLD = 1 ∧
    (∀ d, d < 8 → (headGoldEnv.effect 1).count (headGoldPos.kingSquare 1 + DirectToDelta d) = 0) ∧
    0 < (headGoldEnv.effect 0).count 37 ∧
    (headGoldEnv.long_effect 0).directions 37 = 0 ∧
    headGoldPos.pieces.test 37 = false ∧
    stepSquares kingStepList 36 = [27, 28, 37, 45, 46] ∧
    (∀ s, s ∈ stepSquares kingStepList 36 → s = 37 ∨ s ∈ stepSquares blackGoldStepList 37) ∧
    36 ∈ stepSquares blackGoldStepList 37 ∧
    headGoldPos.board 38 = make_piece PAWN 0 ∧ stepTo 38 0 (-1) = [37] ∧
    (∀ sq, sq < 81 → (16 ≤ headGoldPos.board sq ↔ sq = 36)) ∧
    mate1ply headGoldEnv headGoldPos = some MOVE_NONE := by
  decide

/-- C16 (code at the failing input). The table row read is row 0 whatever the position: with
a drop table whose every row except row 0 offers the gold drop below the king, the position in
which BLACK attacks square 41 gets `MOVE_NONE`; with a drop table whose row 0 alone offers it,
the same position with no attacked square at all gets the gold drop on 41. -/
theorem mate1ply_reads_row_zero :
    0 < (patternEnv.effect 0).count 41 ∧
    mate1ply patternEnv goldPos = some MOVE_NONE ∧
    (∀ d, d < 8 → (rowZeroEnv.effect 0).count (goldPos.kingSquare 1 + DirectToDelta d) = 0) ∧
    mate1ply rowZeroEnv goldPos = some (make_move_drop GOLD 41) := by
  decide

/-- C17 (code at the failing input). BLACK holds one silver and no gold, and row 0 of the drop
table offers a silver drop below the king on 40: the move returned is the drop of a GOLD on
41, not of the silver. -/
theorem mate1ply_silver_returns_gold_drop :
    hand_count (silverPos.hand 0) SILVER = 1 ∧ hand_count (silverPos.hand 0) GOLD = 0 ∧
    mate1ply silverEnv silverPos = some (make_move_drop GOLD 41) ∧
    (mate1ply silverEnv silverPos).map move_dropped_piece = some GOLD ∧
    mate1ply silverEnv silverPos ≠ some (make_move_drop SILVER 41) := by
  decide

set_option maxRecDepth 100000 in
/-- C19 (code at the failing input). BLACK holds a gold, no knight, and has no knight on the
board; row 0 of the drop table has the gold and the knight bit set and no candidate direction,
so `hk` is not 0 and control falls through to the knight part. Square 29, a knight's move from
the WHITE king on 36, is empty and not attacked by WHITE: `mate1ply` returns the board move from
the empty square 22 to 29. -/
theorem mate1ply_knight_move_without_knight :
    hand_count (knightFallPos.hand 0) KNIGHT = 0 ∧
    (toHandKind (knightFallPos.hand 0) &&& ((HAND_KIND_PAWN ||| HAND_KIND_KNIGHT) ^^^ 0xFFFFFFFF))
      &&& knightFallEnv.mate1ply_drop_tbl 0 0 0 ≠ 0 ∧
    mate1plyDrops knightFallEnv knightFallPos 0 = none ∧
    (∀ sq, sq < 81 → knightFallPos.board sq ≠ make_piece KNIGHT 0) ∧
    knightFallPos.board 22 = NO_PIECE ∧
    (knightEffect knightFallEnv 1 36).test 29 = true ∧
    knightFallPos.pieces.test 29 = false ∧
    (knightFallEnv.effect 1).count 29 = 0 ∧
    (knightEffect knightFallEnv 1 29).test 22 = true ∧
    mate1ply knightFallEnv knightFallPos = some (make_move 22 29) := by
  decide

/-- C21 fails as stated for the left shift: the well-formed Bitboard of square 62 alone (bit 62
of `p[0]`) is shifted onto bit 63 of `p[0]`, and the one of square 80 alone (bit 17 of `p[1]`)
onto bit 18 of `p[1]`. -/
theorem shiftLeft_not_wellFormed :
    (Bitboard.mk (2 ^ 62) 0).wellFormed ∧
    Bitboard.shiftLeft ⟨2 ^ 62, 0⟩ 1 = ⟨2 ^ 63, 0⟩ ∧
    ¬ (Bitboard.shiftLeft ⟨2 ^ 62, 0⟩ 1).wellFormed ∧
    (Bitboard.mk 0 (2 ^ 17)).wellFormed ∧
    Bitboard.shiftLeft ⟨0, 2 ^ 17⟩ 1 = ⟨0, 2 ^ 18⟩ ∧
    ¬ (Bitboard.shiftLeft ⟨0, 2 ^ 17⟩ 1).wellFormed := by
  decide

/-- C21, amended. For every well-formed Bitboard `b`, `b >> 1` is well-formed, and `b << 1` is
well-formed exactly when `b` contains neither square 62 (bit 62 of `p[0]`) nor square 80 (bit 17
of `p[1]`). -/
theorem shift_one_wellFormed (b : Bitboard) (hw : b.wellFormed) :
    (b.shiftRight 1).wellFormed ∧
    ((b.shiftLeft 1).wellFormed ↔ (b.test 62 = false ∧ b.test 80 = false)) := by
  obtain ⟨h0, h1⟩ := hw
  have e63 : (2 : Nat) ^ 63 = 9223372036854775808 := by norm_num
  have e64 : (2 : Nat) ^ 64 = 18446744073709551616 := by norm_num
  have e62 : (2 : Nat) ^ 62 = 4611686018427387904 := by norm_num
  have e18 : (2 : Nat) ^ 18 = 262144 := by norm_num
  have e17 : (2 : Nat) ^ 17 = 131072 := by norm_num
  have t62 : b.test 62 = b.p0.testBit 62 := by unfold Bitboard.test; simp
  have t80 : b.test 80 = b.p1.testBit 17 := by unfold Bitboard.test; simp
  have b62 : b.p0.testBit 62 = false ↔ b.p0 < 2 ^ 62 := by
    rw [← Bool.not_eq_true, Nat.testBit_to_div_mod, decide_eq_true_eq, e62]
    rw [e63] at h0
    omega
  have b17 : b.p1.testBit 17 = false ↔ b.p1 < 2 ^ 17 := by
    rw [← Bool.not_eq_true, Nat.testBit_to_div_mod, decide_eq_true_eq, e17]
    rw [e18] at h1
    omega
  constructor
  · unfold Bitboard.shiftRight Bitboard.wellFormed
    simp only [Nat.shiftRight_eq_div_pow]
    rw [e63] at *
    rw [e18] at *
    omega
  · rw [t62, t80, b62, b17]
    unfold Bitboard.shiftLeft Bitboard.wellFormed
    simp only [Nat.shiftLeft_eq]
    rw [e63, e64, e62, e18, e17] at *
    omega

theorem shift_one_wellFormed_witness :
    ((RANK_BB 8).shiftRight 1).wellFormed ∧
    (((RANK_BB 8).shiftLeft 1).wellFormed ↔
      ((RANK_BB 8).test 62 = false ∧ (RANK_BB 8).test 80 = false)) :=
  shift_one_wellFormed (RANK_BB 8) (by decide)

theorem toU16_of_nat (n : Nat) (h : n < 2 ^ 16) : toU16 (n : Int) = n := by
  unfold toU16
  have e : ((2 : Int) ^ 16) = 65536 := by norm_num
  have e2 : (2 : Nat) ^ 16 = 65536 := by norm_num
  rw [e]; rw [e2] at h
  omega

theorem move_decode (f t d p : Nat) (hf : f < 128) (ht : t < 128) (hd : d < 2) (hp : p < 2) :
    move_from (t + f * 128 + d * 2 ^ 14 + p * 2 ^ 15) = f ∧
    move_to (t + f * 128 + d * 2 ^ 14 + p * 2 ^ 15) = t ∧
    is_drop (t + f * 128 + d * 2 ^ 14 + p * 2 ^ 15) = decide (d = 1) ∧
    is_promote (t + f * 128 + d * 2 ^ 14 + p * 2 ^ 15) = decide (p = 1) := by
  have m7 : (0x7f : Nat) = 2 ^ 7 - 1 := by decide
  have hD : MOVE_DROP = 2 ^ 14 := by decide
  have hP : MOVE_PROMOTE = 2 ^ 15 := by decide
  have e14 : (2 : Nat) ^ 14 = 16384 := by norm_num
  have e15 : (2 : Nat) ^ 15 = 32768 := by norm_num
  have e7 : (2 : Nat) ^ 7 = 128 := by norm_num
  refine ⟨?_, ?_, ?_, ?_⟩
  · unfold move_from
    rw [m7, Nat.and_pow_two_sub_one_eq_mod, Nat.shiftRight_eq_div_pow, e14, e15, e7]
    omega
  · unfold move_to
    rw [m7, Nat.and_pow_two_sub_one_eq_mod, e14, e15, e7]
    omega
  · unfold is_drop
    rw [hD]
    have hb : (t + f * 128 + d * 2 ^ 14 + p * 2 ^ 15).testBit 14 = decide (d = 1) := by
      rw [Nat.testBit_to_div_mod, e14, e15]
      by_cases h1 : d = 1
      · simp only [h1, decide_True, decide_eq_true_eq]; omega
      · simp only [h1, decide_False, decide_eq_false_iff_not]; omega
    by_cases h1 : d = 1
    · rw [h1] at hb ⊢
      simp only [decide_True, decide_eq_true_eq] at hb ⊢
      exact (and_two_pow_ne_zero _ _).2 hb
    · simp only [h1, decide_False, decide_eq_false_iff_not, not_not] at hb ⊢
      by_contra hc
      exact absurd ((and_two_pow_ne_zero _ _).1 hc) (by rw [hb]; exact Bool.false_ne_true)
  · unfold is_promote
    rw [hP]
    have hb : (t + f * 128 + d * 2 ^ 14 + p * 2 ^ 15).testBit 15 = decide (p = 1) := by
      rw [Nat.testBit_to_div_mod, e14, e15]
      by_cases h1 : p = 1
      · simp only [h1, decide_True, decide_eq_true_eq]; omega
      · simp only [h1, decide_False, decide_eq_false_iff_not]; omega
    by_cases h1 : p = 1
    · rw [h1] at hb ⊢
      simp only [decide_True, decide_eq_true_eq] at hb ⊢
      exact (and_two_pow_ne_zero _ _).2 hb
    · simp only [h1, decide_False, decide_eq_false_iff_not, not_not] at hb ⊢
      by_contra hc
      exact absurd ((and_two_pow_ne_zero _ _).1 hc) (by rw [hb]; exact Bool.false_ne_true)

/-- C22. Move encoding round-trips: for all squares `src`, `dst` in 0..80 and every hand piece
`pt` in PAWN..GOLD, `make_move` decodes to `src` and `dst` with `is_drop` and `is_promote`
false; `make_move_promote` decodes to the same squares with `is_promote` true and `is_drop`
false; `make_move_drop` has `is_drop` true, `is_promote` false, `move_dropped_piece = pt` and
`move_to = dst`. -/
theorem move_encoding_round_trip (src dst pt : Nat) (hs : src ≤ 80) (hd : dst ≤ 80)
    (_hp1 : PAWN ≤ pt) (hp7 : pt ≤ GOLD) :
    (move_from (make_move src dst) = src ∧ move_to (make_move src dst) = dst ∧
      is_drop (make_move src dst) = false ∧ is_promote (make_move src dst) = false) ∧
    (move_from (make_move_promote src dst) = src ∧ move_to (make_move_promote src dst) = dst ∧
      is_promote (make_move_promote src dst) = true ∧
      is_drop (make_move_promote src dst) = false) ∧
    (is_drop (make_move_drop pt dst) = true ∧ is_promote (make_move_drop pt dst) = false ∧
      move_dropped_piece (make_move_drop pt dst) = pt ∧ move_to (make_move_drop pt dst) = dst) := by
  have hG : GOLD = 7 := rfl
  have hD : MOVE_DROP = 2 ^ 14 := by decide
  have hP : MOVE_PROMOTE = 2 ^ 15 := by decide
  have e1 : make_move src dst = dst + src * 128 + 0 * 2 ^ 14 + 0 * 2 ^ 15 := by
    unfold make_move
    have := toU16_of_nat (dst + src * 128) (by norm_num; omega)
    push_cast at this
    rw [this]; simp
  have e2 : make_move_promote src dst = dst + src * 128 + 0 * 2 ^ 14 + 1 * 2 ^ 15 := by
    unfold make_move_promote
    have := toU16_of_nat (dst + src * 128 + MOVE_PROMOTE) (by rw [hP]; norm_num; omega)
    push_cast at this
    rw [this, hP]; simp
  have e3 : make_move_drop pt dst = dst + pt * 128 + 1 * 2 ^ 14 + 0 * 2 ^ 15 := by
    unfold make_move_drop
    have := toU16_of_nat (dst + pt * 128 + MOVE_DROP) (by rw [hD]; norm_num; omega)
    push_cast at this
    rw [this, hD]; simp
  obtain ⟨a1, a2, a3, a4⟩ := move_decode src dst 0 0 (by omega) (by omega) (by decide) (by decide)
  obtain ⟨b1, b2, b3, b4⟩ := move_decode src dst 0 1 (by omega) (by omega) (by decide) (by decide)
  obtain ⟨c1, c2, c3, c4⟩ := move_decode pt dst 1 0 (by omega) (by omega) (by decide) (by decide)
  rw [← e1] at a1 a2 a3 a4
  rw [← e2] at b1 b2 b3 b4
  rw [← e3] at c1 c2 c3 c4
  exact ⟨⟨a1, a2, a3, a4⟩, ⟨b1, b2, b4, b3⟩, ⟨c3, c4, c1, c2⟩⟩

theorem move_encoding_round_trip_witness :
    (move_from (make_move (60 : Nat) (59 : Nat)) = 60 ∧ move_to (make_move (60 : Nat) (59 : Nat)) = 59 ∧
      is_drop (make_move (60 : Nat) (59 : Nat)) = false ∧
      is_promote (make_move (60 : Nat) (59 : Nat)) = false) ∧
    (move_from (make_move_promote (60 : Nat) (59 : Nat)) = 60 ∧
      move_to (make_move_promote (60 : Nat) (59 : Nat)) = 59 ∧
      is_promote (make_move_promote (60 : Nat) (59 : Nat)) = true ∧
      is_drop (make_move_promote (60 : Nat) (59 : Nat)) = false) ∧
    (is_drop (make_move_drop 7 (59 : Nat)) = true ∧ is_promote (make_move_drop 7 (59 : Nat)) = false ∧
      move_dropped_piece (make_move_drop 7 (59 : Nat)) = 7 ∧
      move_to (make_move_drop 7 (59 : Nat)) = 59) :=
  move_encoding_round_trip 60 59 7 (by decide) (by decide) (by decide) (by decide)

theorem HAND_BIT_MASK_eq : HAND_BIT_MASK = 0x7337771F := by decide

theorem HAND_BORROW_MASK_eq : HAND_BORROW_MASK = 0x84488820 := by decide

theorem handFits_bit_false (h j : Nat) (hf : handFits h) (hj : HAND_BIT_MASK.testBit j = false) :
    h.testBit j = false := by
  unfold handFits at hf
  rw [← hf, Nat.testBit_and, hj, Bool.and_false]

theorem handFits_fields (h : Nat) (hf : handFits h) :
    h = h % 32 + h / 256 % 8 * 256 + h / 4096 % 8 * 4096 + h / 65536 % 8 * 65536
      + h / 1048576 % 4 * 1048576 + h / 16777216 % 4 * 16777216
      + h / 268435456 % 8 * 268435456 := by
  have hlt : h < 2147483648 := by
    unfold handFits at hf
    have : h &&& HAND_BIT_MASK ≤ HAND_BIT_MASK := Nat.and_le_right
    rw [hf, HAND_BIT_MASK_eq] at this
    omega
  have key : ∀ j, HAND_BIT_MASK.testBit j = false → ¬ (h / 2 ^ j % 2 = 1) := by
    intro j hj
    have := handFits_bit_false h j hf hj
    rw [← Bool.not_eq_true, Nat.testBit_to_div_mod, decide_eq_true_eq] at this
    exact this
  have b5 := key 5 (by decide)
  have b6 := key 6 (by decide)
  have b7 := key 7 (by decide)
  have b11 := key 11 (by decide)
  have b15 := key 15 (by decide)
  have b19 := key 19 (by decide)
  have b22 := key 22 (by decide)
  have b23 := key 23 (by decide)
  have b26 := key 26 (by decide)
  have b27 := key 27 (by decide)
  norm_num at b5 b6 b7 b11 b15 b19 b22 b23 b26 b27
  omega

theorem hand_count_eq (h : Nat) :
    hand_count h PAWN = h % 32 ∧ hand_count h LANCE = h / 256 % 8 ∧
    hand_count h KNIGHT = h / 4096 % 8 ∧ hand_count h SILVER = h / 65536 % 8 ∧
    hand_count h BISHOP = h / 1048576 % 4 ∧ hand_count h ROOK = h / 16777216 % 4 ∧
    hand_count h GOLD = h / 268435456 % 8 := by
  have m31 : (31 : Nat) = 2 ^ 5 - 1 := by decide
  have m7 : (7 : Nat) = 2 ^ 3 - 1 := by decide
  have m3 : (3 : Nat) = 2 ^ 2 - 1 := by decide
  refine ⟨?_, ?_, ?_, ?_, ?_, ?_, ?_⟩
  · show (h >>> 0) &&& 31 = _
    rw [m31, Nat.and_pow_two_sub_one_eq_mod]; rfl
  · show (h >>> 8) &&& 7 = _
    rw [m7, Nat.and_pow_two_sub_one_eq_mod, Nat.shiftRight_eq_div_pow]
  · show (h >>> 12) &&& 7 = _
    rw [m7, Nat.and_pow_two_sub_one_eq_mod, Nat.shiftRight_eq_div_pow]
  · show (h >>> 16) &&& 7 = _
    rw [m7, Nat.and_pow_two_sub_one_eq_mod, Nat.shiftRight_eq_div_pow]
  · show (h >>> 20) &&& 3 = _
    rw [m3, Nat.and_pow_two_sub_one_eq_mod, Nat.shiftRight_eq_div_pow]
  · show (h >>> 24) &&& 3 = _
    rw [m3, Nat.and_pow_two_sub_one_eq_mod, Nat.shiftRight_eq_div_pow]
  · show (h >>> 28) &&& 7 = _
    rw [m7, Nat.and_pow_two_sub_one_eq_mod, Nat.shiftRight_eq_div_pow]

theorem setBits_HAND_BORROW_MASK : setBits HAND_BORROW_MASK = [5, 11, 15, 19, 22, 26, 31] := by
  decide

theorem toHandKind_testBit (h i : Nat) :
    (toHandKind h).testBit i
      = bitAt ((h + HAND_BIT_MASK) % 2 ^ 32) [5, 11, 15, 19, 22, 26, 31] i := by
  have hB : HAND_BORROW_MASK < 2 ^ 64 := by decide
  have hlt := pext_lt ((h + HAND_BIT_MASK) % 2 ^ 32) HAND_BORROW_MASK hB
  have hpc : popcount HAND_BORROW_MASK = 7 := by
    unfold popcount; rw [setBits_HAND_BORROW_MASK]; rfl
  rw [hpc] at hlt
  unfold toHandKind PEXT32
  rw [Nat.mod_eq_of_lt (lt_trans hlt (by norm_num)), pext_testBit _ _ _ hB,
    setBits_HAND_BORROW_MASK]

/-- C23. For every hand `h` whose bits all lie in the count fields (every count fits its field
and the unused bits are 0), `toHandKind(h)` has bit `pr - 1` set if and only if
`hand_count(h, pr) > 0`, for every class `pr` in PAWN..GOLD, and has no other bit set. -/
theorem toHandKind_bits (h : Nat) (hf : handFits h) :
    (∀ pr, PAWN ≤ pr → pr ≤ GOLD →
      ((toHandKind h).testBit (pr - 1) = true ↔ 0 < hand_count h pr)) ∧
    (∀ i, 7 ≤ i → (toHandKind h).testBit i = false) := by
  have hd := handFits_fields h hf
  obtain ⟨c1, c2, c3, c4, c5, c6, c7⟩ := hand_count_eq h
  have hM := HAND_BIT_MASK_eq
  have e32 : (2 : Nat) ^ 32 = 4294967296 := by norm_num
  have hV : (h + HAND_BIT_MASK) % 2 ^ 32 = h + 1933014815 := by
    rw [hM, e32]; omega
  constructor
  · intro pr h1 h7
    have hP : PAWN = 1 := rfl
    have hG : GOLD = 7 := rfl
    rw [hP] at h1
    rw [hG] at h7
    rw [toHandKind_testBit, hV]
    interval_cases pr
    · rw [show hand_count h 1 = h % 32 from c1]
      show (h + 1933014815).testBit 5 = true ↔ _
      rw [Nat.testBit_to_div_mod, decide_eq_true_eq]
      norm_num
      omega
    · rw [show hand_count h 2 = h / 256 % 8 from c2]
      show (h + 1933014815).testBit 11 = true ↔ _
      rw [Nat.testBit_to_div_mod, decide_eq_true_eq]
      norm_num
      omega
    · rw [show hand_count h 3 = h / 4096 % 8 from c3]
      show (h + 1933014815).testBit 15 = true ↔ _
      rw [Nat.testBit_to_div_mod, decide_eq_true_eq]
      norm_num
      omega
    · rw [show hand_count h 4 = h / 65536 % 8 from c4]
      show (h + 1933014815).testBit 19 = true ↔ _
      rw [Nat.testBit_to_div_mod, decide_eq_true_eq]
      norm_num
      omega
    · rw [show hand_count h 5 = h / 1048576 % 4 from c5]
      show (h + 1933014815).testBit 22 = true ↔ _
      rw [Nat.testBit_to_div_mod, decide_eq_true_eq]
      norm_num
      omega
    · rw [show hand_count h 6 = h / 16777216 % 4 from c6]
      show (h + 1933014815).testBit 26 = true ↔ _
      rw [Nat.testBit_to_div_mod, decide_eq_true_eq]
      norm_num
      omega
    · rw [show hand_count h 7 = h / 268435456 % 8 from c7]
      show (h + 1933014815).testBit 31 = true ↔ _
      rw [Nat.testBit_to_div_mod, decide_eq_true_eq]
      norm_num
      omega
  · intro i hi
    rw [toHandKind_testBit]
    exact bitAt_of_le _ _ _ hi

theorem toHandKind_bits_witness :
    (∀ pr, PAWN ≤ pr → pr ≤ GOLD →
      ((toHandKind 0x10000102).testBit (pr - 1) = true ↔ 0 < hand_count 0x10000102 pr)) ∧
    (∀ i, 7 ≤ i → (toHandKind 0x10000102).testBit i = false) :=
  toHandKind_bits 0x10000102 (by decide)

theorem and_HAND_BORROW_MASK_eq_zero (x : Nat) :
    x &&& HAND_BORROW_MASK = 0 ↔
      (x.testBit 5 = false ∧ x.testBit 11 = false ∧ x.testBit 15 = false ∧
        x.testBit 19 = false ∧ x.testBit 22 = false ∧ x.testBit 26 = false ∧
        x.testBit 31 = false) := by
  have hB : ∀ j, HAND_BORROW_MASK.testBit j = true → j ∈ [5, 11, 15, 19, 22, 26, 31] := by
    intro j hj
    rw [← setBits_HAND_BORROW_MASK, mem_setBits]
    refine ⟨?_, hj⟩
    by_contra hc
    have : HAND_BORROW_MASK.testBit j = false :=
      Nat.testBit_lt_two_pow (lt_of_lt_of_le (by decide : HAND_BORROW_MASK < 2 ^ 64)
        (Nat.pow_le_pow_right (by decide) (by omega)))
    rw [this] at hj; cases hj
  constructor
  · intro h
    have key : ∀ j, HAND_BORROW_MASK.testBit j = true → x.testBit j = false := by
      intro j hj
      have := congrArg (fun v => v.testBit j) h
      simp only [Nat.testBit_and, hj, Bool.and_true, Nat.zero_testBit] at this
      exact this
    exact ⟨key 5 (by decide), key 11 (by decide), key 15 (by decide), key 19 (by decide),
      key 22 (by decide), key 26 (by decide), key 31 (by decide)⟩
  · rintro ⟨a, b, c, d, e, f, g⟩
    apply Nat.eq_of_testBit_eq
    intro j
    rw [Nat.testBit_and, Nat.zero_testBit]
    cases hj : HAND_BORROW_MASK.testBit j with
    | false => simp
    | true =>
      have := hB j hj
      simp only [List.mem_cons, List.mem_singleton, List.not_mem_nil, or_false] at this
      rcases this with r | r | r | r | r | r | r <;> subst r <;> simp [*]

theorem testBit_false_iff (x j : Nat) : x.testBit j = false ↔ ¬ (x / 2 ^ j % 2 = 1) := by
  rw [← Bool.not_eq_true, Nat.testBit_to_div_mod, decide_eq_true_eq]

theorem toU32_sub (a b : Nat) (ha : a < 2 ^ 32) (hb : b < 2 ^ 32) :
    toU32 ((a : Int) - (b : Int)) = if b ≤ a then a - b else 2 ^ 32 + a - b := by
  unfold toU32
  have e : ((2 : Int) ^ 32) = 4294967296 := by norm_num
  have e2 : (2 : Nat) ^ 32 = 4294967296 := by norm_num
  rw [e, e2]
  rw [e2] at ha hb
  split <;> omega

theorem borrow_bits_iff (D p1 l1 k1 s1 b1 r1 g1 p2 l2 k2 s2 b2 r2 g2 : Nat)
    (hp1 : p1 < 32) (hl1 : l1 < 8) (hk1 : k1 < 8) (hs1 : s1 < 8) (hb1 : b1 < 4) (hr1 : r1 < 4)
    (hg1 : g1 < 8)
    (hp2 : p2 < 32) (hl2 : l2 < 8) (hk2 : k2 < 8) (hs2 : s2 < 8) (hb2 : b2 < 4) (hr2 : r2 < 4)
    (hg2 : g2 < 8)
    (hD : D = if p2 + l2 * 256 + k2 * 4096 + s2 * 65536 + b2 * 1048576 + r2 * 16777216
          + g2 * 268435456 ≤ p1 + l1 * 256 + k1 * 4096 + s1 * 65536 + b1 * 1048576
          + r1 * 16777216 + g1 * 268435456
        then p1 + l1 * 256 + k1 * 4096 + s1 * 65536 + b1 * 1048576 + r1 * 16777216
          + g1 * 268435456 - (p2 + l2 * 256 + k2 * 4096 + s2 * 65536 + b2 * 1048576
          + r2 * 16777216 + g2 * 268435456)
        else 4294967296 + (p1 + l1 * 256 + k1 * 4096 + s1 * 65536 + b1 * 1048576
          + r1 * 16777216 + g1 * 268435456) - (p2 + l2 * 256 + k2 * 4096 + s2 * 65536
          + b2 * 1048576 + r2 * 16777216 + g2 * 268435456)) :
    (¬ (D / 32 % 2 = 1) ∧ ¬ (D / 2048 % 2 = 1) ∧ ¬ (D / 32768 % 2 = 1) ∧
      ¬ (D / 524288 % 2 = 1) ∧ ¬ (D / 4194304 % 2 = 1) ∧ ¬ (D / 67108864 % 2 = 1) ∧
      ¬ (D / 2147483648 % 2 = 1)) ↔
    (p2 ≤ p1 ∧ l2 ≤ l1 ∧ k2 ≤ k1 ∧ s2 ≤ s1 ∧ b2 ≤ b1 ∧ r2 ≤ r1 ∧ g2 ≤ g1) := by
  constructor
  · rintro ⟨a5, a11, a15, a19, a22, a26, a31⟩
    split at hD
    · have c1 : p2 ≤ p1 := by omega
      have c2 : l2 ≤ l1 := by omega
      have c3 : k2 ≤ k1 := by omega
      have c4 : s2 ≤ s1 := by omega
      have c5 : b2 ≤ b1 := by omega
      have c6 : r2 ≤ r1 := by omega
      have c7 : g2 ≤ g1 := by omega
      exact ⟨c1, c2, c3, c4, c5, c6, c7⟩
    · exfalso
      have c1 : p2 ≤ p1 := by omega
      have c2 : l2 ≤ l1 := by omega
      have c3 : k2 ≤ k1 := by omega
      have c4 : s2 ≤ s1 := by omega
      have c5 : b2 ≤ b1 := by omega
      have c6 : r2 ≤ r1 := by omega
      have c7 : g2 ≤ g1 := by omega
      omega
  · rintro ⟨c1, c2, c3, c4, c5, c6, c7⟩
    rw [if_pos (by omega)] at hD
    refine ⟨?_, ?_, ?_, ?_, ?_, ?_, ?_⟩ <;> omega

/-- C24. For all hands `h1` and `h2` whose bits all lie in the count fields (every count fits
its field and the unused bits are 0), `hand_is_equal_or_superior(h1, h2)` is true if and only if
`hand_count(h1, pr) >= hand_count(h2, pr)` for every class `pr` in PAWN..GOLD. -/
theorem hand_is_equal_or_superior_iff (h1 h2 : Nat) (hf1 : handFits h1) (hf2 : handFits h2) :
    hand_is_equal_or_superior h1 h2 = true ↔
      ∀ pr, PAWN ≤ pr → pr ≤ GOLD → hand_count h2 pr ≤ hand_count h1 pr := by
  have e1 := handFits_fields h1 hf1
  have e2 := handFits_fields h2 hf2
  obtain ⟨x1, x2, x3, x4, x5, x6, x7⟩ := hand_count_eq h1
  obtain ⟨y1, y2, y3, y4, y5, y6, y7⟩ := hand_count_eq h2
  have hlt : ∀ h, handFits h → h < 2 ^ 32 := by
    intro h hf
    unfold handFits at hf
    have : h &&& HAND_BIT_MASK ≤ HAND_BIT_MASK := Nat.and_le_right
    rw [hf, HAND_BIT_MASK_eq] at this
    have e : (2 : Nat) ^ 32 = 4294967296 := by norm_num
    omega
  have hD := toU32_sub h1 h2 (hlt h1 hf1) (hlt h2 hf2)
  have e32 : (2 : Nat) ^ 32 = 4294967296 := by norm_num
  rw [e32] at hD
  have hcore := borrow_bits_iff (toU32 ((h1 : Int) - (h2 : Int)))
    (h1 % 32) (h1 / 256 % 8) (h1 / 4096 % 8) (h1 / 65536 % 8) (h1 / 1048576 % 4)
    (h1 / 16777216 % 4) (h1 / 268435456 % 8)
    (h2 % 32) (h2 / 256 % 8) (h2 / 4096 % 8) (h2 / 65536 % 8) (h2 / 1048576 % 4)
    (h2 / 16777216 % 4) (h2 / 268435456 % 8)
    (Nat.mod_lt _ (by decide)) (Nat.mod_lt _ (by decide)) (Nat.mod_lt _ (by decide))
    (Nat.mod_lt _ (by decide)) (Nat.mod_lt _ (by decide)) (Nat.mod_lt _ (by decide))
    (Nat.mod_lt _ (by decide))
    (Nat.mod_lt _ (by decide)) (Nat.mod_lt _ (by decide)) (Nat.mod_lt _ (by decide))
    (Nat.mod_lt _ (by decide)) (Nat.mod_lt _ (by decide)) (Nat.mod_lt _ (by decide))
    (Nat.mod_lt _ (by decide))
    (by rw [← e1, ← e2]; exact hD)
  unfold hand_is_equal_or_superior
  rw [decide_eq_true_eq, and_HAND_BORROW_MASK_eq_zero]
  simp only [testBit_false_iff]
  norm_num only at hcore ⊢
  rw [hcore]
  have hP : PAWN = 1 := rfl
  have hG : GOLD = 7 := rfl
  constructor
  · rintro ⟨c1, c2, c3, c4, c5, c6, c7⟩ pr hp1 hp7
    rw [hP] at hp1
    rw [hG] at hp7
    interval_cases pr
    · rw [show hand_count h1 1 = _ from x1, show hand_count h2 1 = _ from y1]; exact c1
    · rw [show hand_count h1 2 = _ from x2, show hand_count h2 2 = _ from y2]; exact c2
    · rw [show hand_count h1 3 = _ from x3, show hand_count h2 3 = _ from y3]; exact c3
    · rw [show hand_count h1 4 = _ from x4, show hand_count h2 4 = _ from y4]; exact c4
    · rw [show hand_count h1 5 = _ from x5, show hand_count h2 5 = _ from y5]; exact c5
    · rw [show hand_count h1 6 = _ from x6, show hand_count h2 6 = _ from y6]; exact c6
    · rw [show hand_count h1 7 = _ from x7, show hand_count h2 7 = _ from y7]; exact c7
  · intro h
    have c1 := h PAWN (by decide) (by decide)
    have c2 := h LANCE (by decide) (by decide)
    have c3 := h KNIGHT (by decide) (by decide)
    have c4 := h SILVER (by decide) (by decide)
    have c5 := h BISHOP (by decide) (by decide)
    have c6 := h ROOK (by decide) (by decide)
    have c7 := h GOLD (by decide) (by decide)
    rw [x1, y1] at c1
    rw [x2, y2] at c2
    rw [x3, y3] at c3
    rw [x4, y4] at c4
    rw [x5, y5] at c5
    rw [x6, y6] at c6
    rw [x7, y7] at c7
    exact ⟨c1, c2, c3, c4, c5, c6, c7⟩

theorem hand_is_equal_or_superior_iff_witness :
    hand_is_equal_or_superior 0x10000102 0x10000003 = true ↔
      ∀ pr, PAWN ≤ pr → pr ≤ GOLD → hand_count 0x10000003 pr ≤ hand_count 0x10000102 pr :=
  hand_is_equal_or_superior_iff 0x10000102 0x10000003 (by decide) (by decide)

theorem usi_to_sq_range (f r : Char) : 0 ≤ usi_to_sq f r ∧ usi_to_sq f r ≤ 81 := by
  unfold usi_to_sq
  simp only
  split
  · rename_i h
    simp only [is_ok_File, is_ok_Rank, Bool.and_eq_true, decide_eq_true_eq] at h
    omega
  · unfold SQ_NB; omega

theorem usi_to_sq_of_not_namesSquare (f r : Char) (h : namesSquare f r = false) :
    usi_to_sq f r = SQ_NB := by
  unfold usi_to_sq
  simp only
  split
  · rename_i h2
    simp only [is_ok_File, is_ok_Rank, toFile, toRank, Bool.and_eq_true, decide_eq_true_eq] at h2
    unfold namesSquare at h
    simp only [decide_eq_false_iff_not] at h
    have e1 : ('1').toNat = 49 := by decide
    have e9 : ('9').toNat = 57 := by decide
    have ea : ('a').toNat = 97 := by decide
    have ei : ('i').toNat = 105 := by decide
    rw [e1, e9, ea, ei] at h
    rw [e1, ea] at h2
    omega
  · rfl

theorem is_ok_Square_usi_to_sq (f r : Char) : is_ok_Square (usi_to_sq f r) = true := by
  have := usi_to_sq_range f r
  unfold is_ok_Square SQ_NB
  simp only [decide_eq_true_eq]
  omega

theorem dropPieceLoop_spec (c : Char) :
    (dropPieceLoop c 7 1 = none ∧ c ∉ ['P', 'L', 'N', 'S', 'B', 'R', 'G']) ∨
    (∃ i, 1 ≤ i ∧ i ≤ 7 ∧ dropPieceLoop c 7 1 = some i ∧
      c ∈ ['P', 'L', 'N', 'S', 'B', 'R', 'G']) := by
  have g1 : PieceToCharBW.getD 1 ' ' = 'P' := by decide
  have g2 : PieceToCharBW.getD 2 ' ' = 'L' := by decide
  have g3 : PieceToCharBW.getD 3 ' ' = 'N' := by decide
  have g4 : PieceToCharBW.getD 4 ' ' = 'S' := by decide
  have g5 : PieceToCharBW.getD 5 ' ' = 'B' := by decide
  have g6 : PieceToCharBW.getD 6 ' ' = 'R' := by decide
  have g7 : PieceToCharBW.getD 7 ' ' = 'G' := by decide
  simp only [dropPieceLoop, g1, g2, g3, g4, g5, g6, g7, List.mem_cons, List.mem_singleton,
    List.not_mem_nil, or_false]
  by_cases h1 : 'P' = c
  · right; exact ⟨1, by simp [h1, h1.symm]⟩
  by_cases h2 : 'L' = c
  · right; exact ⟨2, by simp [h1, h2, h2.symm]⟩
  by_cases h3 : 'N' = c
  · right; exact ⟨3, by simp [h1, h2, h3, h3.symm]⟩
  by_cases h4 : 'S' = c
  · right; exact ⟨4, by simp [h1, h2, h3, h4, h4.symm]⟩
  by_cases h5 : 'B' = c
  · right; exact ⟨5, by simp [h1, h2, h3, h4, h5, h5.symm]⟩
  by_cases h6 : 'R' = c
  · right; exact ⟨6, by simp [h1, h2, h3, h4, h5, h6, h6.symm]⟩
  by_cases h7 : 'G' = c
  · right; exact ⟨7, by simp [h1, h2, h3, h4, h5, h6, h7, h7.symm]⟩
  left
  simp only [h1, h2, h3, h4, h5, h6, h7, if_false, true_and]
  intro h
  rcases h with h | h | h | h | h | h | h
  · exact h1 h.symm
  · exact h2 h.symm
  · exact h3 h.symm
  · exact h4 h.symm
  · exact h5 h.symm
  · exact h6 h.symm
  · exact h7 h.symm

theorem make_move_SQ_NB (src : Int) (h0 : 0 ≤ src) (h1 : src ≤ 81) :
    make_move src SQ_NB ≠ MOVE_NONE ∧ move_to (make_move src SQ_NB) = 81 ∧
    make_move_promote src SQ_NB ≠ MOVE_NONE ∧ move_to (make_move_promote src SQ_NB) = 81 := by
  lift src to ℕ using h0
  have hs : src ≤ 81 := by omega
  have hP : MOVE_PROMOTE = 2 ^ 15 := by decide
  have e1 : make_move src SQ_NB = 81 + src * 128 + 0 * 2 ^ 14 + 0 * 2 ^ 15 := by
    unfold make_move SQ_NB
    have := toU16_of_nat (81 + src * 128) (by norm_num; omega)
    push_cast at this
    rw [this]; simp
  have e2 : make_move_promote src SQ_NB = 81 + src * 128 + 0 * 2 ^ 14 + 1 * 2 ^ 15 := by
    unfold make_move_promote SQ_NB
    have := toU16_of_nat (81 + src * 128 + MOVE_PROMOTE) (by rw [hP]; norm_num; omega)
    push_cast at this
    rw [this, hP]; simp
  obtain ⟨-, a2, -, -⟩ := move_decode src 81 0 0 (by omega) (by omega) (by decide) (by decide)
  obtain ⟨-, b2, -, -⟩ := move_decode src 81 0 1 (by omega) (by omega) (by decide) (by decide)
  rw [← e1] at a2
  rw [← e2] at b2
  refine ⟨?_, a2, ?_, b2⟩
  · rw [e1]; unfold MOVE_NONE; omega
  · rw [e2]; unfold MOVE_NONE; omega

theorem make_move_drop_SQ_NB (i : Nat) (hi : i ≤ 7) :
    make_move_drop i SQ_NB ≠ MOVE_NONE ∧ move_to (make_move_drop i SQ_NB) = 81 := by
  have hD : MOVE_DROP = 2 ^ 14 := by decide
  have e3 : make_move_drop i SQ_NB = 81 + i * 128 + 1 * 2 ^ 14 + 0 * 2 ^ 15 := by
    unfold make_move_drop SQ_NB
    have := toU16_of_nat (81 + i * 128 + MOVE_DROP) (by rw [hD]; norm_num; omega)
    push_cast at this
    rw [this, hD]; simp
  obtain ⟨-, c2, -, -⟩ := move_decode i 81 1 0 (by omega) (by omega) (by decide) (by decide)
  rw [← e3] at c2
  refine ⟨?_, c2⟩
  rw [e3]; unfold MOVE_NONE; omega

theorem uci_to_move_of_bad_destination (str : List Char) (hlen : 4 ≤ str.length)
    (hbad : namesSquare (str.getD 2 ' ') (str.getD 3 ' ') = false) :
    uci_to_move str =
      if str.getD 1 ' ' = '*' then
        (match dropPieceLoop (str.getD 0 ' ') 7 1 with
          | some i => make_move_drop i SQ_NB
          | none => MOVE_NONE)
      else if decide (str.length = 5) && decide (str.getD 4 ' ' = '+') then
        make_move_promote (usi_to_sq (str.getD 0 ' ') (str.getD 1 ' ')) SQ_NB
      else make_move (usi_to_sq (str.getD 0 ' ') (str.getD 1 ' ')) SQ_NB := by
  have hd := usi_to_sq_of_not_namesSquare _ _ hbad
  have hok : is_ok_Square SQ_NB = true := by decide
  have hsrc := is_ok_Square_usi_to_sq (str.getD 0 ' ') (str.getD 1 ' ')
  unfold uci_to_move
  rw [if_neg (by omega)]
  simp only [hd, hok, hsrc, Bool.not_true, if_true, Bool.false_eq_true, if_false]
  by_cases hdrop : str.getD 1 ' ' = '*'
  · simp [hdrop]
  · simp [hdrop]

/-- For every string of length at least 4 whose third and fourth characters do not name a board
square, `uci_to_move` returns `MOVE_NONE` only when the string is a drop (second character `*`)
whose first character is not one of the piece letters `PLNSBRG`; in every other case it returns
a move whose destination decodes to `SQ_NB = 81`; `move_from_usi` returns the same move for
every position. -/
theorem uci_to_move_of_unnamed_square (str : List Char) (pos : Position) (hlen : 4 ≤ str.length)
    (hbad : namesSquare (str.getD 2 ' ') (str.getD 3 ' ') = false) :
    (uci_to_move str = MOVE_NONE ↔
      (str.getD 1 ' ' = '*' ∧ str.getD 0 ' ' ∉ ['P', 'L', 'N', 'S', 'B', 'R', 'G'])) ∧
    (uci_to_move str ≠ MOVE_NONE → move_to (uci_to_move str) = 81) ∧
    move_from_usi pos str = uci_to_move str := by
  have hrange := usi_to_sq_range (str.getD 0 ' ') (str.getD 1 ' ')
  obtain ⟨m1, m2, m3, m4⟩ := make_move_SQ_NB _ hrange.1 hrange.2
  have hu := uci_to_move_of_bad_destination str hlen hbad
  refine ⟨?_, ?_, rfl⟩
  · rw [hu]
    by_cases hdrop : str.getD 1 ' ' = '*'
    · rw [if_pos hdrop]
      rcases dropPieceLoop_spec (str.getD 0 ' ') with ⟨hn, hnot⟩ | ⟨i, -, hi7, hs, hmem⟩
      · rw [hn]
        exact ⟨fun _ => ⟨hdrop, hnot⟩, fun _ => rfl⟩
      · rw [hs]
        exact ⟨fun h => absurd h (make_move_drop_SQ_NB i hi7).1, fun h => absurd hmem h.2⟩
    · rw [if_neg hdrop]
      split
      · exact ⟨fun h => absurd h m3, fun h => absurd h.1 hdrop⟩
      · exact ⟨fun h => absurd h m1, fun h => absurd h.1 hdrop⟩
  · rw [hu]
    by_cases hdrop : str.getD 1 ' ' = '*'
    · rw [if_pos hdrop]
      rcases dropPieceLoop_spec (str.getD 0 ' ') with ⟨hn, -⟩ | ⟨i, -, hi7, hs, -⟩
      · rw [hn]; intro h; exact absurd rfl h
      · rw [hs]; intro _; exact (make_move_drop_SQ_NB i hi7).2
    · rw [if_neg hdrop]
      split
      · intro _; exact m4
      · intro _; exact m2

set_option maxRecDepth 100000 in
/-- C25 fails: in the string `7g7z` the characters `7z` do not name a board square, `usi_to_sq`
reports this by returning `SQ_NB`, which `is_ok(Square)` accepts, so `uci_to_move` goes on and
returns the move from square 60 to `SQ_NB = 81` instead of `MOVE_NONE`, and `move_from_usi`
returns the same move. -/
theorem uci_to_move_bad_destination_is_move :
    namesSquare ('7') ('z') = false ∧ usi_to_sq ('7') ('z') = SQ_NB ∧
    is_ok_Square SQ_NB = true ∧
    uci_to_move ['7', 'g', '7', 'z'] = make_move 60 81 ∧
    uci_to_move ['7', 'g', '7', 'z'] ≠ MOVE_NONE ∧
    move_from_usi goldPos ['7', 'g', '7', 'z'] = make_move 60 81 ∧
    move_from_usi goldPos ['7', 'g', '7', 'z'] ≠ MOVE_NONE := by
  decide

set_option maxRecDepth 100000 in
/-- C26. Under the square-to-bit layout used by `pop` (a Bitboard whose only bit is bit `i` of
`p[0]`, `i < 63`, pops square `i`; one whose only bit is bit `j` of `p[1]` pops square `63 + j`;
`Bitboard::part(sq) = 1` exactly when `sq >= 63`), `FILE_BB[f]` contains exactly the squares
`sq` with `file_of(sq) = f` and `RANK_BB[r]` exactly the squares with `rank_of(sq) = r`; the nine
files (and the nine ranks) are pairwise disjoint and their union is `ALL_BB`, which has
`pop_count` 81. -/
theorem file_rank_bb_partition :
    (∀ i, i < 63 → (Bitboard.pop ⟨2 ^ i, 0⟩).1 = i ∧ ∀ sq, sq < 81 →
      ((Bitboard.test ⟨2 ^ i, 0⟩ sq = true) ↔ sq = i)) ∧
    (∀ j, j < 18 → (Bitboard.pop ⟨0, 2 ^ j⟩).1 = 63 + j ∧ ∀ sq, sq < 81 →
      ((Bitboard.test ⟨0, 2 ^ j⟩ sq = true) ↔ sq = 63 + j)) ∧
    (∀ sq, sq < 81 → (Bitboard.part sq = 1 ↔ 63 ≤ sq)) ∧
    (∀ f, f < 9 → (FILE_BB f).wellFormed ∧
      ∀ sq, sq < 81 → ((FILE_BB f).test sq = true ↔ file_of sq = f)) ∧
    (∀ r, r < 9 → (RANK_BB r).wellFormed ∧
      ∀ sq, sq < 81 → ((RANK_BB r).test sq = true ↔ rank_of sq = r)) ∧
    (∀ f, f < 9 → ∀ g, g < 9 → f ≠ g → (FILE_BB f).and (FILE_BB g) = ZERO_BB) ∧
    (∀ r, r < 9 → ∀ s, s < 9 → r ≠ s → (RANK_BB r).and (RANK_BB s) = ZERO_BB) ∧
    ((List.range 9).map FILE_BB).foldr Bitboard.or ZERO_BB = ALL_BB ∧
    ((List.range 9).map RANK_BB).foldr Bitboard.or ZERO_BB = ALL_BB ∧
    ALL_BB.pop_count = 81 := by
  refine ⟨by decide, by decide, by decide, by decide, by decide, by decide, by decide, by decide,
    by decide, by decide⟩

set_option maxRecDepth 100000 in
/-- C27. For every rank index `n` in 0..8, `InFrontBB[BLACK][n]` is exactly the set of squares
whose rank is strictly less than `n` and `InFrontBB[WHITE][n]` is exactly the set of squares
whose rank is strictly greater than `n`; neither has a bit outside the 81 squares. -/
theorem inFrontBB_rank_halves :
    (∀ n, n < 9 → (InFrontBB BLACK n).wellFormed ∧
      ∀ sq, sq < 81 → ((InFrontBB BLACK n).test sq = true ↔ rank_of sq < n)) ∧
    (∀ n, n < 9 → (InFrontBB WHITE n).wellFormed ∧
      ∀ sq, sq < 81 → ((InFrontBB WHITE n).test sq = true ↔ n < rank_of sq)) := by
  refine ⟨by decide, by decide⟩

theorem popWord_spec (m : Nat) (hm : m ≠ 0) (h64 : m < 2 ^ 64) :
    lsb m < 64 ∧ m.testBit (lsb m) = true ∧ (∀ j, m.testBit j = true → lsb m ≤ j) ∧
    (∀ j, (m &&& (m - 1)).testBit j = (m.testBit j && decide (j ≠ lsb m))) ∧
    m &&& (m - 1) < 2 ^ 64 ∧ POPCNT64 (m &&& (m - 1)) = POPCNT64 m - 1 := by
  obtain ⟨k, q, rfl⟩ := exists_lowbit m hm
  obtain ⟨hk64, -⟩ := lowbit_bounds k q h64
  have hk : 2 ^ k < 2 ^ (k + 1) := Nat.pow_lt_pow_right (by decide) (Nat.lt_succ_self k)
  have hbit : ∀ j, (2 ^ (k + 1) * q + 2 ^ k).testBit j
      = (decide (j = k) || (2 ^ (k + 1) * q).testBit j) := by
    intro j
    rw [Nat.testBit_mul_pow_two_add q hk, Nat.testBit_mul_pow_two, Nat.testBit_two_pow]
    by_cases hj : j < k + 1
    · have : ¬ (k + 1 ≤ j) := by omega
      by_cases hjk : j = k
      · subst hjk; simp
      · have : ¬ (k = j) := fun e => hjk e.symm
        simp [hj, hjk, this]
    · have h1 : k + 1 ≤ j := by omega
      have h2 : j ≠ k := by omega
      simp [hj, h1, h2]
  have hlow : ∀ j, (2 ^ (k + 1) * q).testBit j = true → k < j := by
    intro j hj
    rw [Nat.testBit_mul_pow_two] at hj
    simp at hj
    omega
  have hlt : 2 ^ (k + 1) * q < 2 ^ 64 := lt_of_le_of_lt (Nat.le_add_right _ _) h64
  rw [lsb_lowbit k q h64, lowbit_and_pred]
  refine ⟨hk64, ?_, ?_, ?_, hlt, ?_⟩
  · rw [hbit]; simp
  · intro j hj
    rw [hbit] at hj
    simp at hj
    rcases hj with hj | hj
    · omega
    · exact le_of_lt (hlow j hj)
  · intro j
    rw [hbit]
    by_cases hjk : j = k
    · subst hjk
      cases hq : (2 ^ (j + 1) * q).testBit j with
      | false => simp
      | true => exact absurd (hlow j hq) (lt_irrefl _)
    · simp [hjk]
  · rw [POPCNT64_eq_bitSum _ hlt, POPCNT64_eq_bitSum _ h64, ← popcount_eq_bitSum,
      ← popcount_eq_bitSum]
    unfold popcount
    rw [setBits_lowbit k q h64]
    simp

theorem testBit_false_of_lt_two_pow (x n j : Nat) (hx : x < 2 ^ n) (hj : n ≤ j) :
    x.testBit j = false :=
  Nat.testBit_lt_two_pow (lt_of_lt_of_le hx (Nat.pow_le_pow_right (by decide) hj))

theorem pop_spec (b : Bitboard) (hw : b.wellFormed) (hne : b.toBool = true) :
    b.pop.1 < 81 ∧ b.test b.pop.1 = true ∧ (∀ s, b.test s = true → b.pop.1 ≤ s) ∧
    (∀ s, b.pop.2.test s = (b.test s && decide (s ≠ b.pop.1))) ∧
    b.pop.2.pop_count = b.pop_count - 1 ∧ b.pop_c = b.pop.1 ∧ b.pop.2.wellFormed := by
  obtain ⟨hw0, hw1⟩ := hw
  have h0 : b.p0 < 2 ^ 64 := lt_trans hw0 (by norm_num)
  have h1 : b.p1 < 2 ^ 64 := lt_trans hw1 (by norm_num)
  by_cases hp : b.p0 ≠ 0
  · obtain ⟨a1, a2, a3, a4, a5, a6⟩ := popWord_spec b.p0 hp h0
    have hl : lsb b.p0 < 63 := by
      by_contra hc
      have := testBit_false_of_lt_two_pow b.p0 63 (lsb b.p0) hw0 (by omega)
      rw [a2] at this; cases this
    have e1 : b.pop = (lsb b.p0, ⟨b.p0 &&& (b.p0 - 1), b.p1⟩) := by
      unfold Bitboard.pop; rw [if_pos hp]
    have e2 : b.pop_c = lsb b.p0 := by unfold Bitboard.pop_c; rw [if_pos hp]
    rw [e1, e2]
    refine ⟨by show lsb b.p0 < 81; omega, ?_, ?_, ?_, ?_, rfl, ?_⟩
    · show b.test (lsb b.p0) = true
      unfold Bitboard.test; rw [if_pos hl]; exact a2
    · intro s hs
      show lsb b.p0 ≤ s
      unfold Bitboard.test at hs
      by_cases h63 : s < 63
      · rw [if_pos h63] at hs; exact a3 s hs
      · omega
    · intro s
      show Bitboard.test ⟨b.p0 &&& (b.p0 - 1), b.p1⟩ s = (b.test s && decide (s ≠ lsb b.p0))
      unfold Bitboard.test
      by_cases h63 : s < 63
      · simp only [if_pos h63]; exact a4 s
      · have : s ≠ lsb b.p0 := by omega
        simp only [if_neg h63, this, ne_eq, not_false_eq_true, decide_True, Bool.and_true]
    · show Bitboard.pop_count ⟨b.p0 &&& (b.p0 - 1), b.p1⟩ = b.pop_count - 1
      unfold Bitboard.pop_count
      show POPCNT64 (b.p0 &&& (b.p0 - 1)) + POPCNT64 b.p1 = POPCNT64 b.p0 + POPCNT64 b.p1 - 1
      rw [a6]; ring
    · exact ⟨lt_of_le_of_lt Nat.and_le_left hw0, hw1⟩
  · have hp0 : b.p0 = 0 := by simpa using hp
    have hp1 : b.p1 ≠ 0 := by
      unfold Bitboard.toBool at hne
      simp only [decide_eq_true_eq] at hne
      rcases hne with h | h
      · exact absurd hp0 h
      · exact h
    obtain ⟨a1, a2, a3, a4, a5, a6⟩ := popWord_spec b.p1 hp1 h1
    have hl : lsb b.p1 < 18 := by
      by_contra hc
      have := testBit_false_of_lt_two_pow b.p1 18 (lsb b.p1) hw1 (by omega)
      rw [a2] at this; cases this
    have e1 : b.pop = (lsb b.p1 + 63, ⟨b.p0, b.p1 &&& (b.p1 - 1)⟩) := by
      unfold Bitboard.pop; rw [if_neg hp]
    have e2 : b.pop_c = lsb b.p1 + 63 := by unfold Bitboard.pop_c; rw [if_neg hp]
    rw [e1, e2]
    refine ⟨by show lsb b.p1 + 63 < 81; omega, ?_, ?_, ?_, ?_, rfl, ?_⟩
    · show b.test (lsb b.p1 + 63) = true
      unfold Bitboard.test
      rw [if_neg (by omega), Nat.add_sub_cancel]; exact a2
    · intro s hs
      show lsb b.p1 + 63 ≤ s
      unfold Bitboard.test at hs
      by_cases h63 : s < 63
      · rw [if_pos h63, hp0] at hs; simp at hs
      · rw [if_neg h63] at hs
        have := a3 _ hs
        omega
    · intro s
      show Bitboard.test ⟨b.p0, b.p1 &&& (b.p1 - 1)⟩ s
        = (b.test s && decide (s ≠ lsb b.p1 + 63))
      unfold Bitboard.test
      by_cases h63 : s < 63
      · have : s ≠ lsb b.p1 + 63 := by omega
        simp only [if_pos h63, this, ne_eq, not_false_eq_true, decide_True, Bool.and_true]
      · simp only [if_neg h63]
        rw [a4 (s - 63)]
        have : decide (s - 63 ≠ lsb b.p1) = decide (s ≠ lsb b.p1 + 63) := by
          apply decide_eq_decide.2; omega
        rw [this]
    · show Bitboard.pop_count ⟨b.p0, b.p1 &&& (b.p1 - 1)⟩ = b.pop_count - 1
      unfold Bitboard.pop_count
      show POPCNT64 b.p0 + POPCNT64 (b.p1 &&& (b.p1 - 1)) = POPCNT64 b.p0 + POPCNT64 b.p1 - 1
      rw [a6]; ring
    · exact ⟨hw0, lt_of_le_of_lt Nat.and_le_left hw1⟩

theorem filter_test_pop (b : Bitboard) (hw : b.wellFormed) (hne : b.toBool = true) :
    (List.range 81).filter b.test = b.pop.1 :: (List.range 81).filter b.pop.2.test := by
  obtain ⟨h81, hin, hmin, hrest, -, -, -⟩ := pop_spec b hw hne
  have hs1 : ((List.range 81).filter b.test).Sorted (· < ·) := (List.sorted_lt_range 81).filter _
  have hs2 : (b.pop.1 :: (List.range 81).filter b.pop.2.test).Sorted (· < ·) := by
    refine List.sorted_cons.2 ⟨?_, (List.sorted_lt_range 81).filter _⟩
    intro s hs
    rw [List.mem_filter, hrest s] at hs
    simp only [Bool.and_eq_true, decide_eq_true_eq] at hs
    have := hmin s hs.2.1
    omega
  refine List.eq_of_perm_of_sorted ?_ hs1 hs2
  refine (List.perm_ext_iff_of_nodup hs1.nodup hs2.nodup).2 ?_
  intro s
  rw [List.mem_cons, List.mem_filter, List.mem_filter, hrest s, List.mem_range]
  simp only [Bool.and_eq_true, decide_eq_true_eq]
  constructor
  · rintro ⟨h1, h2⟩
    by_cases e : s = b.pop.1
    · exact Or.inl e
    · exact Or.inr ⟨h1, h2, e⟩
  · rintro (e | ⟨h1, h2, -⟩)
    · rw [e]; exact ⟨h81, hin⟩
    · exact ⟨h1, h2⟩

theorem popAll_eq_filter : ∀ (fuel : Nat) (b : Bitboard), b.wellFormed →
    ((List.range 81).filter b.test).length ≤ fuel →
    popAll fuel b = (List.range 81).filter b.test := by
  intro fuel
  induction fuel with
  | zero =>
    intro b _ hlen
    have : (List.range 81).filter b.test = [] := List.eq_nil_of_length_eq_zero (by omega)
    rw [this]; rfl
  | succ n ih =>
    intro b hw hlen
    by_cases hne : b.toBool = true
    · have hf := filter_test_pop b hw hne
      have hw2 := (pop_spec b hw hne).2.2.2.2.2.2
      show (if b.toBool then b.pop.1 :: popAll n b.pop.2 else []) = _
      rw [if_pos hne, hf, ih b.pop.2 hw2 (by rw [hf] at hlen; simpa using hlen)]
    · show (if b.toBool then b.pop.1 :: popAll n b.pop.2 else []) = _
      rw [if_neg hne]
      unfold Bitboard.toBool at hne
      simp only [decide_eq_true_eq, not_or, not_not] at hne
      symm
      apply List.filter_eq_nil_iff.2
      intro s _
      unfold Bitboard.test
      rw [hne.1, hne.2]
      simp

/-- C28. For every well-formed Bitboard `b` with at least one square set, `pop` returns the
smallest square contained in `b` and removes exactly that square (the membership of every other
square is unchanged and `pop_count` drops by one), and `pop_c` returns the same square; repeated
`pop` enumerates the squares of `b` in ascending order (any fuel of at least 81 steps is
enough). -/
theorem pop_returns_smallest_square (b : Bitboard) (hw : b.wellFormed) (hne : b.toBool = true) :
    b.test b.pop.1 = true ∧ (∀ s, b.test s = true → b.pop.1 ≤ s) ∧
    (∀ s, b.pop.2.test s = (b.test s && decide (s ≠ b.pop.1))) ∧
    b.pop.2.pop_count = b.pop_count - 1 ∧ b.pop_c = b.pop.1 ∧
    ∀ fuel, 81 ≤ fuel → popAll fuel b = (List.range 81).filter b.test := by
  obtain ⟨-, h1, h2, h3, h4, h5, -⟩ := pop_spec b hw hne
  refine ⟨h1, h2, h3, h4, h5, ?_⟩
  intro fuel hfuel
  apply popAll_eq_filter fuel b hw
  have : ((List.range 81).filter b.test).length ≤ (List.range 81).length :=
    List.length_filter_le _ _
  rw [List.length_range] at this
  omega

theorem pop_returns_smallest_square_witness :
    (RANK_BB 3).test (RANK_BB 3).pop.1 = true ∧
    (∀ s, (RANK_BB 3).test s = true → (RANK_BB 3).pop.1 ≤ s) ∧
    (∀ s, (RANK_BB 3).pop.2.test s = ((RANK_BB 3).test s && decide (s ≠ (RANK_BB 3).pop.1))) ∧
    (RANK_BB 3).pop.2.pop_count = (RANK_BB 3).pop_count - 1 ∧
    (RANK_BB 3).pop_c = (RANK_BB 3).pop.1 ∧
    ∀ fuel, 81 ≤ fuel → popAll fuel (RANK_BB 3) = (List.range 81).filter (RANK_BB 3).test :=
  pop_returns_smallest_square (RANK_BB 3) (by decide) (by decide)

/-- C29. The function `probe` returns `found = true` if and only if the first entry in scan
order whose fragment is 0 or equal to `key >> 48` exists and its fragment is non-zero; in that
case the returned pointer is that entry of the addressed cluster. In particular a key whose high
16 bits are all zero is never reported as found, and an entry that lies after an empty entry is
never reported as found. -/
theorem probe_found_iff_first_stop_nonzero (tt : TranspositionTable) (key : Nat) :
    ((tt.probe key).found = true ↔
      ∃ i, i < tt.ClusterSize ∧
        ((tt.table (tt.clusterIndex key) i).key16 = 0 ∨
          (tt.table (tt.clusterIndex key) i).key16 = key16Of key) ∧
        (∀ j, j < i → (tt.table (tt.clusterIndex key) j).key16 ≠ 0 ∧
          (tt.table (tt.clusterIndex key) j).key16 ≠ key16Of key) ∧
        (tt.table (tt.clusterIndex key) i).key16 ≠ 0) ∧
    (∀ i, i < tt.ClusterSize →
        ((tt.table (tt.clusterIndex key) i).key16 = 0 ∨
          (tt.table (tt.clusterIndex key) i).key16 = key16Of key) →
        (∀ j, j < i → (tt.table (tt.clusterIndex key) j).key16 ≠ 0 ∧
          (tt.table (tt.clusterIndex key) j).key16 ≠ key16Of key) →
        (tt.table (tt.clusterIndex key) i).key16 ≠ 0 →
        (tt.probe key).found = true ∧ (tt.probe key).cluster = tt.clusterIndex key ∧
          (tt.probe key).entry = i) ∧
    (key16Of key = 0 → (tt.probe key).found = false) ∧
    (∀ i j, j < i → (tt.table (tt.clusterIndex key) j).key16 = 0 →
        ¬ ((tt.probe key).found = true ∧ (tt.probe key).entry = i)) := by
  have hfirst : ∀ i, i < tt.ClusterSize →
      ((tt.table (tt.clusterIndex key) i).key16 = 0 ∨
        (tt.table (tt.clusterIndex key) i).key16 = key16Of key) →
      (∀ j, j < i → (tt.table (tt.clusterIndex key) j).key16 ≠ 0 ∧
        (tt.table (tt.clusterIndex key) j).key16 ≠ key16Of key) →
      probeScan (tt.table (tt.clusterIndex key)) (key16Of key) tt.ClusterSize 0
        = some (decide ((tt.table (tt.clusterIndex key) i).key16 ≠ 0), i) := by
    intro i hi hstop hbefore
    exact probeScan_first _ _ tt.ClusterSize 0 i (Nat.zero_le _) (by omega)
      (fun j _ hj => hbefore j hj) hstop
  have hpos : ∀ i, i < tt.ClusterSize →
      ((tt.table (tt.clusterIndex key) i).key16 = 0 ∨
        (tt.table (tt.clusterIndex key) i).key16 = key16Of key) →
      (∀ j, j < i → (tt.table (tt.clusterIndex key) j).key16 ≠ 0 ∧
        (tt.table (tt.clusterIndex key) j).key16 ≠ key16Of key) →
      (tt.table (tt.clusterIndex key) i).key16 ≠ 0 →
      (tt.probe key).found = true ∧ (tt.probe key).cluster = tt.clusterIndex key ∧
        (tt.probe key).entry = i := by
    intro i hi hstop hbefore hnz
    have hs := hfirst i hi hstop hbefore
    rw [decide_eq_true hnz] at hs
    simp [TranspositionTable.probe, hs]
  have hneg : (tt.probe key).found = true →
      ∃ i, i < tt.ClusterSize ∧ (tt.probe key).entry = i ∧
        (tt.table (tt.clusterIndex key) i).key16 = key16Of key ∧
        (∀ j, j < i → (tt.table (tt.clusterIndex key) j).key16 ≠ 0 ∧
          (tt.table (tt.clusterIndex key) j).key16 ≠ key16Of key) ∧
        (tt.table (tt.clusterIndex key) i).key16 ≠ 0 := by
    intro hf
    cases hs : probeScan (tt.table (tt.clusterIndex key)) (key16Of key) tt.ClusterSize 0 with
    | none => simp [TranspositionTable.probe, hs] at hf
    | some p =>
      obtain ⟨b, i⟩ := p
      cases b with
      | false => simp [TranspositionTable.probe, hs] at hf
      | true =>
        obtain ⟨-, h2, h3, h4⟩ := probeScan_some_spec _ _ _ _ _ _ hs
        rcases h4 with ⟨h, -⟩ | ⟨-, hnz, heq⟩
        · cases h
        · refine ⟨i, by omega, ?_, heq, fun j hj => h3 j (Nat.zero_le _) hj, hnz⟩
          simp [TranspositionTable.probe, hs]
  refine ⟨⟨?_, ?_⟩, hpos, ?_, ?_⟩
  · intro hf
    obtain ⟨i, hi, -, heq, hb, hnz⟩ := hneg hf
    exact ⟨i, hi, Or.inr heq, hb, hnz⟩
  · rintro ⟨i, hi, hstop, hb, hnz⟩
    exact (hpos i hi hstop hb hnz).1
  · intro hk
    cases hf : (tt.probe key).found with
    | false => rfl
    | true =>
      obtain ⟨i, -, -, heq, -, hnz⟩ := hneg hf
      exact absurd (heq.trans hk) hnz
  · rintro i j hji hz ⟨hf, he⟩
    obtain ⟨i2, -, he2, -, hb, -⟩ := hneg hf
    have : i2 = i := he2.symm.trans he
    subst this
    exact (hb j hji).1 hz

/-- C30. For every current generation `g` that is a multiple of 4 in 0..252 and every stored
generation+bound byte in 0..255, the age `(259 + g - b) & 0xFC` used by the replacement rule of
`probe` equals `(g - (b & 0xFC)) mod 256`, so that the compared value is
`depth8 - ((g - (b & 0xFC)) mod 256) * 2 * ONE_PLY`; it does not depend on the two low (bound)
bits of the byte: two entries of the same depth whose bytes agree on `& 0xFC` compare equal. -/
theorem replaceScore_age_wraparound (g : Nat) (e : TTEntry) (hg : g < 256) (hg4 : g % 4 = 0)
    (hb : e.genBound8 < 256) :
    (((259 + g - e.genBound8) &&& 0xFC : Nat) : Int)
      = ((g : Int) - ((e.genBound8 &&& 0xFC : Nat) : Int)) % 256 ∧
    replaceScore g e
      = e.depth8 - (((g : Int) - ((e.genBound8 &&& 0xFC : Nat) : Int)) % 256) * 2 * ONE_PLY ∧
    ∀ e2 : TTEntry, e2.depth8 = e.depth8 → e2.genBound8 < 256 →
      e2.genBound8 &&& 0xFC = e.genBound8 &&& 0xFC → replaceScore g e2 = replaceScore g e := by
  have key : ∀ b : Nat, b < 256 →
      (((259 + g - b) &&& 0xFC : Nat) : Int) = ((g : Int) - ((b &&& 0xFC : Nat) : Int)) % 256 := by
    intro b hb
    rw [age_eq_wrapAge g b hg hg4 hb]
    unfold wrapAge
    have hm : b &&& 0xFC ≤ 252 := by rw [and_0xFC]; omega
    generalize b &&& 0xFC = m at hm
    omega
  refine ⟨key _ hb, ?_, ?_⟩
  · unfold replaceScore
    rw [key _ hb]
  · intro e2 hd hb2 hand
    unfold replaceScore
    rw [key _ hb, key _ hb2, hd, hand]

theorem replaceScore_age_wraparound_witness :
    (((259 + 4 - (mkEntry 1 10 251).genBound8) &&& 0xFC : Nat) : Int)
      = ((4 : Int) - (((mkEntry 1 10 251).genBound8 &&& 0xFC : Nat) : Int)) % 256 ∧
    replaceScore 4 (mkEntry 1 10 251)
      = (mkEntry 1 10 251).depth8
        - (((4 : Int) - (((mkEntry 1 10 251).genBound8 &&& 0xFC : Nat) : Int)) % 256) * 2 * ONE_PLY ∧
    ∀ e2 : TTEntry, e2.depth8 = (mkEntry 1 10 251).depth8 → e2.genBound8 < 256 →
      e2.genBound8 &&& 0xFC = (mkEntry 1 10 251).genBound8 &&& 0xFC →
      replaceScore 4 e2 = replaceScore 4 (mkEntry 1 10 251) :=
  replaceScore_age_wraparound 4 (mkEntry 1 10 251) (by decide) (by decide) (by decide)

/-- C31. For every square `sq` in 0..80 and every occupancy, the index
`(occupied.p[part(sq)] >> Slide[sq]) & 127` computed by `lanceEffect` and `rookEffectFile` is
below 128, and its bit `k` (`0 <= k < 7`) equals the occupancy of the square on the file of `sq`
at rank index `k + 1` (rank `k + 2` of 1..9); hence the index, and with it the results of
`lanceEffect` and `rookEffectFile`, are the same for two occupancies that agree on the seven
inner squares of that file. -/
theorem lanceIndex_reads_inner_file (T : EffectTables) (sq : Nat) (occ : Bitboard)
    (hsq : sq < 81) :
    lanceIndex sq occ < 128 ∧
    (∀ k, k < 7 → ∀ x, x < 81 → file_of x = file_of sq → rank_of x = k + 1 →
      (lanceIndex sq occ).testBit k = occ.test x) ∧
    (∀ occ2 : Bitboard,
      (∀ x, x < 81 → file_of x = file_of sq → 1 ≤ rank_of x → rank_of x ≤ 7 →
        occ2.test x = occ.test x) →
      lanceIndex sq occ2 = lanceIndex sq occ ∧
      (∀ c, lanceEffect T c sq occ2 = lanceEffect T c sq occ) ∧
      rookEffectFile T sq occ2 = rookEffectFile T sq occ) := by
  have hfr : ∀ x, x < 81 → file_of x = x / 9 ∧ rank_of x = x % 9 := by decide
  refine ⟨lanceIndex_lt sq occ, ?_, ?_⟩
  · intro k hk x hx hf hr
    rw [lanceIndex_testBit sq hsq occ k hk]
    rw [(hfr x hx).1, (hfr sq hsq).1] at hf
    rw [(hfr x hx).2] at hr
    have : x = 9 * (sq / 9) + k + 1 := by omega
    rw [this]
  · intro occ2 h
    have hidx : lanceIndex sq occ2 = lanceIndex sq occ := by
      apply lanceIndex_eq_of_test sq hsq
      intro x hx
      unfold fileInnerSquares at hx
      rw [List.mem_map] at hx
      obtain ⟨j, hj, rfl⟩ := hx
      rw [List.mem_range] at hj
      have hx81 : 9 * (sq / 9) + j + 1 < 81 := by omega
      have hx := hfr _ hx81
      apply h _ hx81
      · rw [hx.1, (hfr sq hsq).1]; omega
      · rw [hx.2]; omega
      · rw [hx.2]; omega
    refine ⟨hidx, ?_, ?_⟩
    · intro c; unfold lanceEffect; rw [hidx]
    · unfold rookEffectFile; rw [hidx]

theorem lanceIndex_reads_inner_file_witness :
    lanceIndex 40 (RANK_BB 3) < 128 ∧
    (∀ k, k < 7 → ∀ x, x < 81 → file_of x = file_of 40 → rank_of x = k + 1 →
      (lanceIndex 40 (RANK_BB 3)).testBit k = (RANK_BB 3).test x) ∧
    (∀ occ2 : Bitboard,
      (∀ x, x < 81 → file_of x = file_of 40 → 1 ≤ rank_of x → rank_of x ≤ 7 →
        occ2.test x = (RANK_BB 3).test x) →
      lanceIndex 40 occ2 = lanceIndex 40 (RANK_BB 3) ∧
      (∀ c, lanceEffect probeTables c 40 occ2 = lanceEffect probeTables c 40 (RANK_BB 3)) ∧
      rookEffectFile probeTables 40 occ2 = rookEffectFile probeTables 40 (RANK_BB 3)) :=
  lanceIndex_reads_inner_file probeTables 40 (RANK_BB 3) (by decide)

theorem xor_mask_spec (x n : Nat) (hx : x < 2 ^ n) :
    x ^^^ (2 ^ n - 1) ^^^ (2 ^ n - 1) = x ∧ x &&& (x ^^^ (2 ^ n - 1)) = 0 ∧
    x ||| (x ^^^ (2 ^ n - 1)) = 2 ^ n - 1 ∧ x ^^^ (2 ^ n - 1) < 2 ^ n := by
  have hbit : ∀ j, x.testBit j = true → j < n := by
    intro j hj
    by_contra hc
    rw [testBit_false_of_lt_two_pow x n j hx (by omega)] at hj
    cases hj
  refine ⟨?_, ?_, ?_, ?_⟩
  · rw [Nat.xor_assoc, Nat.xor_self, Nat.xor_zero]
  · apply Nat.eq_of_testBit_eq
    intro j
    rw [Nat.testBit_and, Nat.testBit_xor, Nat.testBit_two_pow_sub_one, Nat.zero_testBit]
    cases hj : x.testBit j with
    | false => rfl
    | true => simp [hbit j hj]
  · apply Nat.eq_of_testBit_eq
    intro j
    rw [Nat.testBit_or, Nat.testBit_xor, Nat.testBit_two_pow_sub_one]
    cases hj : x.testBit j with
    | false => simp
    | true => simp [hbit j hj]
  · exact Nat.xor_lt_two_pow hx (Nat.sub_lt (Nat.two_pow_pos n) (by decide))

theorem POPCNT64_xor_mask (x n : Nat) (hn : n ≤ 64) (hx : x < 2 ^ n) :
    POPCNT64 (x ^^^ (2 ^ n - 1)) = POPCNT64 (2 ^ n - 1) - POPCNT64 x := by
  obtain ⟨-, h2, h3, h4⟩ := xor_mask_spec x n hx
  have hle : 2 ^ n ≤ 2 ^ 64 := Nat.pow_le_pow_right (by decide) hn
  have hpos : 0 < 2 ^ n := Nat.two_pow_pos n
  have e := popcount_or_of_disjoint x (x ^^^ (2 ^ n - 1)) h2
  rw [h3] at e
  rw [POPCNT64_eq_bitSum _ (by omega), POPCNT64_eq_bitSum _ (by omega),
    POPCNT64_eq_bitSum _ (by omega), ← popcount_eq_bitSum, ← popcount_eq_bitSum,
    ← popcount_eq_bitSum, e]
  push_cast
  ring

theorem test_not (a : Bitboard) (sq : Nat) (hsq : sq < 81) : a.not.test sq = !a.test sq := by
  have m0 : (0x7FFFFFFFFFFFFFFF : Nat) = 2 ^ 63 - 1 := by norm_num
  have m1 : (0x3FFFF : Nat) = 2 ^ 18 - 1 := by norm_num
  unfold Bitboard.not Bitboard.xor ALL_BB Bitboard.test
  simp only [m0, m1]
  by_cases h63 : sq < 63
  · simp only [if_pos h63]
    rw [Nat.testBit_xor, Nat.testBit_two_pow_sub_one, decide_eq_true h63, Bool.xor_true]
  · simp only [if_neg h63]
    rw [Nat.testBit_xor, Nat.testBit_two_pow_sub_one,
      decide_eq_true (by omega : sq - 63 < 18), Bool.xor_true]

/-- C32. On well-formed Bitboards the operator `~` is the set complement within the 81 board
squares: for every well-formed `a`, `~~a = a`, `a & ~a = ZERO_BB`, `a | ~a = ALL_BB` and
`pop_count(~a) = 81 - pop_count(a)`; `~a` is well-formed and holds exactly the board squares
that are not in `a`. -/
theorem not_is_complement (a : Bitboard) (hw : a.wellFormed) :
    a.not.not = a ∧ a.and a.not = ZERO_BB ∧ a.or a.not = ALL_BB ∧
    a.not.pop_count = 81 - a.pop_count ∧ a.not.wellFormed ∧
    ∀ sq, sq < 81 → a.not.test sq = !a.test sq := by
  obtain ⟨h0, h1⟩ := hw
  have m0 : (0x7FFFFFFFFFFFFFFF : Nat) = 2 ^ 63 - 1 := by norm_num
  have m1 : (0x3FFFF : Nat) = 2 ^ 18 - 1 := by norm_num
  obtain ⟨a1, a2, a3, a4⟩ := xor_mask_spec a.p0 63 h0
  obtain ⟨b1, b2, b3, b4⟩ := xor_mask_spec a.p1 18 h1
  have c0 := POPCNT64_xor_mask a.p0 63 (by decide) h0
  have c1 := POPCNT64_xor_mask a.p1 18 (by decide) h1
  have k0 : POPCNT64 (2 ^ 63 - 1) = 63 := by decide
  have k1 : POPCNT64 (2 ^ 18 - 1) = 18 := by decide
  have hnot : a.not = ⟨a.p0 ^^^ (2 ^ 63 - 1), a.p1 ^^^ (2 ^ 18 - 1)⟩ := by
    unfold Bitboard.not Bitboard.xor ALL_BB
    simp only [m0, m1]
  refine ⟨?_, ?_, ?_, ?_, ?_, ?_⟩
  · rw [hnot]
    unfold Bitboard.not Bitboard.xor ALL_BB
    simp only [m0, m1, a1, b1]
  · rw [hnot]
    unfold Bitboard.and ZERO_BB
    simp only [a2, b2]
  · rw [hnot]
    unfold Bitboard.or ALL_BB
    simp only [a3, b3, m0, m1]
  · rw [hnot]
    unfold Bitboard.pop_count
    simp only [c0, c1, k0, k1]
    ring
  · rw [hnot]; exact ⟨a4, b4⟩
  · intro sq hsq
    exact test_not a sq hsq

theorem not_is_complement_witness :
    (RANK_BB 3).not.not = RANK_BB 3 ∧ (RANK_BB 3).and (RANK_BB 3).not = ZERO_BB ∧
    (RANK_BB 3).or (RANK_BB 3).not = ALL_BB ∧
    (RANK_BB 3).not.pop_count = 81 - (RANK_BB 3).pop_count ∧ (RANK_BB 3).not.wellFormed ∧
    ∀ sq, sq < 81 → (RANK_BB 3).not.test sq = !(RANK_BB 3).test sq :=
  not_is_complement (RANK_BB 3) (by decide)

theorem is_ok_Move_encoded (f t d p : Nat) (hf : f < 128) (ht : t < 128) :
    is_ok_Move (t + f * 128 + d * 2 ^ 14 + p * 2 ^ 15) = decide (f + d * 128 + p * 256 ≠ t) := by
  have m7 : (0x7f : Nat) = 2 ^ 7 - 1 := by decide
  unfold is_ok_Move
  rw [m7, Nat.and_pow_two_sub_one_eq_mod, Nat.shiftRight_eq_div_pow]
  have e14 : (2 : Nat) ^ 14 = 16384 := by norm_num
  have e15 : (2 : Nat) ^ 15 = 32768 := by norm_num
  have e7 : (2 : Nat) ^ 7 = 128 := by norm_num
  rw [e14, e15, e7]
  apply decide_eq_decide.2
  omega

/-- C34. The function `is_ok(Move)` is false for `MOVE_NONE`, `MOVE_NULL` and `MOVE_RESIGN`, is
true for every drop `make_move_drop(pt, to)` with `pt` in PAWN..GOLD and `to` in 0..80, and for
a board move `make_move(from, to)` with `from`, `to` in 0..80 it is true if and only if
`from != to`. -/
theorem is_ok_Move_spec (src dst pt : Nat) (hs : src ≤ 80) (hd : dst ≤ 80) (hp1 : PAWN ≤ pt)
    (hp7 : pt ≤ GOLD) :
    is_ok_Move MOVE_NONE = false ∧ is_ok_Move MOVE_NULL = false ∧
    is_ok_Move MOVE_RESIGN = false ∧ is_ok_Move (make_move_drop pt dst) = true ∧
    (is_ok_Move (make_move src dst) = true ↔ src ≠ dst) := by
  have hP : PAWN = 1 := rfl
  have hG : GOLD = 7 := rfl
  have hD : MOVE_DROP = 2 ^ 14 := by decide
  rw [hP] at hp1
  rw [hG] at hp7
  have e1 : make_move src dst = dst + src * 128 + 0 * 2 ^ 14 + 0 * 2 ^ 15 := by
    unfold make_move
    have := toU16_of_nat (dst + src * 128) (by norm_num; omega)
    push_cast at this
    rw [this]; simp
  have e3 : make_move_drop pt dst = dst + pt * 128 + 1 * 2 ^ 14 + 0 * 2 ^ 15 := by
    unfold make_move_drop
    have := toU16_of_nat (dst + pt * 128 + MOVE_DROP) (by rw [hD]; norm_num; omega)
    push_cast at this
    rw [this, hD]; simp
  refine ⟨by decide, by decide, by decide, ?_, ?_⟩
  · rw [e3, is_ok_Move_encoded pt dst 1 0 (by omega) (by omega), decide_eq_true_eq]
    omega
  · rw [e1, is_ok_Move_encoded src dst 0 0 (by omega) (by omega), decide_eq_true_eq]
    omega

theorem is_ok_Move_spec_witness :
    is_ok_Move MOVE_NONE = false ∧ is_ok_Move MOVE_NULL = false ∧
    is_ok_Move MOVE_RESIGN = false ∧ is_ok_Move (make_move_drop 1 (1 : Nat)) = true ∧
    (is_ok_Move (make_move (1 : Nat) (1 : Nat)) = true ↔ (1 : Nat) ≠ 1) :=
  is_ok_Move_spec 1 1 1 (by decide) (by decide) (by decide) (by decide)

theorem make_move_encoded (s t : Nat) (hs : s < 128) (ht : t < 128) :
    make_move s t = t + s * 128 + 0 * 2 ^ 14 + 0 * 2 ^ 15 ∧
    make_move_promote s t = t + s * 128 + 0 * 2 ^ 14 + 1 * 2 ^ 15 ∧
    make_move_drop s t = t + s * 128 + 1 * 2 ^ 14 + 0 * 2 ^ 15 := by
  have hD : MOVE_DROP = 2 ^ 14 := by decide
  have hP : MOVE_PROMOTE = 2 ^ 15 := by decide
  refine ⟨?_, ?_, ?_⟩
  · unfold make_move
    have := toU16_of_nat (t + s * 128) (by norm_num; omega)
    push_cast at this
    rw [this]; simp
  · unfold make_move_promote
    have := toU16_of_nat (t + s * 128 + MOVE_PROMOTE) (by rw [hP]; norm_num; omega)
    push_cast at this
    rw [this, hP]; simp
  · unfold make_move_drop
    have := toU16_of_nat (t + s * 128 + MOVE_DROP) (by rw [hD]; norm_num; omega)
    push_cast at this
    rw [this, hD]; simp

set_option maxRecDepth 100000 in
theorem ostream_Square_parse : ∀ sq, sq < 81 →
    ostream_Square sq = [(ostream_Square sq).getD 0 ' ', (ostream_Square sq).getD 1 ' '] ∧
    usi_to_sq ((ostream_Square sq).getD 0 ' ') ((ostream_Square sq).getD 1 ' ') = (sq : Int) ∧
    (ostream_Square sq).getD 1 ' ' ≠ '*' := by
  decide

theorem ostream_Piece_parse : ∀ pt, pt < 8 → 1 ≤ pt →
    ostream_Piece pt = [(ostream_Piece pt).getD 0 ' '] ∧
    dropPieceLoop ((ostream_Piece pt).getD 0 ' ') 7 1 = some pt := by
  decide

theorem uci_to_move_four (a b c d : Char) (hb : b ≠ '*') :
    uci_to_move [a, b, c, d] =
      if is_ok_Square (usi_to_sq c d) then
        (if is_ok_Square (usi_to_sq a b) then make_move (usi_to_sq a b) (usi_to_sq c d)
          else MOVE_NONE)
      else MOVE_NONE := by
  unfold uci_to_move
  simp [hb]
  cases is_ok_Square (usi_to_sq c d) <;> simp

theorem uci_to_move_five (a b c d : Char) (hb : b ≠ '*') :
    uci_to_move [a, b, c, d, '+'] =
      if is_ok_Square (usi_to_sq c d) then
        (if is_ok_Square (usi_to_sq a b) then
          make_move_promote (usi_to_sq a b) (usi_to_sq c d)
          else MOVE_NONE)
      else MOVE_NONE := by
  unfold uci_to_move
  simp [hb]
  cases is_ok_Square (usi_to_sq c d) <;> simp

theorem uci_to_move_star (p c d : Char) :
    uci_to_move [p, '*', c, d] =
      if is_ok_Square (usi_to_sq c d) then
        (match dropPieceLoop p 7 1 with
          | some i => make_move_drop i (usi_to_sq c d)
          | none => MOVE_NONE)
      else MOVE_NONE := by
  unfold uci_to_move
  simp
  cases is_ok_Square (usi_to_sq c d) <;> rfl

set_option maxRecDepth 100000 in
/-- With a knight alone in the hand and the knight bit of row 0 set, `hk` is 0: the jump to
`MOVE_MATE` skips the initialisation of `them` and `themKing` and the knight part reads them
uninitialised; the source does not determine a result. -/
theorem mate1ply_impl_reads_uninitialised :
    (toHandKind (knightHandPos.hand 0) &&& ((HAND_KIND_PAWN ||| HAND_KIND_KNIGHT) ^^^ 0xFFFFFFFF))
      &&& knightEnv.mate1ply_drop_tbl 0 0 0 = 0 ∧
    knightEnv.mate1ply_drop_tbl 0 0 0 &&& HAND_KIND_KNIGHT ≠ 0 ∧
    mate1ply_impl knightEnv knightHandPos 0 = none := by
  decide

set_option maxRecDepth 100000 in
/-- C35. The two definitions of the promotion zone agree: for every colour `c` and every square
`sq` in 0..80, `enemy_field(c) = rank1_n_bb(c, RANK_3)` reads an entry of `InFrontBB[c]`, and
`canPromote(c, sq)` is true if and only if `sq` belongs to it; the zone is ranks 1-3 (rank
index below 3) for BLACK and ranks 7-9 (rank index above 5) for WHITE. -/
theorem canPromote_iff_enemy_field :
    (∀ c, c < 2 → ∃ bb, enemy_field c = some bb ∧
      ∀ sq, sq < 81 → (canPromote_Square c sq = true ↔ bb.test sq = true)) ∧
    (∀ sq, sq < 81 → (canPromote_Square BLACK sq = true ↔ rank_of sq < 3)) ∧
    (∀ sq, sq < 81 → (canPromote_Square WHITE sq = true ↔ 5 < rank_of sq)) := by
  refine ⟨?_, by decide, by decide⟩
  intro c hc
  interval_cases c
  · exact ⟨InFrontBB BLACK 3, by decide, by decide⟩
  · exact ⟨InFrontBB WHITE 5, by decide, by decide⟩

theorem hashfull_of_zero_entries (tt : TranspositionTable)
    (hz : ∀ i j, tt.table i j = mkEntry 0 0 0) :
    tt.hashfull
      = if tt.generation8 = 0 then (((1000 / tt.ClusterSize) * tt.ClusterSize : Nat) : Int)
        else 0 := by
  rw [hashfull_eq_sum]
  have hgen : ∀ i j, (tt.table i j).generation = 0 := by
    intro i j; rw [hz]; rfl
  simp only [hgen]
  by_cases hg : tt.generation8 = 0
  · rw [if_pos hg, hg]
    simp
  · rw [if_neg hg]
    have : ¬ (0 = tt.generation8) := fun h => hg h.symm
    simp [this]

/-- C36 fails at generation 0: on the zero-filled table `zeroTable` (clusters of three entries,
current generation 0) every sampled entry has stored generation 0, equal to the current one, and
`hashfull` returns 999, the number of sampled entries, although nothing was ever written. -/
theorem hashfull_zero_table_generation_zero :
    (∀ i j, zeroTable.table i j = mkEntry 0 0 0) ∧ zeroTable.generation8 = 0 ∧
    zeroTable.hashfull = 999 := by
  refine ⟨fun _ _ => rfl, rfl, ?_⟩
  rw [hashfull_of_zero_entries zeroTable (fun _ _ => rfl)]
  decide

/-- C36, amended. On a table whose entries are all zero, as left by `resize`, `hashfull` returns
0 for every non-zero value of the current generation; at generation 0 it returns the number
`(1000 / ClusterSize) * ClusterSize` of sampled entries. -/
theorem hashfull_zero_table (tt : TranspositionTable)
    (hz : ∀ i j, tt.table i j = mkEntry 0 0 0) :
    (tt.generation8 ≠ 0 → tt.hashfull = 0) ∧
    (tt.generation8 = 0 →
      tt.hashfull = (((1000 / tt.ClusterSize) * tt.ClusterSize : Nat) : Int)) := by
  have h := hashfull_of_zero_entries tt hz
  constructor
  · intro hg; rw [h, if_neg hg]
  · intro hg; rw [h, if_pos hg]

theorem hashfull_zero_table_witness :
    ((zeroTableAt 4).generation8 ≠ 0 → (zeroTableAt 4).hashfull = 0) ∧
    ((zeroTableAt 4).generation8 = 0 →
      (zeroTableAt 4).hashfull
        = (((1000 / (zeroTableAt 4).ClusterSize) * (zeroTableAt 4).ClusterSize : Nat) : Int)) :=
  hashfull_zero_table (zeroTableAt 4) (fun _ _ => rfl)

theorem rank1_n_index_in_bounds (US : Nat) (r : Int) (hr : is_ok_Rank r = true) :
    (0 ≤ rank1_n_index US r ∧ rank1_n_index US r < 9) ↔ r ≤ 7 := by
  unfold is_ok_Rank at hr
  simp only [decide_eq_true_eq] at hr
  unfold rank1_n_index
  split <;> omega

/-- C37 fails: `RANK_9` satisfies the asserted precondition `is_ok(r)`, but for it `rank1_n_bb`
reads `InFrontBB[BLACK][9]` for BLACK and `InFrontBB[WHITE][-1]` for WHITE, outside the nine
entries 0..8 of the row; the ranks `RANK_1` .. `RANK_8` are the ones whose index is in bounds. -/
theorem rank1_n_bb_index_out_of_bounds :
    is_ok_Rank 8 = true ∧
    rank1_n_index BLACK 8 = 9 ∧ rank1_n_bb BLACK 8 = none ∧
    rank1_n_index WHITE 8 = -1 ∧ rank1_n_bb WHITE 8 = none := by
  decide

/-- C38. USI text round-trips through the parser: for every board move `make_move(from, to)` or
`make_move_promote(from, to)` with `from != to` in 0..80 and every drop `make_move_drop(pt, to)`
with `pt` in PAWN..GOLD and `to` in 0..80, `uci_to_move` applied to the text that the operator
`<<` prints for the move returns the same move. -/
theorem uci_to_move_ostream_Move (src dst pt : Nat) (hs : src ≤ 80) (hd : dst ≤ 80)
    (hne : src ≠ dst) (hp1 : PAWN ≤ pt) (hp7 : pt ≤ GOLD) :
    uci_to_move (ostream_Move (make_move src dst)) = make_move src dst ∧
    uci_to_move (ostream_Move (make_move_promote src dst)) = make_move_promote src dst ∧
    uci_to_move (ostream_Move (make_move_drop pt dst)) = make_move_drop pt dst := by
  have hP : PAWN = 1 := rfl
  have hG : GOLD = 7 := rfl
  rw [hP] at hp1
  rw [hG] at hp7
  obtain ⟨e1, e2, -⟩ := make_move_encoded src dst (by omega) (by omega)
  obtain ⟨-, -, e3⟩ := make_move_encoded pt dst (by omega) (by omega)
  obtain ⟨a1, a2, a3, a4⟩ := move_decode src dst 0 0 (by omega) (by omega) (by decide) (by decide)
  obtain ⟨b1, b2, b3, b4⟩ := move_decode src dst 0 1 (by omega) (by omega) (by decide) (by decide)
  obtain ⟨c1, c2, c3, c4⟩ := move_decode pt dst 1 0 (by omega) (by omega) (by decide) (by decide)
  have o1 := is_ok_Move_encoded src dst 0 0 (by omega) (by omega)
  have o2 := is_ok_Move_encoded src dst 0 1 (by omega) (by omega)
  have o3 := is_ok_Move_encoded pt dst 1 0 (by omega) (by omega)
  rw [← e1] at a1 a2 a3 a4 o1
  rw [← e2] at b1 b2 b3 b4 o2
  rw [← e3] at c1 c2 c3 c4 o3
  have ok1 : is_ok_Move (make_move src dst) = true := by
    rw [o1, decide_eq_true_eq]; omega
  have ok2 : is_ok_Move (make_move_promote src dst) = true := by
    rw [o2, decide_eq_true_eq]; omega
  have ok3 : is_ok_Move (make_move_drop pt dst) = true := by
    rw [o3, decide_eq_true_eq]; omega
  obtain ⟨s1, s2, s3⟩ := ostream_Square_parse src (by omega)
  obtain ⟨d1, d2, -⟩ := ostream_Square_parse dst (by omega)
  obtain ⟨p1, p2⟩ := ostream_Piece_parse pt (by omega) hp1
  have hoks : is_ok_Square (src : Int) = true := by
    unfold is_ok_Square SQ_NB; rw [decide_eq_true_eq]; omega
  have hokd : is_ok_Square (dst : Int) = true := by
    unfold is_ok_Square SQ_NB; rw [decide_eq_true_eq]; omega
  refine ⟨?_, ?_, ?_⟩
  · have ht : ostream_Move (make_move src dst)
        = [(ostream_Square src).getD 0 ' ', (ostream_Square src).getD 1 ' ',
            (ostream_Square dst).getD 0 ' ', (ostream_Square dst).getD 1 ' '] := by
      unfold ostream_Move
      rw [ok1, a3, a1, a2, a4]
      simp only [Bool.not_true, decide_False, Bool.false_eq_true, if_false, List.append_nil]
      conv_lhs => rw [s1, d1]
      rfl
    rw [ht, uci_to_move_four _ _ _ _ s3, s2, d2, hoks, hokd, if_pos rfl, if_pos rfl]
  · have ht : ostream_Move (make_move_promote src dst)
        = [(ostream_Square src).getD 0 ' ', (ostream_Square src).getD 1 ' ',
            (ostream_Square dst).getD 0 ' ', (ostream_Square dst).getD 1 ' ', '+'] := by
      unfold ostream_Move
      rw [ok2, b3, b1, b2, b4]
      simp only [Bool.not_true, decide_False, decide_True, Bool.false_eq_true, if_false, if_true]
      conv_lhs => rw [s1, d1]
      rfl
    rw [ht, uci_to_move_five _ _ _ _ s3, s2, d2, hoks, hokd, if_pos rfl, if_pos rfl]
  · have ht : ostream_Move (make_move_drop pt dst)
        = [(ostream_Piece pt).getD 0 ' ', '*',
            (ostream_Square dst).getD 0 ' ', (ostream_Square dst).getD 1 ' '] := by
      unfold ostream_Move
      rw [ok3, c3, c1, c2]
      simp only [Bool.not_true, decide_True, Bool.false_eq_true, if_false, if_true]
      conv_lhs => rw [p1, d1]
      rfl
    rw [ht, uci_to_move_star, d2, hokd, if_pos rfl, p2]

theorem uci_to_move_ostream_Move_witness :
    uci_to_move (ostream_Move (make_move (60 : Nat) (59 : Nat))) = make_move (60 : Nat) (59 : Nat) ∧
    uci_to_move (ostream_Move (make_move_promote (60 : Nat) (59 : Nat)))
      = make_move_promote (60 : Nat) (59 : Nat) ∧
    uci_to_move (ostream_Move (make_move_drop 7 (59 : Nat))) = make_move_drop 7 (59 : Nat) :=
  uci_to_move_ostream_Move 60 59 7 (by decide) (by decide) (by decide) (by decide) (by decide)

/-- C39 fails: the array of a ByteBoard is indexed by `sq + 16` with no padding between the
files, so the cell at offset -1 of square 9 (file 2, rank 1) is that of square 8 (file 1,
rank 9). With a count of 1 (or 2) stored for square 8 and 0 elsewhere, `around8(9)` (and
`around8_larger_than_two(9)`) has bit 3 set, although the position one rank above square 9 is
off the board, and square 8 is no neighbour of square 9. -/
theorem around8_wall_bit_set :
    (byteBoardOf [(8, 1)]).count 8 = 1 ∧
    (byteBoardOf [(8, 1)]).around8 9 = 8 ∧
    (byteBoardOf [(8, 2)]).around8_larger_than_two 9 = 8 ∧
    around8Steps.getD 3 (0, 0, 0) = (-1, 0, -1) ∧
    file_of 9 = 1 ∧ rank_of 9 = 0 ∧ onBoardStep 9 0 (-1) = false ∧
    file_of 8 = 0 ∧ rank_of 8 = 8 := by
  decide

theorem swar_round32 (w n : Nat) (a M : Nat) (hM : M = swarMask w n) (hn : 2 * w * n = 32) :
    ((fieldCount w (2 * n) a &&& M) + (fieldCount w (2 * n) a >>> w &&& M)) % 2 ^ 32
      = fieldCount (2 * w) n a := by
  subst hM
  rw [swar_step, pairSums_fieldCount]
  have := fieldCount_lt (2 * w) n a
  rw [hn] at this
  exact Nat.mod_eq_of_lt this

theorem POPCNT32_eq_bitSum (a : Nat) (ha : a < 2 ^ 32) : POPCNT32 a = (bitSum 32 a : Int) := by
  have h0 : a = fieldCount 1 (2 * 16) a := by
    rw [fieldCount_one]; exact (Nat.mod_eq_of_lt ha).symm
  unfold POPCNT32
  simp only []
  conv_lhs => rw [h0]
  rw [swar_round32 1 16 a _ (by decide) (by decide)]
  rw [swar_round32 2 8 a _ (by decide) (by decide)]
  rw [swar_round32 4 4 a _ (by decide) (by decide)]
  rw [swar_round32 8 2 a _ (by decide) (by decide)]
  rw [swar_round32 16 1 a _ (by decide) (by decide)]
  have hb0 := bitSum_le 32 (a % 2 ^ 32)
  have e : fieldCount (2 * 16) 1 a = bitSum 32 (a % 2 ^ 32) := by
    simp [fieldCount]
  rw [e, toInt32_small _ (by omega), Nat.mod_eq_of_lt ha]

/-- C40. The software population counts are exact: for every 64-bit `a`, `POPCNT64(a)` equals
the number of 1 bits of `a`, and for every 32-bit `c`, `POPCNT32(c)` equals the number of 1 bits
of `c`; hence `Bitboard::pop_count()` equals the number of set bits of `p[0]` plus that of
`p[1]`. -/
theorem popcnt_exact (a c : Nat) (b : Bitboard) (ha : a < 2 ^ 64) (hc : c < 2 ^ 32)
    (hb0 : b.p0 < 2 ^ 64) (hb1 : b.p1 < 2 ^ 64) :
    POPCNT64 a = (((List.range 64).filter (fun j => a.testBit j)).length : Int) ∧
    POPCNT32 c = (((List.range 32).filter (fun j => c.testBit j)).length : Int) ∧
    b.pop_count = (((List.range 64).filter (fun j => b.p0.testBit j)).length : Int)
      + (((List.range 64).filter (fun j => b.p1.testBit j)).length : Int) := by
  refine ⟨?_, ?_, ?_⟩
  · rw [POPCNT64_eq_bitSum a ha, length_filter_testBit]
  · rw [POPCNT32_eq_bitSum c hc, length_filter_testBit]
  · unfold Bitboard.pop_count
    rw [POPCNT64_eq_bitSum _ hb0, POPCNT64_eq_bitSum _ hb1, length_filter_testBit,
      length_filter_testBit]

theorem popcnt_exact_witness :
    POPCNT64 0xF0F0000012345678
      = (((List.range 64).filter (fun j => (0xF0F0000012345678 : Nat).testBit j)).length : Int) ∧
    POPCNT32 0xF0F01234
      = (((List.range 32).filter (fun j => (0xF0F01234 : Nat).testBit j)).length : Int) ∧
    (RANK_BB 3).pop_count
      = (((List.range 64).filter (fun j => (RANK_BB 3).p0.testBit j)).length : Int)
      + (((List.range 64).filter (fun j => (RANK_BB 3).p1.testBit j)).length : Int) :=
  popcnt_exact 0xF0F0000012345678 0xF0F01234 (RANK_BB 3) (by decide) (by decide) (by decide)
    (by decide)

end YaneuraOu
